import Mathlib

/-!
MortyOS memory management: virtual memory manager (`src/mem/vmm.c`), kernel heap
(`src/mem/heap.c`) and the interrupt-flag helpers of `src/libs/common.c`, as a shallow
embedding.

* Machine words are natural numbers reduced modulo `2 ^ 32` wherever the C code
  computes in `uint32_t`.
* Memory is a map from byte addresses to 32-bit words.  Every pointer the VMM
  dereferences is a `uint32_t *` into a page directory or a page table, so all
  accesses are word accesses.
* Chunk headers are kept in a store of their own, one header per address.  This
  is faithful to the C code as long as every header read or written lies in a mapped page
  of the arena and headers at distinct addresses are at least `sizeof(header_t)` bytes
  apart; a header access in an unmapped page, which raises a page fault in the kernel, is
  not modelled.  The claims about the heap are therefore settled on call sequences from
  the empty heap in which all headers lie below `heap_max`, `sizeof(header_t)` or more
  apart: the concrete runs, and the chains of allocated chunks.
* The physical page allocator (`pmm_alloc_page` in `vmm.c`, `pmmAllocPage` and
  `pmmFreePage` in `heap.c`) is not part of the sources; it is modelled as a pool of free
  frames.
* Headers `vmm.h` and `heap.h` are not part of the sources.  The paging constants
  are the fixed x86 layout constants the specification lists; the heap base, the
  header size and the address of the kernel directory are parameters
  (`Layout`), as are the address of the kernel page tables and the constants of
  `common.h`.
* Output is modelled as the list of `printf` calls made, each with its format string and
  arguments; the register EFLAGS is a 32-bit word on which `sti` and `cli` set and clear
  bit 9.
-/

namespace MortyOS

/-! ## Machine words and memory -/

/-- Reduction of a natural number to a `uint32_t` value. -/
def u32 (x : Nat) : Nat := x % 4294967296

/-- Subtraction of `uint32_t` values, wrapping modulo `2 ^ 32`. -/
def sub32 (a b : Nat) : Nat := (u32 a + (4294967296 - u32 b)) % 4294967296

/-- Memory: the 32-bit word stored at each byte address. -/
abbrev Mem := Nat → Nat

/-- Memory after the word at address `a` is overwritten with `v`. -/
def Mem.store (m : Mem) (a v : Nat) : Mem := fun x => if x = a then v else m x

/-- Address of `base[i]` for a `uint32_t *base`. -/
def elem (base i : Nat) : Nat := u32 (base + 4 * i)

/-! ## Paging constants (`vmm.h`) -/

/-- Modelled from the spec: `PAGE_SIZE` of the absent `vmm.h`, page size 4096 bytes. -/
def PAGE_SIZE : Nat := 4096

/-- Modelled from the spec: `PAGE_MASK` of the absent `vmm.h`, the frame-address mask that
clears the low 12 offset bits. -/
def PAGE_MASK : Nat := 0xFFFFF000

/-- Modelled from the spec: `PAGE_OFFSET` of the absent `vmm.h`, the higher-half base
`0xC0000000` at which physical memory is linearly mapped. -/
def PAGE_OFFSET : Nat := 0xC0000000

/-- Modelled from the spec: `PAGE_PRESENT` of the absent `vmm.h`, the present flag bit. -/
def PAGE_PRESENT : Nat := 0x1

/-- Modelled from the spec: `PAGE_WRITE` of the absent `vmm.h`, the writable flag bit. -/
def PAGE_WRITE : Nat := 0x2

/-- Modelled from the spec: `PGD_SIZE` of the absent `vmm.h`, a directory holds 1024 entries. -/
def PGD_SIZE : Nat := 1024

/-- Modelled from the spec: `PTE_SIZE` of the absent `vmm.h`, a table holds 1024 entries. -/
def PTE_SIZE : Nat := 1024

/-- Modelled from the spec: `PGD_INDEX` of the absent `vmm.h`, the directory index is the top
10 bits of a 32-bit virtual address. -/
def PGD_INDEX (x : Nat) : Nat := (x >>> 22) &&& 0x3FF

/-- Modelled from the spec: `PTE_INDEX` of the absent `vmm.h`, the table index is the middle
10 bits of a 32-bit virtual address. -/
def PTE_INDEX (x : Nat) : Nat := (x >>> 12) &&& 0x3FF

/-! ## Physical page allocator -/

/-- State of the machine seen by the VMM: memory and the pool of free physical frames. -/
structure VmState where
  /-- Memory holding page directories and page tables. -/
  mem : Mem
  /-- Free frames of the physical page allocator. -/
  pool : List Nat

/-- Modelled from the spec: `pmm_alloc_page` (absent `pmm.c`) hands out one free physical
page frame, and is fatal when the pool is exhausted (`none`). -/
def pmm_alloc_page (s : VmState) : Option (Nat × VmState) :=
  match s.pool with
  | [] => none
  | page :: rest => some (page, { s with pool := rest })

/-- Modelled from the spec: `pmmFreePage` (absent `pmm.c`) returns a frame to the free
pool. -/
def pmmFreePage (s : VmState) (page : Nat) : VmState :=
  { s with pool := page :: s.pool }

/-! ## Virtual memory manager (`src/mem/vmm.c`) -/

/-- The effect of `bzero(p, n)`: every word whose address lies in `[p, p + n)` is cleared. -/
def bzero (m : Mem) (p n : Nat) : Mem := fun x => if p ≤ x ∧ x < p + n then 0 else m x

/-- The function `map` of `vmm.c`; `none` when a page table is needed and the page allocator
is exhausted.  `tlb_flush` has no effect on memory. -/
def map (s : VmState) (pgd v_addr p_addr flags : Nat) : Option VmState :=
  let pgd_idx := PGD_INDEX v_addr
  let pte_idx := PTE_INDEX v_addr
  let pte := s.mem (elem pgd pgd_idx) &&& PAGE_MASK
  if pte = 0 then
    match pmm_alloc_page s with
    | none => none
    | some (pte, s1) =>
      let m1 := s1.mem.store (elem pgd pgd_idx) (u32 (pte ||| PAGE_PRESENT ||| PAGE_WRITE))
      let pte := u32 (pte + PAGE_OFFSET)
      let m2 := bzero m1 pte PAGE_SIZE
      some { s1 with mem := m2.store (elem pte pte_idx) (u32 ((p_addr &&& PAGE_MASK) ||| flags)) }
  else
    let pte := u32 (pte + PAGE_OFFSET)
    some { s with mem := s.mem.store (elem pte pte_idx) (u32 ((p_addr &&& PAGE_MASK) ||| flags)) }

/-- The function `unmap` of `vmm.c`.  The null test is made after `PAGE_OFFSET` has been
added to the table address, as in the source. -/
def unmap (m : Mem) (pgd v_addr : Nat) : Mem :=
  let pgd_idx := PGD_INDEX v_addr
  let pte_idx := PTE_INDEX v_addr
  let pte := m (elem pgd pgd_idx) &&& PAGE_MASK
  let pte := u32 (pte + PAGE_OFFSET)
  if pte = 0 then m
  else m.store (elem pte pte_idx) 0

/-- The function `getMapping` of `vmm.c`: the returned value, and the word stored through
`p_addr_ptr` when one is stored. -/
def getMapping (m : Mem) (pgd v_addr p_addr_ptr : Nat) : Nat × Option Nat :=
  let pgd_idx := PGD_INDEX v_addr
  let pte_idx := PTE_INDEX v_addr
  let pte := m (elem pgd pgd_idx) &&& PAGE_MASK
  if pte = 0 then (0, none)
  else
    let pte := u32 (pte + PAGE_OFFSET)
    if m (elem pte pte_idx) ≠ 0 ∧ p_addr_ptr ≠ 0 then
      (1, some (m (elem pte pte_idx) &&& PAGE_MASK))
    else (0, none)

/-- The inner loop of `clone_pgd`: copies entries `j, j + 1, ...` (`k` of them) of the source
table to the destination table. -/
def copy_entries : Nat → Nat → Mem → Nat → Nat → Mem
  | 0, _, m, _, _ => m
  | k + 1, j, m, pte_dst_vir, pte_src_vir =>
    copy_entries k (j + 1) (m.store (elem pte_dst_vir j) (m (elem pte_src_vir j)))
      pte_dst_vir pte_src_vir

/-- The outer loop of `clone_pgd` over the rows `i, i + 1, ...` (`k` of them). -/
def clone_rows (pgd_dst pgd_src : Nat) : Nat → Nat → VmState → Option VmState
  | 0, _, s => some s
  | k + 1, i, s =>
    let pte_src := s.mem (elem pgd_src i) &&& PAGE_MASK
    let pte_src_vir := u32 (pte_src + PAGE_OFFSET)
    if pte_src = 0 then clone_rows pgd_dst pgd_src k (i + 1) s
    else
      match pmm_alloc_page s with
      | none => none
      | some (pte_dst, s1) =>
        let m1 := s1.mem.store (elem pgd_dst i) (u32 (pte_dst ||| PAGE_PRESENT ||| PAGE_WRITE))
        let pte_dst_vir := u32 (pte_dst + PAGE_OFFSET)
        clone_rows pgd_dst pgd_src k (i + 1)
          { s1 with mem := copy_entries PTE_SIZE 0 m1 pte_dst_vir pte_src_vir }

/-- The function `clone_pgd` of `vmm.c`; `none` when the page allocator is exhausted. -/
def clone_pgd (s : VmState) (pgd_dst pgd_src : Nat) : Option VmState :=
  clone_rows pgd_dst pgd_src PGD_SIZE 0 s

/-! ## Kernel heap (`src/mem/heap.c`) -/

/-- Constants the heap takes from headers and the linker that are not part of the sources:
`HEAP_START` (arena base), `HDR` (the value of `sizeof(header_t)`) and the address of the
kernel page directory `pgd_kern`. -/
structure Layout where
  /-- The arena base `HEAP_START`. -/
  HEAP_START : Nat
  /-- The header size `sizeof(header_t)`. -/
  HDR : Nat
  /-- The address of the array `pgd_kern`. -/
  pgd_kern : Nat

/-- Modelled from the spec: `header_t` of the absent `heap.h`, a header holding the back-link
to the previous chunk, the forward-link to the next chunk, an allocated flag, and a length
that includes the header. -/
structure header_t where
  /-- Back-link. -/
  prev : Nat
  /-- Forward-link. -/
  next : Nat
  /-- Allocated flag. -/
  allocated : Nat
  /-- Length of the chunk, header included. -/
  len : Nat

/-- State of the heap: the globals `heap_head` and `heap_max`, the chunk header stored at
each address of the arena, and the state of the VMM and page allocator the heap calls.
The length of a chunk is kept as a 32-bit word.  Headers are objects of their own, not words
of `vm.mem`: the state stands for the kernel's only while every header in use lies in a
mapped page of the arena, below `heap_max`, at least `sizeof(header_t)` bytes from the
others. -/
structure Heap where
  /-- The global `heap_head`. -/
  heap_head : Nat
  /-- The global `heap_max`. -/
  heap_max : Nat
  /-- The header stored at each address. -/
  chunk : Nat → header_t
  /-- Page tables and free frames. -/
  vm : VmState

/-- The fields of a header: back-link, forward-link, allocated flag and length. -/
def header_t.fields (x : header_t) : Nat × Nat × Nat × Nat :=
  (x.prev, x.next, x.allocated, x.len)

/-- Assignment `c->prev = v`. -/
def Heap.setPrev (h : Heap) (c v : Nat) : Heap :=
  { h with chunk := fun x => if x = c then { h.chunk x with prev := v } else h.chunk x }

/-- Assignment `c->next = v`. -/
def Heap.setNext (h : Heap) (c v : Nat) : Heap :=
  { h with chunk := fun x => if x = c then { h.chunk x with next := v } else h.chunk x }

/-- Assignment `c->allocated = v`. -/
def Heap.setAllocated (h : Heap) (c v : Nat) : Heap :=
  { h with chunk := fun x => if x = c then { h.chunk x with allocated := v } else h.chunk x }

/-- Assignment `c->len = v`. -/
def Heap.setLen (h : Heap) (c v : Nat) : Heap :=
  { h with chunk := fun x => if x = c then { h.chunk x with len := v } else h.chunk x }

/-- The state set up by `initHeap` together with the initialiser of `heap_max`. -/
def initHeap (L : Layout) (chunk : Nat → header_t) (vm : VmState) : Heap :=
  { heap_head := 0, heap_max := L.HEAP_START, chunk := chunk, vm := vm }

/-- The function `allocChunk` of `heap.c`; the loop runs at most `fuel` times.  The result
is `none` when the fuel or the page allocator is exhausted. -/
def allocChunk (L : Layout) : Nat → Heap → Nat → Nat → Option Heap
  | 0, _, _, _ => none
  | fuel + 1, h, start, len =>
    if u32 (start + len) > h.heap_max then
      match pmm_alloc_page h.vm with
      | none => none
      | some (page, vm1) =>
        match map vm1 L.pgd_kern h.heap_max page (PAGE_PRESENT ||| PAGE_WRITE) with
        | none => none
        | some vm2 =>
          allocChunk L fuel { h with vm := vm2, heap_max := u32 (h.heap_max + PAGE_SIZE) }
            start len
    else some h

/-- The loop of `freeChunk`, run at most `fuel` times.  When `getMapping` stores nothing the
local `page` is uninitialised and the model stops with `none`. -/
def freeLoop (L : Layout) : Nat → Heap → Nat → Option Heap
  | 0, _, _ => none
  | fuel + 1, h, chunk =>
    if sub32 h.heap_max PAGE_SIZE ≥ chunk then
      let heap_max := sub32 h.heap_max PAGE_SIZE
      match (getMapping h.vm.mem L.pgd_kern heap_max 1).2 with
      | none => none
      | some page =>
        let m := unmap h.vm.mem L.pgd_kern heap_max
        freeLoop L fuel
          { h with heap_max := heap_max, vm := pmmFreePage { h.vm with mem := m } page } chunk
    else some h

/-- The function `freeChunk` of `heap.c`. -/
def freeChunk (L : Layout) (fuel : Nat) (h : Heap) (chunk : Nat) : Option Heap :=
  let h1 :=
    if (h.chunk chunk).prev = 0 then { h with heap_head := 0 }
    else h.setNext (h.chunk chunk).prev 0
  freeLoop L fuel h1 chunk

/-- The function `splitChunk` of `heap.c`. -/
def splitChunk (L : Layout) (h : Heap) (chunk len : Nat) : Heap :=
  if sub32 (h.chunk chunk).len len > L.HDR then
    let newchunk := u32 (chunk + (h.chunk chunk).len)
    let h1 := h.setPrev newchunk chunk
    let h2 := h1.setNext newchunk (h1.chunk chunk).next
    let h3 := h2.setAllocated newchunk 0
    let h4 := h3.setLen newchunk (sub32 (h3.chunk chunk).len len)
    let h5 := h4.setNext chunk newchunk
    h5.setLen chunk len
  else h

/-- The function `glueChunk` of `heap.c`. -/
def glueChunk (L : Layout) (fuel : Nat) (h : Heap) (chunk : Nat) : Option Heap :=
  let h1 :=
    if (h.chunk chunk).next ≠ 0 ∧ (h.chunk (h.chunk chunk).next).allocated = 0 then
      let a := h.setLen chunk (u32 ((h.chunk chunk).len + (h.chunk (h.chunk chunk).next).len))
      let b :=
        if (a.chunk (a.chunk chunk).next).next ≠ 0 then
          a.setPrev (a.chunk (a.chunk chunk).next).next chunk
        else a
      b.setNext chunk (b.chunk (b.chunk chunk).next).next
    else h
  let r : Heap × Nat :=
    if (h1.chunk chunk).prev ≠ 0 ∧ (h1.chunk (h1.chunk chunk).prev).allocated = 0 then
      let a := h1.setLen (h1.chunk chunk).prev
        (u32 ((h1.chunk (h1.chunk chunk).prev).len + (h1.chunk chunk).len))
      let b :=
        if (a.chunk chunk).next ≠ 0 then a.setPrev (a.chunk chunk).next (a.chunk chunk).prev
        else a
      (b, (b.chunk chunk).prev)
    else (h1, chunk)
  if (r.1.chunk r.2).next = 0 then freeChunk L fuel r.1 r.2
  else some r.1

/-- The search loop of `kmalloc` followed by the growth path: `cur` and `prev` are the loop
variables, `len` already includes the header, `fuel` bounds the iterations still allowed
and `gas` those of `allocChunk`.  Returns the pointer and the new state. -/
def kmallocLoop (L : Layout) (gas : Nat) : Nat → Heap → Nat → Nat → Nat → Option (Nat × Heap)
  | 0, _, _, _, _ => none
  | fuel + 1, h, len, cur, prev =>
    if cur ≠ 0 then
      if (h.chunk cur).allocated = 0 ∧ (h.chunk cur).len ≥ len then
        let h1 := splitChunk L h cur len
        let h2 := h1.setAllocated cur 1
        some (u32 (cur + L.HDR), h2)
      else kmallocLoop L gas fuel h len (h.chunk cur).next cur
    else
      let chunk_start := if prev ≠ 0 then u32 (prev + (h.chunk prev).len) else L.HEAP_START
      let h0 := if prev ≠ 0 then h else { h with heap_head := chunk_start }
      match allocChunk L gas h0 chunk_start len with
      | none => none
      | some h1 =>
        let cur := chunk_start
        let h2 := h1.setPrev cur prev
        let h3 := h2.setNext cur 0
        let h4 := h3.setAllocated cur 1
        let h5 := h4.setLen cur len
        let h6 := if prev ≠ 0 then h5.setNext prev cur else h5
        some (u32 (chunk_start + L.HDR), h6)

/-- The function `kmalloc` of `heap.c`: the returned pointer and the new state, `none` when
the call does not return within `fuel` loop iterations or the page allocator is exhausted. -/
def kmalloc (L : Layout) (fuel : Nat) (h : Heap) (len : Nat) : Option (Nat × Heap) :=
  let len := u32 (len + L.HDR)
  kmallocLoop L fuel fuel h len h.heap_head 0

/-- The function `kfree` of `heap.c`. -/
def kfree (L : Layout) (fuel : Nat) (h : Heap) (ptr : Nat) : Option Heap :=
  let hd := sub32 ptr L.HDR
  glueChunk L fuel (h.setAllocated hd 0) hd

/-- The list `showHeapDbg` prints: address, allocated flag and length of the first `fuel`
chunks walked from `heap_head`. -/
def showHeapDbg : Nat → Heap → Nat → List (Nat × Nat × Nat)
  | 0, _, _ => []
  | fuel + 1, h, cur =>
    if cur ≠ 0 then
      (cur, (h.chunk cur).allocated, (h.chunk cur).len) :: showHeapDbg fuel h (h.chunk cur).next
    else []

/-! ## Call sequences -/

/-- A call made by a client of the heap. -/
inductive Call where
  /-- The call `kmalloc(n)`. -/
  | malloc (n : Nat)
  /-- The call `kfree(p)`. -/
  | free (p : Nat)

/-- A heap state together with the live allocations: the pointers returned by `kmalloc` and
not freed since, each with the size requested, most recent first. -/
structure Client where
  /-- The heap. -/
  heap : Heap
  /-- Live allocations `(p, n)`. -/
  live : List (Nat × Nat)

/-- One client call.  A `kfree` of a pointer that is not live is not a legal call and gives
`none`, as does a call that does not return. -/
def Client.step (L : Layout) (fuel : Nat) (c : Client) : Call → Option Client
  | Call.malloc n =>
    match kmalloc L fuel c.heap n with
    | none => none
    | some (p, h) => some { heap := h, live := (p, n) :: c.live }
  | Call.free p =>
    if p ∈ c.live.map Prod.fst then
      match kfree L fuel c.heap p with
      | none => none
      | some h => some { heap := h, live := c.live.eraseP (fun a => a.1 = p) }
    else none

/-- A sequence of client calls. -/
def Client.run (L : Layout) (fuel : Nat) : Client → List Call → Option Client
  | c, [] => some c
  | c, x :: xs =>
    match c.step L fuel x with
    | none => none
    | some c1 => c1.run L fuel xs

/-- The byte ranges `[p, p + n)` and `[q, q + m)` of two allocations `(p, n)` and `(q, m)`
share no byte. -/
def rangesDisjoint (a b : Nat × Nat) : Prop :=
  a.2 = 0 ∨ b.2 = 0 ∨ a.1 + a.2 ≤ b.1 ∨ b.1 + b.2 ≤ a.1

instance (a b : Nat × Nat) : Decidable (rangesDisjoint a b) := by
  unfold rangesDisjoint; infer_instance

/-- The layout used in the concrete runs: arena base `0xE0000000` (the end of the linear
window), a 12-byte header (two links and one word for flag and length), and a kernel
directory at `0xC0105000`. -/
def stdLayout : Layout := { HEAP_START := 0xE0000000, HDR := 12, pgd_kern := 0xC0105000 }

/-- A machine whose memory is all zero (no page table installed) and whose page allocator
holds the listed frames. -/
def blankVm (pool : List Nat) : VmState := { mem := fun _ => 0, pool := pool }

/-- The empty heap of the concrete runs. -/
def emptyClient (pool : List Nat) : Client :=
  { heap := initHeap stdLayout (fun _ => ⟨0, 0, 0, 0⟩) (blankVm pool), live := [] }


/-! ## Predicates used in the statements -/

/-- The frame of the page table `map` uses for `v`: the one installed in the governing
directory row, or else the frame the page allocator hands out next. -/
def tableFor (s : VmState) (pgd v : Nat) : Option Nat :=
  if s.mem (elem pgd (PGD_INDEX v)) &&& PAGE_MASK = 0 then s.pool.head?
  else some (s.mem (elem pgd (PGD_INDEX v)) &&& PAGE_MASK)

/-- The directory row governing `v` is not stored inside the page table at frame `T` (seen
through the linear alias at `PAGE_OFFSET`). -/
def rowApart (pgd v T : Nat) : Prop :=
  ¬ (u32 (T + PAGE_OFFSET) ≤ elem pgd (PGD_INDEX v) ∧
      elem pgd (PGD_INDEX v) < u32 (T + PAGE_OFFSET) + PAGE_SIZE)

instance (pgd v T : Nat) : Decidable (rowApart pgd v T) := by
  unfold rowApart; infer_instance

/-- The page table `map` uses for `v` is a page frame: a non-zero, page-aligned 32-bit
address, whose page does not hold the directory row governing `v`. -/
def MapReady (s : VmState) (pgd v : Nat) : Prop :=
  match tableFor s pgd v with
  | none => False
  | some T => T ≠ 0 ∧ T % PAGE_SIZE = 0 ∧ T < 4294967296 ∧ rowApart pgd v T

instance (s : VmState) (pgd v : Nat) : Decidable (MapReady s pgd v) := by
  unfold MapReady; split <;> infer_instance

/-- The page table `map` uses for `v` lies in the window of physical memory that is mapped
linearly at `PAGE_OFFSET` (the first 512 MiB, see `init_vmm` and the comment of
`clone_pgd`). -/
def TableInWindow (s : VmState) (pgd v : Nat) : Prop :=
  match tableFor s pgd v with
  | none => False
  | some T => T < 0x20000000

instance (s : VmState) (pgd v : Nat) : Decidable (TableInWindow s pgd v) := by
  unfold TableInWindow; split <;> infer_instance

/-- The directory row governing `v` holds no page table. -/
def NoTable (m : Mem) (pgd v : Nat) : Prop := m (elem pgd (PGD_INDEX v)) &&& PAGE_MASK = 0

instance (m : Mem) (pgd v : Nat) : Decidable (NoTable m pgd v) := by
  unfold NoTable; infer_instance

/-- A memory that is zero except for one word `w` at address `a`. -/
def oneWord (a w : Nat) : Mem := fun x => if x = a then w else 0

/-- The chunk list is a chain of allocated chunks laid out one after the other: the chunk
at `a` has predecessor `prev` and length `l`, and its successor, if any, starts at `a + l`;
`lens` lists the lengths (headers included) in list order. -/
def Chain (h : Heap) : Nat → Nat → List Nat → Prop
  | _, _, [] => True
  | prev, a, l :: ls =>
    h.chunk a = ⟨prev, if ls = [] then 0 else a + l, 1, l⟩ ∧ Chain h a (a + l) ls

/-- Address of the last chunk of a chain of lengths `lens` starting at `a`. -/
def lastAddr : Nat → List Nat → Nat
  | a, [] => a
  | a, l :: ls => if ls = [] then a else lastAddr (a + l) ls

/-- The heap holds exactly the chain of allocated chunks with lengths `lens`, starting at
the arena base. -/
def IsChain (L : Layout) (h : Heap) (lens : List Nat) : Prop :=
  h.heap_head = (if lens = [] then 0 else L.HEAP_START) ∧ Chain h 0 L.HEAP_START lens

/-- The arena may still grow to `J` pages: `heap_max` stands `k ≤ J` pages above the arena
base and the page allocator holds two frames for each of the remaining `J - k` pages. -/
def Budget (L : Layout) (h : Heap) (J : Nat) : Prop :=
  ∃ k, k ≤ J ∧ h.heap_max = L.HEAP_START + PAGE_SIZE * k ∧ 2 * (J - k) ≤ h.vm.pool.length

/-- The frame of the page table installed in row `r` of the directory, zero when the row
holds none. -/
def tableOf (m : Mem) (pgd r : Nat) : Nat := m (elem pgd r) &&& PAGE_MASK

/-- A frame the kernel can use: non-zero, page-aligned, inside the 512 MiB window of physical
memory that is mapped linearly at `PAGE_OFFSET`, and not the frame holding the directory. -/
def FrameOk (pgd F : Nat) : Prop :=
  F ≠ 0 ∧ F % PAGE_SIZE = 0 ∧ F < 0x20000000 ∧ u32 (F + PAGE_OFFSET) ≠ pgd

instance (pgd F : Nat) : Decidable (FrameOk pgd F) := by
  unfold FrameOk; infer_instance

/-- A well-formed page directory: it is page-aligned, every page table installed in it is a
usable frame, and no two rows share a page table. -/
def DirOk (m : Mem) (pgd : Nat) : Prop :=
  pgd % PAGE_SIZE = 0 ∧ pgd < 4294967296 ∧
  (∀ r, r < 1024 → tableOf m pgd r ≠ 0 → FrameOk pgd (tableOf m pgd r)) ∧
  (∀ r r1, r < 1024 → r1 < 1024 → tableOf m pgd r ≠ 0 →
    tableOf m pgd r = tableOf m pgd r1 → r = r1)

/-- The frames of the page allocator are fresh: the free frames `s.pool` and the frames
`used` as data pages are usable frames, pairwise distinct, and none of them is installed
as a page table of the directory. -/
def PoolOk (s : VmState) (pgd : Nat) (used : List Nat) : Prop :=
  s.pool.Nodup ∧ used.Nodup ∧ (∀ F, F ∈ used → F ∉ s.pool) ∧
  ∀ F, F ∈ s.pool ∨ F ∈ used → FrameOk pgd F ∧ ∀ r, r < 1024 → tableOf s.mem pgd r ≠ F

/-- The pages `base, base + PAGE_SIZE, ...` are mapped to the listed frames, the frame of the
highest page first. -/
def PagesMapped (m : Mem) (pgd base : Nat) : List Nat → Prop
  | [] => True
  | F :: fs =>
    getMapping m pgd (base + PAGE_SIZE * fs.length) 1 = (1, some F) ∧ PagesMapped m pgd base fs

/-- The paging state of the heap: `heap_max` stands `frames.length` pages above the arena
base, these pages are mapped to `frames`, the kernel directory and the page allocator are
well formed, and every frame of the original pool `pool0` is free, or backs a heap page, or
is installed as a page table. -/
def HeapPaged (L : Layout) (pool0 : List Nat) (h : Heap) (frames : List Nat) : Prop :=
  h.heap_max = L.HEAP_START + PAGE_SIZE * frames.length ∧
  DirOk h.vm.mem L.pgd_kern ∧ PoolOk h.vm L.pgd_kern frames ∧
  PagesMapped h.vm.mem L.pgd_kern L.HEAP_START frames ∧
  ∀ F, F ∈ pool0 → F ≠ 0 ∧
    (F ∈ h.vm.pool ∨ F ∈ frames ∨ ∃ r, r < 1024 ∧ tableOf h.vm.mem L.pgd_kern r = F)

/-- The calls `kmalloc(n)` for the sizes `n` of a list, in order: the pointers returned, in
order, and the final state. -/
def allocAll (L : Layout) (fuel : Nat) : Heap → List Nat → Option (List Nat × Heap)
  | h, [] => some ([], h)
  | h, n :: ns =>
    match kmalloc L fuel h n with
    | none => none
    | some (p, h1) =>
      match allocAll L fuel h1 ns with
      | none => none
      | some (ps, h2) => some (p :: ps, h2)

/-- The calls `kfree(p)` for the pointers `p` of a list, in order. -/
def freeAll (L : Layout) (fuel : Nat) : Heap → List Nat → Option Heap
  | h, [] => some h
  | h, p :: ps =>
    match kfree L fuel h p with
    | none => none
    | some h1 => freeAll L fuel h1 ps

/-- The pointers `kmalloc` returns for the sizes of a list when each chunk is appended at the
end of the list of chunks, the first of them at `a`. -/
def ptrsFrom (L : Layout) : Nat → List Nat → List Nat
  | _, [] => []
  | a, n :: ns => (a + L.HDR) :: ptrsFrom L (a + (n + L.HDR)) ns

/-- The lengths of the chunks allocated for the sizes of a list. -/
def chunkLens (L : Layout) (sizes : List Nat) : List Nat := sizes.map (fun n => n + L.HDR)

/-- The number of rows among `i, i + 1, ...` (`k` of them) of the directory that hold a page
table: the number of frames `clone_pgd` takes for them. -/
def presentRows (m : Mem) (pgd : Nat) : Nat → Nat → Nat
  | 0, _ => 0
  | k + 1, i => (if tableOf m pgd i ≠ 0 then 1 else 0) + presentRows m pgd k (i + 1)

/-- The setting of `clone_pgd`: source and destination are distinct page-aligned
directories, the destination is empty and is not used as a page table of the source, and the
page allocator holds enough fresh frames: distinct usable frames that are neither the
source directory nor one of its page tables. -/
def CloneReady (s : VmState) (dst src : Nat) : Prop :=
  dst % PAGE_SIZE = 0 ∧ dst < 4294967296 ∧ src % PAGE_SIZE = 0 ∧ src < 4294967296 ∧
  dst ≠ src ∧ (∀ i, i < 1024 → s.mem (elem dst i) = 0) ∧
  (∀ i, i < 1024 → tableOf s.mem src i ≠ 0 →
    u32 (tableOf s.mem src i + PAGE_OFFSET) ≠ dst) ∧
  s.pool.Nodup ∧ presentRows s.mem src PGD_SIZE 0 ≤ s.pool.length ∧
  ∀ F, F ∈ s.pool → FrameOk dst F ∧ u32 (F + PAGE_OFFSET) ≠ src ∧
    ∀ i, i < 1024 → tableOf s.mem src i ≠ F

instance (s : VmState) (dst src : Nat) : Decidable (CloneReady s dst src) := by
  unfold CloneReady; infer_instance

/-- The state of `clone_pgd` before row `i` is processed, `s0` being the state at the call:
the source directory and its tables are as they were, each row below `i` of the destination
is empty when the source row is, and otherwise holds a frame taken from the pool whose
entries are those of the source table; the rows from `i` on are still empty. -/
def CloneInv (s0 : VmState) (dst src i : Nat) (s : VmState) : Prop :=
  (∀ r, r < 1024 → s.mem (elem src r) = s0.mem (elem src r)) ∧
  (∀ r j, r < 1024 → j < 1024 → tableOf s0.mem src r ≠ 0 →
    s.mem (elem (u32 (tableOf s0.mem src r + PAGE_OFFSET)) j)
      = s0.mem (elem (u32 (tableOf s0.mem src r + PAGE_OFFSET)) j)) ∧
  (∀ r, r < i → tableOf s0.mem src r = 0 → s.mem (elem dst r) = 0) ∧
  (∀ r, r < i → tableOf s0.mem src r ≠ 0 →
    ∃ F, F ∈ s0.pool ∧ F ∉ s.pool ∧ tableOf s.mem dst r = F ∧
      ∀ j, j < 1024 → s.mem (elem (u32 (F + PAGE_OFFSET)) j)
        = s0.mem (elem (u32 (tableOf s0.mem src r + PAGE_OFFSET)) j)) ∧
  (∀ r, i ≤ r → r < 1024 → s.mem (elem dst r) = 0) ∧
  ∃ used, s0.pool = used ++ s.pool

/-- A machine for the clone scenario: the source directory at `0xC0106000` holds one page
table, the frame `0x500000`, in its row 896, and that table maps the page `0xE0000000` to
the frame `0x9000`; the page allocator holds two frames. -/
def cloneDemo : VmState :=
  { mem := fun x => if x = 0xC0106E00 then 0x00500003 else if x = 0xC0500000 then 0x00009003
      else 0,
    pool := [0x400000, 0x401000] }

/-- The heap after a sequence of client calls made on the empty heap of the concrete runs
(the empty heap itself when one of the calls does not return). -/
def heapAfter (pool : List Nat) (calls : List Call) : Heap :=
  match (emptyClient pool).run stdLayout 8 calls with
  | some c => c.heap
  | none => (emptyClient pool).heap

/-- The first chunk, among the first `k` chunks walked from `cur`, that is free and at least
`len` bytes long: the chunk the search loop of `kmalloc` stops at. -/
def firstFit (h : Heap) (len : Nat) : Nat → Nat → Option Nat
  | 0, _ => none
  | k + 1, cur =>
    if cur = 0 then none
    else if (h.chunk cur).allocated = 0 ∧ (h.chunk cur).len ≥ len then some cur
    else firstFit h len k (h.chunk cur).next

/-- The chunks walked from `cur` before the chunk `c` is reached, at most `k` of them: the
chunks before `c` in list order. -/
def walkTo (h : Heap) (c : Nat) : Nat → Nat → List Nat
  | 0, _ => []
  | k + 1, cur => if cur = 0 ∨ cur = c then [] else cur :: walkTo h c k (h.chunk cur).next

/-! ## Initialisation of the kernel directory (`init_vmm` of `src/mem/vmm.c`) -/

/-- Modelled from the spec: `PTE_COUNT` of the absent `vmm.h`, the number of page tables the
kernel reserves to map a window of 512 MiB of physical memory linearly (one table maps
4 MiB). -/
def PTE_COUNT : Nat := 128

/-- The first loop of `init_vmm`, run for `k` rows of the directory from row `i` on, `j`
being the index of the page table installed: `pgd_kern[i]` receives the physical address of
`pte_kern[j]` with the present and writable flags. -/
def init_rows (pgd_kern pte_kern : Nat) : Nat → Nat → Nat → Mem → Mem
  | 0, _, _, m => m
  | k + 1, i, j, m =>
    init_rows pgd_kern pte_kern k (i + 1) (j + 1)
      (m.store (elem pgd_kern i)
        (u32 (sub32 (elem pte_kern (PTE_SIZE * j)) PAGE_OFFSET ||| PAGE_PRESENT ||| PAGE_WRITE)))

/-- The second loop of `init_vmm`, run for `k` entries from entry `i` on of the page tables
seen as one array `pte`: entry `i` receives the frame `i << 12` with the present and writable
flags. -/
def init_entries (pte : Nat) : Nat → Nat → Mem → Mem
  | 0, _, m => m
  | k + 1, i, m =>
    init_entries pte k (i + 1)
      (m.store (elem pte i) (u32 ((i <<< 12) ||| PAGE_PRESENT ||| PAGE_WRITE)))

/-- What `init_vmm` leaves behind: memory, the global `kernel_pgd` and the paging root
register. -/
structure Mmu where
  /-- Memory holding the kernel directory and its page tables. -/
  mem : Mem
  /-- The global `kernel_pgd`. -/
  kernel_pgd : Nat
  /-- The register `cr3` set by `switch_pgd`. -/
  cr3 : Nat

/-- The function `init_vmm` of `vmm.c`, for the arrays `pgd_kern` and `pte_kern` at the given
addresses.  The first loop runs over the rows `PGD_INDEX(PAGE_OFFSET)` to
`PTE_COUNT + PGD_INDEX(PAGE_OFFSET) - 1`, the second over the entries `1` to
`PTE_COUNT * PTE_SIZE - 1`.  Registering the fault handler and enabling paging write to
neither array. -/
def init_vmm (pgd_kern pte_kern : Nat) (m : Mem) : Mmu :=
  let pte_start_idx := PGD_INDEX PAGE_OFFSET
  let m1 := init_rows pgd_kern pte_kern PTE_COUNT pte_start_idx 0 m
  let pte := pte_kern
  let m2 := init_entries pte (PTE_COUNT * PTE_SIZE - 1) 1 m1
  let pgd_kern_phy_addr := sub32 pgd_kern PAGE_OFFSET
  { mem := m2, kernel_pgd := pgd_kern_phy_addr, cr3 := pgd_kern_phy_addr }

/-- The placement of the kernel's static arrays: `pgd_kern` and `pte_kern` are page-aligned
(their `aligned(PAGE_SIZE)` attribute), lie in the kernel image above `PAGE_OFFSET`, and do
not overlap. -/
def KernArrays (pgd_kern pte_kern : Nat) : Prop :=
  pgd_kern % PAGE_SIZE = 0 ∧ pte_kern % PAGE_SIZE = 0 ∧
  PAGE_OFFSET < pgd_kern ∧ PAGE_OFFSET < pte_kern ∧
  pgd_kern + PAGE_SIZE ≤ 4294967296 ∧ pte_kern + PAGE_SIZE * PTE_COUNT ≤ 4294967296 ∧
  (pgd_kern + PAGE_SIZE ≤ pte_kern ∨ pte_kern + PAGE_SIZE * PTE_COUNT ≤ pgd_kern)

instance (pgd_kern pte_kern : Nat) : Decidable (KernArrays pgd_kern pte_kern) := by
  unfold KernArrays; infer_instance

/-! ## The page-fault handler (`page_fault` of `src/mem/vmm.c`) -/

/-- The function `page_fault` of `vmm.c`: the calls of `printf` it makes, each as its format
string and arguments, for the faulting instruction address `eip`, the faulting address
`cr2` and the cause bitmask `error_code`.  The handler then halts. -/
def page_fault (eip cr2 error_code : Nat) : List (String × List Nat) :=
  [("Page fault at 0x%x, virtual faulting address 0x%x\n", [eip, cr2]),
   ("Error Code: %x\n", [error_code]),
   (if error_code &&& 0x1 ≠ 0 then ("Page-protection Violation\n", [])
    else ("Non-present Page\n", [])),
   (if error_code &&& 0x2 ≠ 0 then ("Write Error\n", []) else ("Read Error\n", [])),
   (if error_code &&& 0x4 ≠ 0 then ("Kernel Model\n", []) else ("User Mode\n", []))] ++
  (if error_code &&& 0x8 ≠ 0 then [("Reserved Write\n", [])] else []) ++
  (if error_code &&& 0x10 ≠ 0 then [("Instruction Fetch\n", [])] else [])

/-! ## Interrupt state (`src/libs/common.c`) -/

/-- Constants of the absent `libs/common.h` that `common.c` uses: the mask `FL_IF` of the
interrupt-enable flag in EFLAGS and the truth values `TRUE` and `FALSE`. -/
structure CommonH where
  /-- The mask `FL_IF`. -/
  FL_IF : Nat
  /-- The value `TRUE`. -/
  TRUE : Nat
  /-- The value `FALSE`. -/
  FALSE : Nat

/-- The x86 values: the interrupt-enable flag is bit 9 of EFLAGS. -/
def x86CommonH : CommonH := { FL_IF := 0x200, TRUE := 1, FALSE := 0 }

/-- The function `enable_interrupt` of `common.c`: the instruction `sti` sets bit 9 of
EFLAGS. -/
def enable_interrupt (eflags : Nat) : Nat := eflags ||| 0x200

/-- The function `disable_interrupt` of `common.c`: the instruction `cli` clears bit 9 of
EFLAGS. -/
def disable_interrupt (eflags : Nat) : Nat := eflags &&& 0xFFFFFDFF

/-- The function `read_eflags` of `common.c`. -/
def read_eflags (eflags : Nat) : Nat := eflags

/-- The function `save_interrupt` of `common.c`: the value returned and EFLAGS after the
call. -/
def save_interrupt (K : CommonH) (eflags : Nat) : Nat × Nat :=
  if read_eflags eflags ||| K.FL_IF ≠ 0 then (K.TRUE, disable_interrupt eflags)
  else (K.FALSE, eflags)

/-- The function `recover_interrupt` of `common.c`: EFLAGS after the call. -/
def recover_interrupt (eflags interrupt_state : Nat) : Nat :=
  if interrupt_state ≠ 0 then enable_interrupt eflags else eflags

/-! # Theorems -/

/-! ## Arithmetic of page addresses -/

theorem and_PAGE_MASK (x : Nat) : x &&& PAGE_MASK = x / 4096 % 1048576 * 4096 := by
  apply Nat.eq_of_testBit_eq
  intro i
  have h : PAGE_MASK = (2 ^ 20 - 1) <<< 12 := by decide
  have h2 : x / 4096 % 1048576 * 4096 = ((x >>> 12) % 2 ^ 20) <<< 12 := by
    rw [Nat.shiftLeft_eq, Nat.shiftRight_eq_div_pow]; norm_num
  rw [Nat.testBit_and, h, Nat.testBit_shiftLeft, Nat.testBit_two_pow_sub_one, h2,
    Nat.testBit_shiftLeft, Nat.testBit_mod_two_pow, Nat.testBit_shiftRight]
  by_cases h12 : 12 ≤ i
  · have : 12 + (i - 12) = i := by omega
    by_cases h20 : i - 12 < 20 <;> simp [h12, h20, this]
  · simp [h12]

theorem or_low_bits (a f : Nat) (ha : a % 4096 = 0) (hf : f < 4096) : a ||| f = a + f := by
  have h := Nat.mul_add_lt_is_or (i := 12) (b := f) (by simpa using hf) (a / 4096)
  have : 2 ^ 12 * (a / 4096) = a := by omega
  rw [this] at h
  exact h.symm

theorem PGD_INDEX_eq (x : Nat) : PGD_INDEX x = x / 4194304 % 1024 := by
  have := Nat.and_pow_two_sub_one_eq_mod (x >>> 22) 10
  rw [Nat.shiftRight_eq_div_pow] at this
  unfold PGD_INDEX
  rw [Nat.shiftRight_eq_div_pow]
  simpa using this

theorem PTE_INDEX_eq (x : Nat) : PTE_INDEX x = x / 4096 % 1024 := by
  have := Nat.and_pow_two_sub_one_eq_mod (x >>> 12) 10
  rw [Nat.shiftRight_eq_div_pow] at this
  unfold PTE_INDEX
  rw [Nat.shiftRight_eq_div_pow]
  simpa using this

theorem and_PAGE_MASK_lt (x : Nat) : x &&& PAGE_MASK < 4294967296 := by
  rw [and_PAGE_MASK]; omega

theorem and_PAGE_MASK_aligned (x : Nat) : (x &&& PAGE_MASK) % 4096 = 0 := by
  rw [and_PAGE_MASK]; omega

/-- The word `map` writes into a table row, read back through `PAGE_MASK`. -/
theorem entry_frame (P f : Nat) (hP : P % 4096 = 0) (hP32 : P < 4294967296) (hf : f < 4096) :
    u32 ((P &&& PAGE_MASK) ||| f) = P + f ∧ u32 ((P &&& PAGE_MASK) ||| f) &&& PAGE_MASK = P := by
  have h1 : P &&& PAGE_MASK = P := by rw [and_PAGE_MASK]; omega
  have h2 : u32 ((P &&& PAGE_MASK) ||| f) = P + f := by
    rw [h1, or_low_bits P f hP hf]; unfold u32; omega
  refine ⟨h2, ?_⟩
  rw [h2, and_PAGE_MASK]; omega

/-- The word `map` writes into a directory row, read back through `PAGE_MASK`. -/
theorem row_frame (T : Nat) (hT : T % 4096 = 0) (hT32 : T < 4294967296) :
    u32 (T ||| PAGE_PRESENT ||| PAGE_WRITE) &&& PAGE_MASK = T := by
  have h1 : T ||| PAGE_PRESENT ||| PAGE_WRITE = T + 3 := by
    rw [Nat.lor_assoc]
    have : PAGE_PRESENT ||| PAGE_WRITE = 3 := by decide
    rw [this, or_low_bits T 3 hT (by omega)]
  rw [h1, and_PAGE_MASK]; unfold u32; omega

theorem store_same (m : Mem) (a v : Nat) : m.store a v a = v := by
  simp [Mem.store]

theorem store_other (m : Mem) (a v x : Nat) (h : x ≠ a) : m.store a v x = m x := by
  simp [Mem.store, h]

theorem elem_in_page (b i : Nat) (hb : b % 4096 = 0) (hb32 : b < 4294967296) (hi : i < 1024) :
    elem b i = b + 4 * i ∧ b ≤ elem b i ∧ elem b i < b + PAGE_SIZE := by
  unfold elem u32 PAGE_SIZE; omega

theorem u32_lt (x : Nat) : u32 x < 4294967296 := by unfold u32; omega

theorem u32_aligned (T : Nat) (hT : T % 4096 = 0) : u32 (T + PAGE_OFFSET) % 4096 = 0 := by
  unfold u32 PAGE_OFFSET; omega

theorem PTE_INDEX_lt (x : Nat) : PTE_INDEX x < 1024 := by rw [PTE_INDEX_eq]; omega

theorem PGD_INDEX_lt (x : Nat) : PGD_INDEX x < 1024 := by rw [PGD_INDEX_eq]; omega

/-- The slot of `v` in a page-aligned table lies inside the table's page. -/
theorem slot_in_page (T v : Nat) (hT : T % 4096 = 0) :
    u32 (T + PAGE_OFFSET) ≤ elem (u32 (T + PAGE_OFFSET)) (PTE_INDEX v) ∧
      elem (u32 (T + PAGE_OFFSET)) (PTE_INDEX v) < u32 (T + PAGE_OFFSET) + PAGE_SIZE :=
  (elem_in_page _ _ (u32_aligned T hT) (u32_lt _) (PTE_INDEX_lt v)).2

/-- When the governing table is present, `map` stores one word in it. -/
theorem map_present (s : VmState) (pgd v P f : Nat)
    (h : s.mem (elem pgd (PGD_INDEX v)) &&& PAGE_MASK ≠ 0) :
    map s pgd v P f = some ⟨s.mem.store
      (elem (u32 ((s.mem (elem pgd (PGD_INDEX v)) &&& PAGE_MASK) + PAGE_OFFSET)) (PTE_INDEX v))
      (u32 ((P &&& PAGE_MASK) ||| f)), s.pool⟩ := by
  simp [map, h]

/-- When the governing table is absent, `map` installs the next free frame, clears it and
stores one word in it. -/
theorem map_absent (s : VmState) (pgd v P f T : Nat) (rest : List Nat)
    (h : s.mem (elem pgd (PGD_INDEX v)) &&& PAGE_MASK = 0) (hp : s.pool = T :: rest) :
    map s pgd v P f = some ⟨(bzero (s.mem.store (elem pgd (PGD_INDEX v))
        (u32 (T ||| PAGE_PRESENT ||| PAGE_WRITE))) (u32 (T + PAGE_OFFSET)) PAGE_SIZE).store
          (elem (u32 (T + PAGE_OFFSET)) (PTE_INDEX v)) (u32 ((P &&& PAGE_MASK) ||| f)), rest⟩ := by
  simp [map, h, pmm_alloc_page, hp]

/-- After `map`, the directory row holds the table `tableFor` names and the slot of `v`
holds the entry written. -/
theorem map_result (s : VmState) (pgd v P f : Nat) (hr : MapReady s pgd v) :
    ∃ s1 T, map s pgd v P f = some s1 ∧ tableFor s pgd v = some T ∧
      T ≠ 0 ∧ T % 4096 = 0 ∧ T < 4294967296 ∧ rowApart pgd v T ∧
      s1.mem (elem pgd (PGD_INDEX v)) &&& PAGE_MASK = T ∧
      s1.mem (elem (u32 (T + PAGE_OFFSET)) (PTE_INDEX v)) = u32 ((P &&& PAGE_MASK) ||| f) := by
  unfold MapReady at hr
  cases hT : tableFor s pgd v with
  | none => simp [hT] at hr
  | some T =>
    simp only [hT] at hr
    obtain ⟨h0, hal, h32, hap⟩ := hr
    have hal : T % 4096 = 0 := hal
    have hslot := slot_in_page T v hal
    have hne : elem pgd (PGD_INDEX v) ≠ elem (u32 (T + PAGE_OFFSET)) (PTE_INDEX v) := by
      intro e; apply hap; rw [e]; exact hslot
    unfold tableFor at hT
    by_cases hrow : s.mem (elem pgd (PGD_INDEX v)) &&& PAGE_MASK = 0
    · simp only [hrow, if_true] at hT
      cases hp : s.pool with
      | nil => simp [hp] at hT
      | cons T1 rest =>
        have : T1 = T := by simpa [hp] using hT
        subst this
        refine ⟨_, T1, map_absent s pgd v P f T1 rest hrow hp, rfl, h0, hal, h32, hap, ?_, ?_⟩
        · show Mem.store _ _ _ _ &&& PAGE_MASK = T1
          rw [store_other _ _ _ _ hne]
          have : bzero (s.mem.store (elem pgd (PGD_INDEX v))
              (u32 (T1 ||| PAGE_PRESENT ||| PAGE_WRITE))) (u32 (T1 + PAGE_OFFSET)) PAGE_SIZE
                (elem pgd (PGD_INDEX v)) = u32 (T1 ||| PAGE_PRESENT ||| PAGE_WRITE) := by
            unfold bzero rowApart at *
            rw [if_neg hap, store_same]
          rw [this, row_frame T1 hal h32]
        · show Mem.store _ _ _ _ = _
          rw [store_same]
    · simp only [hrow, if_false] at hT
      have hT : s.mem (elem pgd (PGD_INDEX v)) &&& PAGE_MASK = T := by simpa using hT
      refine ⟨_, T, map_present s pgd v P f hrow, rfl, h0, hal, h32, hap, ?_, ?_⟩
      · show Mem.store _ _ _ _ &&& PAGE_MASK = T
        rw [hT, store_other _ _ _ _ hne, hT]
      · show Mem.store _ _ _ _ = _
        rw [hT, store_same]

/-- After `map` the table `map` used is installed, so a second `map` is ready too. -/
theorem map_keeps_ready (s s1 : VmState) (pgd v P f : Nat) (hr : MapReady s pgd v)
    (hm : map s pgd v P f = some s1) : MapReady s1 pgd v := by
  obtain ⟨s2, T, h1, _, h0, hal, h32, hap, hrow, _⟩ := map_result s pgd v P f hr
  rw [hm] at h1
  cases h1
  unfold MapReady tableFor
  rw [hrow]
  simp only [h0, if_false]
  exact ⟨h0, hal, h32, hap⟩

/-- Claim C4, amended: for every directory, virtual address `V`, page-aligned physical
address `P` and flags `f` within the low 12 bits such that `P` and `f` are not both zero,
after `map(d, V, P, f)` the call `getMapping(d, V)` returns 1 and stores `P`, whatever the
directory held for `V` before; in particular, after `map(d, V, P1, f)` and then
`map(d, V, P, f)` it yields `P`. -/
theorem map_getMapping_found (s : VmState) (pgd V P f ptr : Nat) (hr : MapReady s pgd V)
    (hP : P % PAGE_SIZE = 0) (hP32 : P < 4294967296) (hf : f < 4096) (hnz : P ≠ 0 ∨ f ≠ 0)
    (hptr : ptr ≠ 0) :
    (∃ s1, map s pgd V P f = some s1 ∧ getMapping s1.mem pgd V ptr = (1, some P)) ∧
    (∀ P1, ∃ s1 s2, map s pgd V P1 f = some s1 ∧ map s1 pgd V P f = some s2 ∧
      getMapping s2.mem pgd V ptr = (1, some P)) := by
  have key : ∀ t : VmState, MapReady t pgd V →
      ∃ s1, map t pgd V P f = some s1 ∧ getMapping s1.mem pgd V ptr = (1, some P) := by
    intro t ht
    obtain ⟨s1, T, h1, _, h0, _, _, _, hrow, hslot⟩ := map_result t pgd V P f ht
    refine ⟨s1, h1, ?_⟩
    obtain ⟨e1, e2⟩ := entry_frame P f hP hP32 hf
    have hne : u32 ((P &&& PAGE_MASK) ||| f) ≠ 0 := by rw [e1]; omega
    unfold getMapping
    simp only [hrow, h0, if_false, hslot, hne, hptr, ne_eq, not_false_eq_true, and_self, if_true,
      e2]
  refine ⟨key s hr, ?_⟩
  intro P1
  obtain ⟨s1, _, h1, _⟩ := map_result s pgd V P1 f hr
  obtain ⟨s2, h2, h3⟩ := key s1 (map_keeps_ready s s1 pgd V P1 f hr h1)
  exact ⟨s1, s2, h1, h2, h3⟩

/-- Claim C4 at a concrete input: mapping frame `0x9000` at `0xE0000000` in the kernel
directory, over an earlier mapping to `0x8000`. -/
theorem map_getMapping_found_witness :
    (∃ s1, map (blankVm [0x400000]) 0xC0105000 0xE0000000 0x9000 3 = some s1 ∧
      getMapping s1.mem 0xC0105000 0xE0000000 1 = (1, some 0x9000)) ∧
    (∀ P1, ∃ s1 s2, map (blankVm [0x400000]) 0xC0105000 0xE0000000 P1 3 = some s1 ∧
      map s1 0xC0105000 0xE0000000 0x9000 3 = some s2 ∧
      getMapping s2.mem 0xC0105000 0xE0000000 1 = (1, some 0x9000)) :=
  map_getMapping_found (blankVm [0x400000]) 0xC0105000 0xE0000000 0x9000 3 1
    (by decide) (by decide) (by decide) (by decide) (by decide) (by decide)

/-- Claim C4 as stated fails: after `map(d, V, 0, 0)` of the page-aligned physical address 0
with no flag, `getMapping(d, V)` returns 0 and stores nothing. -/
theorem map_zero_getMapping_not_found :
    MapReady (blankVm [0x400000]) 0xC0105000 0xE0000000 ∧
    (map (blankVm [0x400000]) 0xC0105000 0xE0000000 0 0).map
      (fun s1 => getMapping s1.mem 0xC0105000 0xE0000000 1) = some (0, none) := by
  decide

/-- Claim C5: for every directory, virtual address `V`, physical address `P` and flags `f`,
after `map(d, V, P, f)` followed by `unmap(d, V)`, `getMapping(d, V)` returns 0 and stores
nothing, and the directory row still holds the page table the `map` created or used. -/
theorem map_unmap_getMapping (s : VmState) (pgd V P f ptr : Nat) (hr : MapReady s pgd V)
    (hw : TableInWindow s pgd V) :
    ∃ s1 T, map s pgd V P f = some s1 ∧ tableFor s pgd V = some T ∧
      getMapping (unmap s1.mem pgd V) pgd V ptr = (0, none) ∧
      unmap s1.mem pgd V (elem pgd (PGD_INDEX V)) = s1.mem (elem pgd (PGD_INDEX V)) ∧
      unmap s1.mem pgd V (elem pgd (PGD_INDEX V)) &&& PAGE_MASK = T := by
  obtain ⟨s1, T, h1, hT, h0, hal, h32, hap, hrow, hslot⟩ := map_result s pgd V P f hr
  have hwin : T < 0x20000000 := by
    unfold TableInWindow at hw; simpa [hT] using hw
  have hlin : u32 (T + PAGE_OFFSET) ≠ 0 := by unfold u32 PAGE_OFFSET; omega
  have hsl := slot_in_page T V hal
  have hne : elem pgd (PGD_INDEX V) ≠ elem (u32 (T + PAGE_OFFSET)) (PTE_INDEX V) := by
    intro e; apply hap; rw [e]; exact hsl
  have hun : unmap s1.mem pgd V
      = s1.mem.store (elem (u32 (T + PAGE_OFFSET)) (PTE_INDEX V)) 0 := by
    unfold unmap
    simp only [hrow, hlin, if_false]
  have hrow2 : unmap s1.mem pgd V (elem pgd (PGD_INDEX V)) = s1.mem (elem pgd (PGD_INDEX V)) := by
    rw [hun, store_other _ _ _ _ hne]
  refine ⟨s1, T, h1, hT, ?_, hrow2, by rw [hrow2, hrow]⟩
  unfold getMapping
  simp only [hrow2, hrow, h0, if_false]
  rw [hun, store_same]
  simp

/-- Claim C5 at a concrete input: the first heap page, mapped and unmapped again in a
directory that had no table for it. -/
theorem map_unmap_getMapping_witness :
    ∃ s1 T, map (blankVm [0x400000]) 0xC0105000 0xE0000000 0x9000 3 = some s1 ∧
      tableFor (blankVm [0x400000]) 0xC0105000 0xE0000000 = some T ∧
      getMapping (unmap s1.mem 0xC0105000 0xE0000000) 0xC0105000 0xE0000000 1 = (0, none) ∧
      unmap s1.mem 0xC0105000 0xE0000000 (elem 0xC0105000 (PGD_INDEX 0xE0000000))
        = s1.mem (elem 0xC0105000 (PGD_INDEX 0xE0000000)) ∧
      unmap s1.mem 0xC0105000 0xE0000000 (elem 0xC0105000 (PGD_INDEX 0xE0000000)) &&& PAGE_MASK
        = T :=
  map_unmap_getMapping (blankVm [0x400000]) 0xC0105000 0xE0000000 0x9000 3 1
    (by decide) (by decide)

/-- Claim C6 evaluated: in a directory whose row for `V = 0xE0003000` holds no page table,
`unmap(d, V)` clears the word at `PAGE_OFFSET + 4 * PTE_INDEX(V)`, so memory is not the same
after the call as before it. -/
theorem unmap_without_table_writes :
    NoTable (oneWord 0xC000000C 0xF000FF53) 0xC0105000 0xE0003000 ∧
    oneWord 0xC000000C 0xF000FF53 0xC000000C = 0xF000FF53 ∧
    unmap (oneWord 0xC000000C 0xF000FF53) 0xC0105000 0xE0003000 0xC000000C = 0 := by
  decide

/-! ## The heap on concrete call sequences -/

/-- Claim C1 evaluated: from the empty heap, `A = kmalloc(100)`, `B = kmalloc(10)`,
`kfree(A)`, `kmalloc(10)`, `kmalloc(50)`.  The split made by the fourth call writes its new
header over the header of the live chunk of `B`, and the fifth call returns the pointer `B`
again: the live ranges `[B, B + 50)` and `[B, B + 10)` overlap. -/
theorem kmalloc_returns_live_pointer :
    ((emptyClient [0x400000, 0x401000]).run stdLayout 8
        [Call.malloc 100, Call.malloc 10, Call.free 0xE000000C, Call.malloc 10,
          Call.malloc 50]).map Client.live
      = some [(0xE000007C, 50), (0xE000000C, 10), (0xE000007C, 10)] ∧
    ¬ rangesDisjoint (0xE000007C, 50) (0xE000007C, 10) := by
  decide

/-- Claim C2 evaluated: from the empty heap, `A = kmalloc(100)`, `B = kmalloc(10)`,
`kfree(A)`, `kmalloc(10)`.  The list walked from `heap_head` is then the chunk at
`0xE0000000` of length 22, followed by the chunk at `0xE0000070`, which is its own
successor: the second chunk does not start where the first ends, and the start addresses
do not increase. -/
theorem split_breaks_address_order :
    ((emptyClient [0x400000, 0x401000]).run stdLayout 8
        [Call.malloc 100, Call.malloc 10, Call.free 0xE000000C, Call.malloc 10]).map
      (fun c => (c.live, showHeapDbg 3 c.heap c.heap.heap_head))
      = some ([(0xE000000C, 10), (0xE000007C, 10)],
          [(0xE0000000, 1, 22), (0xE0000070, 0, 90), (0xE0000070, 0, 90)]) ∧
    0xE0000000 + 22 ≠ 0xE0000070 := by
  decide

/-- Claim C3 evaluated: from the empty heap, `A = kmalloc(10)`, `B = kmalloc(10)`,
`C = kmalloc(10)`, `kfree(A)`, `kfree(B)`.  The merge of `B` into its free predecessor `A`
adds the lengths but leaves `B` linked after `A`: the list is then the free chunk at
`0xE0000000`, the free chunk at `0xE0000016` and the allocated chunk of `C`. -/
theorem glue_leaves_adjacent_free :
    ((emptyClient [0x400000, 0x401000]).run stdLayout 8
        [Call.malloc 10, Call.malloc 10, Call.malloc 10, Call.free 0xE000000C,
          Call.free 0xE0000022]).map
      (fun c => (c.live, showHeapDbg 4 c.heap c.heap.heap_head))
      = some ([(0xE0000038, 10)],
          [(0xE0000000, 0, 44), (0xE0000016, 0, 22), (0xE000002C, 1, 22)]) := by
  decide

/-! ## Growth of the arena in `kmalloc` -/

/-- With a free frame in the pool `map` returns, and takes at most one frame. -/
theorem map_returns (s : VmState) (pgd v P f : Nat) (hp : s.pool ≠ []) :
    ∃ s1, map s pgd v P f = some s1 ∧ s.pool.length ≤ s1.pool.length + 1 := by
  by_cases hrow : s.mem (elem pgd (PGD_INDEX v)) &&& PAGE_MASK = 0
  · cases hpool : s.pool with
    | nil => exact absurd hpool hp
    | cons T rest =>
      refine ⟨_, map_absent s pgd v P f T rest hrow hpool, ?_⟩
      simp
  · exact ⟨_, map_present s pgd v P f hrow, by simp⟩

/-- The loop of `allocChunk` stops once `j` pages are mapped, and touches neither the chunk
headers nor `heap_head`; it maps `i` pages, `i ≤ j`, and takes at most `2 * i` frames. -/
theorem allocChunk_returns (L : Layout) (start len : Nat) :
    ∀ (j fuel : Nat) (h : Heap), j < fuel →
      u32 (start + len) ≤ h.heap_max + PAGE_SIZE * j →
      h.heap_max + PAGE_SIZE * j < 4294967296 → 2 * j ≤ h.vm.pool.length →
      ∃ h1, allocChunk L fuel h start len = some h1 ∧ h1.chunk = h.chunk ∧
        h1.heap_head = h.heap_head ∧
        ∃ i, i ≤ j ∧ h1.heap_max = h.heap_max + PAGE_SIZE * i ∧
          h.vm.pool.length ≤ h1.vm.pool.length + 2 * i := by
  intro j
  induction j with
  | zero =>
    intro fuel h hf hle _ _
    obtain ⟨f, rfl⟩ : ∃ f, fuel = f + 1 := ⟨fuel - 1, by omega⟩
    refine ⟨h, ?_, rfl, rfl, 0, by omega, by simp, by simp⟩
    unfold allocChunk
    have : ¬ u32 (start + len) > h.heap_max := by omega
    simp [this]
  | succ j ih =>
    intro fuel h hf hle hlt hpool
    obtain ⟨f, rfl⟩ : ∃ f, fuel = f + 1 := ⟨fuel - 1, by omega⟩
    by_cases hc : u32 (start + len) > h.heap_max
    · cases hp : h.vm.pool with
      | nil => rw [hp] at hpool; simp at hpool
      | cons page rest =>
        have hrest : rest ≠ [] := by
          intro e; rw [hp, e] at hpool
          simp only [List.length_cons, List.length_nil] at hpool; omega
        obtain ⟨vm2, hm, hl⟩ := map_returns ⟨h.vm.mem, rest⟩ L.pgd_kern h.heap_max page
          (PAGE_PRESENT ||| PAGE_WRITE) hrest
        have hmax : u32 (h.heap_max + PAGE_SIZE) = h.heap_max + PAGE_SIZE := by
          unfold u32 PAGE_SIZE at *; omega
        have hlen : h.vm.pool.length = rest.length + 1 := by rw [hp]; simp
        simp only [] at hl
        obtain ⟨h1, e1, e2, e3, i, i1, i2, i3⟩ := ih f
          { h with vm := vm2, heap_max := u32 (h.heap_max + PAGE_SIZE) } (by omega)
          (by show _ ≤ u32 (h.heap_max + PAGE_SIZE) + _; rw [hmax]; unfold PAGE_SIZE at *; omega)
          (by show u32 (h.heap_max + PAGE_SIZE) + _ < _; rw [hmax]; unfold PAGE_SIZE at *; omega)
          (by show 2 * j ≤ vm2.pool.length; omega)
        refine ⟨h1, ?_, e2, e3, i + 1, by omega, ?_, ?_⟩
        · unfold allocChunk
          simp only [hc, if_true, pmm_alloc_page, hp, hm]
          exact e1
        · rw [i2]; show u32 (h.heap_max + PAGE_SIZE) + _ = _
          rw [hmax]; unfold PAGE_SIZE; omega
        · replace i3 : vm2.pool.length ≤ h1.vm.pool.length + 2 * i := i3
          have hcons : (page :: rest).length = rest.length + 1 := by simp
          omega
    · refine ⟨h, ?_, rfl, rfl, 0, by omega, by simp, by simp⟩
      unfold allocChunk
      simp [hc]

/-- On the empty heap `kmalloc(0xFFFFFFF8)` returns the pointer `0xE000000C` of a chunk of
length 4, the sum of the request and the header size reduced modulo `2 ^ 32`: the addition
`len += sizeof(header_t)` is not checked for overflow. -/
theorem kmalloc_wraps_request :
    (kmalloc stdLayout 8 (emptyClient [0x400000, 0x401000]).heap 0xFFFFFFF8).map
      (fun r => (r.1, (r.2.chunk 0xE0000000).allocated, (r.2.chunk 0xE0000000).len))
      = some (0xE000000C, 1, 4) ∧
    0xE000000C = u32 (0xE0000000 + stdLayout.HDR) ∧ ¬ (4 - stdLayout.HDR ≥ 0xFFFFFFF8) := by
  decide

/-! ## Chains of allocated chunks -/

theorem lastAddr_le (lens : List Nat) : ∀ a, a ≤ lastAddr a lens ∧ lastAddr a lens ≤ a + lens.sum := by
  induction lens with
  | nil => intro a; simp [lastAddr]
  | cons l ls ih =>
    intro a
    unfold lastAddr
    by_cases hl : ls = []
    · simp [hl]
    · simp only [hl, if_false, List.sum_cons]
      have := ih (a + l)
      omega

/-- The last chunk of a chain starts before the end of the chain. -/
theorem lastAddr_lt (lens : List Nat) (hpos : ∀ l ∈ lens, 0 < l) (hne : lens ≠ []) :
    ∀ a, lastAddr a lens < a + lens.sum := by
  induction lens with
  | nil => exact absurd rfl hne
  | cons l ls ih =>
    intro a
    unfold lastAddr
    by_cases hl : ls = []
    · have := hpos l (by simp)
      simp [hl]; omega
    · simp only [hl, if_false, List.sum_cons]
      have := ih (fun x hx => hpos x (by simp [hx])) hl (a + l)
      omega

/-- The header of the last chunk of a chain. -/
theorem chain_last (h : Heap) (lens : List Nat) (hne : lens ≠ []) :
    ∀ prev a, Chain h prev a lens →
      (h.chunk (lastAddr a lens)).next = 0 ∧ (h.chunk (lastAddr a lens)).allocated = 1 ∧
      (h.chunk (lastAddr a lens)).len = lens.getLast hne ∧
      lastAddr a lens + lens.getLast hne = a + lens.sum ∧
      (h.chunk (lastAddr a lens)).prev = (if lens.dropLast = [] then prev
        else lastAddr a lens.dropLast) := by
  induction lens with
  | nil => exact absurd rfl hne
  | cons l ls ih =>
    intro prev a hc
    obtain ⟨h1, h2⟩ := hc
    by_cases hl : ls = []
    · subst hl
      simp [lastAddr, h1]
    · obtain ⟨e1, e2, e3, e4, e5⟩ := ih hl a (a + l) h2
      have hd : (l :: ls).dropLast = l :: ls.dropLast := by
        cases ls with
        | nil => exact absurd rfl hl
        | cons x xs => rfl
      simp only [lastAddr, hl, if_false, List.getLast_cons hl, List.sum_cons, hd]
      refine ⟨e1, e2, e3, by omega, ?_⟩
      rw [e5]
      by_cases hdl : ls.dropLast = []
      · simp [hdl, lastAddr]
      · simp [hdl, lastAddr]

/-- The search loop of `kmalloc` walks past a chain of allocated chunks. -/
theorem kmallocLoop_chain (L : Layout) (gas len : Nat) (h : Heap) (lens : List Nat)
    (hne : lens ≠ []) :
    ∀ (prev a fuel : Nat), Chain h prev a lens → a ≠ 0 →
      kmallocLoop L gas (fuel + lens.length) h len a prev
        = kmallocLoop L gas fuel h len 0 (lastAddr a lens) := by
  induction lens with
  | nil => exact absurd rfl hne
  | cons l ls ih =>
    intro prev a fuel hc ha
    obtain ⟨h1, h2⟩ := hc
    have hfit : ¬ ((h.chunk a).allocated = 0 ∧ (h.chunk a).len ≥ len) := by
      rw [h1]; simp
    have e : fuel + (l :: ls).length = (fuel + ls.length) + 1 := by simp; omega
    rw [e]
    conv => lhs; unfold kmallocLoop
    rw [if_pos ha, if_neg hfit]
    by_cases hl : ls = []
    · subst hl
      simp [h1, lastAddr]
    · have hn : (h.chunk a).next = a + l := by rw [h1]; simp [hl]
      rw [hn, ih hl a (a + l) fuel h2 (by omega)]
      simp [lastAddr, hl]

/-- Appending a chunk at the end of a chain: the old last chunk is linked to it. -/
theorem chain_extend (h h1 : Heap) (len : Nat) (lens : List Nat) (hne : lens ≠ [])
    (hpos : ∀ l ∈ lens, 0 < l) :
    ∀ prev a, Chain h prev a lens →
      (∀ x, x < lastAddr a lens → h1.chunk x = h.chunk x) →
      h1.chunk (lastAddr a lens) = { h.chunk (lastAddr a lens) with next := a + lens.sum } →
      h1.chunk (a + lens.sum) = ⟨lastAddr a lens, 0, 1, len⟩ →
      Chain h1 prev a (lens ++ [len]) := by
  induction lens with
  | nil => exact absurd rfl hne
  | cons l ls ih =>
    intro prev a hc hlow hlast hnew
    obtain ⟨c1, c2⟩ := hc
    by_cases hl : ls = []
    · subst hl
      simp only [lastAddr, if_true, List.sum_cons, List.sum_nil, Nat.add_zero] at hlast hnew
      simp only [List.cons_append, List.nil_append, Chain, and_true]
      refine ⟨?_, hnew⟩
      rw [hlast, c1]
      simp
    · have hla : lastAddr a (l :: ls) = lastAddr (a + l) ls := by simp [lastAddr, hl]
      have hsum : a + (l :: ls).sum = a + l + ls.sum := by simp; omega
      rw [hla] at hlow hlast hnew
      rw [hsum] at hlast hnew
      have hlt : a < lastAddr (a + l) ls := by
        have := (lastAddr_le ls (a + l)).1
        have := hpos l (by simp)
        omega
      simp only [List.cons_append, Chain]
      refine ⟨?_, ih hl (fun x hx => hpos x (by simp [hx])) a (a + l) c2 hlow hlast hnew⟩
      rw [hlow a hlt, c1]
      simp [hl]

/-- Dropping the last chunk of a chain: its predecessor becomes the last chunk. -/
theorem chain_shrink (h h1 : Heap) (len : Nat) (lens : List Nat) (hne : lens ≠ [])
    (hpos : ∀ l ∈ lens, 0 < l) :
    ∀ prev a, Chain h prev a (lens ++ [len]) →
      (∀ x, x < lastAddr a lens → h1.chunk x = h.chunk x) →
      h1.chunk (lastAddr a lens) = { h.chunk (lastAddr a lens) with next := 0 } →
      Chain h1 prev a lens := by
  induction lens with
  | nil => exact absurd rfl hne
  | cons l ls ih =>
    intro prev a hc hlow hlast
    simp only [List.cons_append, Chain] at hc
    obtain ⟨c1, c2⟩ := hc
    by_cases hl : ls = []
    · subst hl
      simp only [lastAddr, if_true] at hlast
      simp only [Chain, and_true, if_true]
      rw [hlast, c1]
    · have hla : lastAddr a (l :: ls) = lastAddr (a + l) ls := by simp [lastAddr, hl]
      rw [hla] at hlow hlast
      have hlt : a < lastAddr (a + l) ls := by
        have := (lastAddr_le ls (a + l)).1
        have := hpos l (by simp)
        omega
      simp only [Chain]
      refine ⟨?_, ih hl (fun x hx => hpos x (by simp [hx])) a (a + l) c2 hlow hlast⟩
      rw [hlow a hlt, c1]
      simp [hl]

/-- The loop of `allocChunk` touches neither the chunk headers nor `heap_head`. -/
theorem allocChunk_frame (L : Layout) (start len : Nat) :
    ∀ (fuel : Nat) (h h1 : Heap), allocChunk L fuel h start len = some h1 →
      h1.chunk = h.chunk ∧ h1.heap_head = h.heap_head := by
  intro fuel
  induction fuel with
  | zero => intro h h1 e; simp [allocChunk] at e
  | succ f ih =>
    intro h h1 e
    unfold allocChunk at e
    split at e
    · split at e
      · simp at e
      · split at e
        · simp at e
        · obtain ⟨e1, e2⟩ := ih _ _ e
          exact ⟨e1, e2⟩
    · cases e
      exact ⟨rfl, rfl⟩

/-- On a chain of allocated chunks `kmalloc(n)` appends a chunk of `n + sizeof(header_t)`
bytes at the end of the chain, once `allocChunk` has grown the arena. -/
theorem kmalloc_on_chain (L : Layout) (h h1 : Heap) (lens : List Nat) (n fuel : Nat)
    (hHS : L.HEAP_START ≠ 0) (hpos : ∀ l ∈ lens, 0 < l) (hc : IsChain L h lens)
    (hb : L.HEAP_START + lens.sum + (n + L.HDR) < 4294967296) (hfuel : lens.length < fuel)
    (hA : allocChunk L fuel (if lens = [] then { h with heap_head := L.HEAP_START } else h)
      (L.HEAP_START + lens.sum) (n + L.HDR) = some h1) :
    ∃ h2, kmalloc L fuel h n = some (L.HEAP_START + lens.sum + L.HDR, h2) ∧
      IsChain L h2 (lens ++ [n + L.HDR]) ∧ h2.heap_max = h1.heap_max ∧ h2.vm = h1.vm := by
  obtain ⟨hhead, hch⟩ := hc
  obtain ⟨f1, e1⟩ := allocChunk_frame L _ _ _ _ _ hA
  have hu : u32 (n + L.HDR) = n + L.HDR := by unfold u32; omega
  have hp : u32 (L.HEAP_START + lens.sum + L.HDR) = L.HEAP_START + lens.sum + L.HDR := by
    unfold u32; omega
  unfold kmalloc
  rw [hu]
  by_cases hl : lens = []
  · subst hl
    simp only [if_true, List.sum_nil, Nat.add_zero] at hhead hA f1 e1 hp ⊢
    obtain ⟨f, rfl⟩ : ∃ f, fuel = f + 1 := ⟨fuel - 1, by simp at hfuel; omega⟩
    rw [hhead]
    unfold kmallocLoop
    simp only [ne_eq, not_true_eq_false, if_false, hA, hp]
    refine ⟨_, rfl, ⟨?_, ?_⟩, rfl, rfl⟩
    · simpa [Heap.setLen, Heap.setAllocated, Heap.setNext, Heap.setPrev] using e1
    · simp [Chain, Heap.setLen, Heap.setAllocated, Heap.setNext, Heap.setPrev]
  · simp only [hl, if_false] at hhead hA f1 e1
    obtain ⟨g, rfl⟩ : ∃ g, fuel = g + 1 + lens.length := ⟨fuel - 1 - lens.length, by omega⟩
    rw [hhead, kmallocLoop_chain L _ _ h lens hl 0 L.HEAP_START (g + 1) hch hHS]
    obtain ⟨c1, c2, c3, c4, c5⟩ := chain_last h lens hl 0 L.HEAP_START hch
    have hlast0 : lastAddr L.HEAP_START lens ≠ 0 := by
      have := (lastAddr_le lens L.HEAP_START).1
      omega
    have hlt := lastAddr_lt lens hpos hl L.HEAP_START
    have hstart : u32 (lastAddr L.HEAP_START lens + (h.chunk (lastAddr L.HEAP_START lens)).len)
        = L.HEAP_START + lens.sum := by
      rw [c3, c4]; unfold u32; omega
    unfold kmallocLoop
    simp only [ne_eq, not_true_eq_false, if_false, hlast0, not_false_eq_true, if_true, hstart,
      hA, hp]
    refine ⟨_, rfl, ⟨?_, ?_⟩, rfl, rfl⟩
    · simp [Heap.setLen, Heap.setAllocated, Heap.setNext, Heap.setPrev, e1, hhead]
    · apply chain_extend h _ (n + L.HDR) lens hl hpos 0 L.HEAP_START hch
      · intro x hx
        have h1 : x ≠ lastAddr L.HEAP_START lens := by omega
        have h2 : x ≠ L.HEAP_START + lens.sum := by omega
        simp [Heap.setLen, Heap.setAllocated, Heap.setNext, Heap.setPrev, h1, h2, f1]
      · have h2 : lastAddr L.HEAP_START lens ≠ L.HEAP_START + lens.sum := by omega
        simp [Heap.setLen, Heap.setAllocated, Heap.setNext, Heap.setPrev, h2, f1]
      · have h2 : L.HEAP_START + lens.sum ≠ lastAddr L.HEAP_START lens := by omega
        simp [Heap.setLen, Heap.setAllocated, Heap.setNext, Heap.setPrev, h2]

theorem sub32_add (x d : Nat) (h : x + d < 4294967296) : sub32 (x + d) d = x := by
  unfold sub32 u32; omega

/-- The function `splitChunk` changes neither `heap_head`, `heap_max` nor the page tables. -/
theorem splitChunk_frame (L : Layout) (h : Heap) (c len : Nat) :
    (splitChunk L h c len).heap_head = h.heap_head ∧
    (splitChunk L h c len).heap_max = h.heap_max ∧ (splitChunk L h c len).vm = h.vm := by
  unfold splitChunk
  split <;> simp [Heap.setLen, Heap.setAllocated, Heap.setNext, Heap.setPrev]

/-- Freeing the middle one of three allocated chunks only clears its flag. -/
theorem kfree_middle (L : Layout) (fuel : Nat) (h : Heap) (A la lb lc : Nat)
    (hA0 : A ≠ 0) (hla : 0 < la) (hlb : 0 < lb) (hb : A + la + lb + lc < 4294967296)
    (hd : L.HDR ≤ lb)
    (hc : Chain h 0 A [la, lb, lc]) :
    kfree L fuel h (A + la + L.HDR) = some (h.setAllocated (A + la) 0) := by
  simp only [Chain, and_true] at hc
  obtain ⟨c1, c2, c3⟩ := hc
  simp only [List.cons_ne_nil, if_false, if_true] at c1 c2 c3
  have n1 : A + la ≠ A := by omega
  have n2 : A + la + lb ≠ A + la := by omega
  have n3 : A + la + lb ≠ A := by omega
  have n4 : A + la + lb ≠ 0 := by omega
  have n5 : A + la ≠ 0 := by omega
  unfold kfree
  rw [sub32_add _ _ (by omega)]
  unfold glueChunk
  simp [Heap.setLen, Heap.setAllocated, Heap.setNext, Heap.setPrev, c1, c2, c3, n1, n2, n3,
    n4, n5, n1.symm, n2.symm, n3.symm, hA0]

/-- Freeing the first chunk when its successor is free merges the two. -/
theorem kfree_first (L : Layout) (fuel : Nat) (h : Heap) (A la lb lc : Nat)
    (hla : 0 < la) (hlb : 0 < lb) (hb : A + la + lb + lc < 4294967296)
    (hd : L.HDR ≤ la)
    (hc : Chain h 0 A [la, lb, lc]) :
    ∃ h5, kfree L fuel (h.setAllocated (A + la) 0) (A + L.HDR) = some h5 ∧
      h5.heap_head = h.heap_head ∧ h5.heap_max = h.heap_max ∧ h5.vm = h.vm ∧
      (h5.chunk A).allocated = 0 ∧ (h5.chunk A).len = la + lb := by
  simp only [Chain, and_true] at hc
  obtain ⟨c1, c2, c3⟩ := hc
  simp only [List.cons_ne_nil, if_false, if_true] at c1 c2 c3
  have n1 : A + la ≠ A := by omega
  have n2 : A + la + lb ≠ A + la := by omega
  have n3 : A + la + lb ≠ A := by omega
  have n4 : A + la + lb ≠ 0 := by omega
  have n5 : A + la ≠ 0 := by omega
  have hu : u32 (la + lb) = la + lb := by unfold u32; omega
  unfold kfree
  rw [sub32_add _ _ (by omega)]
  unfold glueChunk
  simp [Heap.setLen, Heap.setAllocated, Heap.setNext, Heap.setPrev, c1, c2, c3, n1, n2, n3,
    n4, n5, n1.symm, n2.symm, n3.symm, hu]

/-- On a chain of allocated chunks, within the page budget, `kmalloc(n)` appends a chunk. -/
theorem kmalloc_chain_budget (L : Layout) (h : Heap) (lens : List Nat) (n fuel J : Nat)
    (hHS : L.HEAP_START ≠ 0) (hpos : ∀ l ∈ lens, 0 < l) (hc : IsChain L h lens)
    (hB : Budget L h J) (hroom : lens.sum + (n + L.HDR) ≤ PAGE_SIZE * J)
    (htop : L.HEAP_START + PAGE_SIZE * J < 4294967296) (hfuel : lens.length < fuel)
    (hJ : J < fuel) :
    ∃ h2, kmalloc L fuel h n = some (L.HEAP_START + lens.sum + L.HDR, h2) ∧
      IsChain L h2 (lens ++ [n + L.HDR]) ∧ Budget L h2 J := by
  obtain ⟨k, k1, k2, k3⟩ := hB
  have hu : u32 (L.HEAP_START + lens.sum + (n + L.HDR)) = L.HEAP_START + lens.sum + (n + L.HDR) := by
    unfold u32; omega
  have key : ∀ h0 : Heap, h0.heap_max = h.heap_max → h0.vm = h.vm →
      ∃ h1, allocChunk L fuel h0 (L.HEAP_START + lens.sum) (n + L.HDR) = some h1 ∧
        ∃ i, i ≤ J - k ∧ h1.heap_max = h.heap_max + PAGE_SIZE * i ∧
          h.vm.pool.length ≤ h1.vm.pool.length + 2 * i := by
    intro h0 e1 e2
    obtain ⟨h1, a1, _, _, i, i1, i2, i3⟩ := allocChunk_returns L (L.HEAP_START + lens.sum)
      (n + L.HDR) (J - k) fuel h0 (by omega)
      (by rw [hu, e1, k2]; unfold PAGE_SIZE at *; omega)
      (by rw [e1, k2]; unfold PAGE_SIZE at *; omega)
      (by rw [e2]; exact k3)
    exact ⟨h1, a1, i, i1, by rw [i2, e1], by rw [← e2]; exact i3⟩
  obtain ⟨h1, a1, i, i1, i2, i3⟩ :=
    key (if lens = [] then { h with heap_head := L.HEAP_START } else h)
      (by split <;> rfl) (by split <;> rfl)
  obtain ⟨h2, r1, r2, r3, r4⟩ := kmalloc_on_chain L h h1 lens n fuel hHS hpos hc (by omega)
    hfuel a1
  refine ⟨h2, r1, r2, k + i, by omega, ?_, ?_⟩
  · rw [r3, i2, k2]; unfold PAGE_SIZE; omega
  · rw [r4]; omega

/-- Claim C8, amended: for all request sizes `a`, `b`, `c` and `m` such that the three
chunks fit in `j` pages that lie below the top of the address space and for which the page
allocator holds the frames: starting from the empty heap, after `A = kmalloc(a)`,
`B = kmalloc(b)`, `C = kmalloc(c)`, `kfree(B)`, `kfree(A)`, if `m + sizeof(header_t)` is at
most `len(A) + len(B)` then `kmalloc(m)` returns a pointer whose range lies inside the
former chunks of `A` and `B`, and leaves `heap_max`, the page tables and the pool of free
frames unchanged. -/
theorem kmalloc_reuses_coalesced (L : Layout) (chunk0 : Nat → header_t) (vm : VmState)
    (a b c m j : Nat) (hHS : L.HEAP_START ≠ 0) (hHDR : 0 < L.HDR)
    (hroom : (a + L.HDR) + (b + L.HDR) + (c + L.HDR) ≤ PAGE_SIZE * j)
    (htop : L.HEAP_START + PAGE_SIZE * j < 4294967296) (hpool : 2 * j ≤ vm.pool.length)
    (hm : m + L.HDR ≤ (a + L.HDR) + (b + L.HDR)) :
    ∃ fuel pA hA pB hB pC hC h4 h5 p h6,
      kmalloc L fuel (initHeap L chunk0 vm) a = some (pA, hA) ∧
      kmalloc L fuel hA b = some (pB, hB) ∧ kmalloc L fuel hB c = some (pC, hC) ∧
      kfree L fuel hC pB = some h4 ∧ kfree L fuel h4 pA = some h5 ∧
      kmalloc L fuel h5 m = some (p, h6) ∧
      pA = L.HEAP_START + L.HDR ∧ pB = L.HEAP_START + (a + L.HDR) + L.HDR ∧
      L.HEAP_START ≤ p ∧ p + m ≤ L.HEAP_START + (a + L.HDR) + (b + L.HDR) ∧
      h6.heap_max = h5.heap_max ∧ h6.vm = h5.vm := by
  have hB0 : Budget L (initHeap L chunk0 vm) j := ⟨0, by omega, by simp [initHeap], by simpa [initHeap] using hpool⟩
  have hC0 : IsChain L (initHeap L chunk0 vm) [] := ⟨by simp [initHeap], trivial⟩
  obtain ⟨hA, a1, a2, a3⟩ := kmalloc_chain_budget L _ [] a (j + 4) j hHS (by simp) hC0 hB0
    (by simp; omega) htop (by simp) (by omega)
  obtain ⟨hB, b1, b2, b3⟩ := kmalloc_chain_budget L hA [a + L.HDR] b (j + 4) j hHS
    (by simp; omega) a2 a3 (by simp; omega) htop (by simp) (by omega)
  obtain ⟨hC, c1, c2, c3⟩ := kmalloc_chain_budget L hB [a + L.HDR, b + L.HDR] c (j + 4) j hHS
    (by simp; omega) b2 b3 (by simp; omega) htop (by simp) (by omega)
  simp only [List.nil_append, List.cons_append, List.sum_cons, List.sum_nil, Nat.add_zero] at *
  obtain ⟨chead, cchain⟩ := c2
  have hbnd : L.HEAP_START + (a + L.HDR) + (b + L.HDR) + (c + L.HDR) < 4294967296 := by
    unfold PAGE_SIZE at *; omega
  have f1 := kfree_middle L (j + 4) hC L.HEAP_START (a + L.HDR) (b + L.HDR) (c + L.HDR) hHS
    (by omega) (by omega) hbnd (by omega) cchain
  obtain ⟨h5, f2, g1, g2, g3, g4, g5⟩ := kfree_first L (j + 4) hC L.HEAP_START (a + L.HDR)
    (b + L.HDR) (c + L.HDR) (by omega) (by omega) hbnd (by omega) cchain
  have hp : u32 (L.HEAP_START + L.HDR) = L.HEAP_START + L.HDR := by unfold u32; omega
  have hu : u32 (m + L.HDR) = m + L.HDR := by unfold u32; omega
  have hfit : (h5.chunk L.HEAP_START).allocated = 0 ∧ (h5.chunk L.HEAP_START).len ≥ m + L.HDR := by
    rw [g4, g5]; exact ⟨rfl, hm⟩
  have hhead : h5.heap_head = L.HEAP_START := by rw [g1, chead]; simp
  have k6 : kmalloc L (j + 4) h5 m = some (L.HEAP_START + L.HDR,
      (splitChunk L h5 L.HEAP_START (m + L.HDR)).setAllocated L.HEAP_START 1) := by
    unfold kmalloc
    rw [hu, hhead]
    unfold kmallocLoop
    rw [if_pos hHS, if_pos hfit, hp]
  obtain ⟨s1, s2, s3⟩ := splitChunk_frame L h5 L.HEAP_START (m + L.HDR)
  refine ⟨j + 4, L.HEAP_START + L.HDR, hA, L.HEAP_START + (a + L.HDR) + L.HDR, hB,
    L.HEAP_START + (a + L.HDR + (b + L.HDR)) + L.HDR, hC,
    hC.setAllocated (L.HEAP_START + (a + L.HDR)) 0, h5, L.HEAP_START + L.HDR, _,
    a1, b1, c1, f1, f2, k6, rfl, rfl, by omega, by omega, ?_, ?_⟩
  · simpa [Heap.setAllocated] using s2
  · simpa [Heap.setAllocated] using s3

/-- Claim C8 at a concrete input: requests of 50, 500 and 100 bytes, then 500 bytes. -/
theorem kmalloc_reuses_coalesced_witness :
    ∃ fuel pA hA pB hB pC hC h4 h5 p h6,
      kmalloc stdLayout fuel (initHeap stdLayout (fun _ => ⟨0, 0, 0, 0⟩)
        (blankVm [0x400000, 0x401000])) 50 = some (pA, hA) ∧
      kmalloc stdLayout fuel hA 500 = some (pB, hB) ∧
      kmalloc stdLayout fuel hB 100 = some (pC, hC) ∧
      kfree stdLayout fuel hC pB = some h4 ∧ kfree stdLayout fuel h4 pA = some h5 ∧
      kmalloc stdLayout fuel h5 500 = some (p, h6) ∧
      pA = stdLayout.HEAP_START + stdLayout.HDR ∧
      pB = stdLayout.HEAP_START + (50 + stdLayout.HDR) + stdLayout.HDR ∧
      stdLayout.HEAP_START ≤ p ∧
      p + 500 ≤ stdLayout.HEAP_START + (50 + stdLayout.HDR) + (500 + stdLayout.HDR) ∧
      h6.heap_max = h5.heap_max ∧ h6.vm = h5.vm :=
  kmalloc_reuses_coalesced stdLayout (fun _ => ⟨0, 0, 0, 0⟩) (blankVm [0x400000, 0x401000])
    50 500 100 500 1 (by decide) (by decide) (by decide) (by decide) (by decide) (by decide)

/-- The loop of `allocChunk` never stops when the chunk ends in the last page of the address
space: `heap_max` is a multiple of the page size, so it wraps to zero before it reaches the
end of the chunk. -/
theorem allocChunk_top_page (L : Layout) (start len : Nat)
    (htop : 4294963200 < u32 (start + len)) :
    ∀ (fuel : Nat) (h : Heap), h.heap_max % 4096 = 0 → h.heap_max < 4294967296 →
      allocChunk L fuel h start len = none := by
  intro fuel
  induction fuel with
  | zero => intro h _ _; rfl
  | succ f ih =>
    intro h h1 h2
    unfold allocChunk
    have hc : u32 (start + len) > h.heap_max := by omega
    rw [if_pos hc]
    cases pmm_alloc_page h.vm with
    | none => rfl
    | some r =>
      obtain ⟨page, vm1⟩ := r
      simp only []
      cases map vm1 L.pgd_kern h.heap_max page (PAGE_PRESENT ||| PAGE_WRITE) with
      | none => rfl
      | some vm2 =>
        simp only []
        apply ih
        · show u32 (h.heap_max + PAGE_SIZE) % 4096 = 0
          unfold u32 PAGE_SIZE; omega
        · exact u32_lt _

/-- On an empty list the search loop of `kmalloc` does not return when `allocChunk` does
not. -/
theorem kmallocLoop_empty_none (L : Layout) (gas fuel len : Nat) (h : Heap)
    (hA : allocChunk L gas { h with heap_head := L.HEAP_START } L.HEAP_START len = none) :
    kmallocLoop L gas fuel h len 0 0 = none := by
  cases fuel with
  | zero => rfl
  | succ f =>
    unfold kmallocLoop
    rw [if_neg (by simp)]
    simp only [ne_eq, not_true_eq_false, if_false]
    rw [hA]

/-- On the empty heap `kmalloc(0x1FFFFFF0)` does not return, whatever the fuel and whatever
the page allocator holds. -/
theorem kmalloc_top_page (fuel : Nat) (pool : List Nat) :
    kmalloc stdLayout fuel (emptyClient pool).heap 0x1FFFFFF0 = none := by
  have htop : 4294963200 < u32 (stdLayout.HEAP_START + u32 (0x1FFFFFF0 + stdLayout.HDR)) := by
    decide
  unfold kmalloc
  generalize u32 (0x1FFFFFF0 + stdLayout.HDR) = len at htop ⊢
  have hh : (emptyClient pool).heap.heap_head = 0 := rfl
  rw [hh]
  apply kmallocLoop_empty_none
  apply allocChunk_top_page stdLayout _ _ htop
  · show stdLayout.HEAP_START % 4096 = 0
    decide
  · show stdLayout.HEAP_START < 4294967296
    decide

/-- Claim C8 as stated fails: for the request size `a = 0x1FFFFFF0`, whose chunk ends in the
last page of the address space, the first call `kmalloc(a)` on the empty heap never returns,
so no later call returns a pointer. -/
theorem kmalloc_last_page_never_returns :
    ¬ ∃ fuel pool r, kmalloc stdLayout fuel (emptyClient pool).heap 0x1FFFFFF0 = some r := by
  rintro ⟨fuel, pool, r, e⟩
  rw [kmalloc_top_page] at e
  cases e
/-! ## Page tables that do not overlap -/

/-- The answer of `getMapping` depends on two words only: the directory row and the table
row governing the address. -/
theorem getMapping_congr (m m1 : Mem) (pgd w p : Nat)
    (h1 : tableOf m1 pgd (PGD_INDEX w) = tableOf m pgd (PGD_INDEX w))
    (h2 : tableOf m pgd (PGD_INDEX w) ≠ 0 →
      m1 (elem (u32 (tableOf m pgd (PGD_INDEX w) + PAGE_OFFSET)) (PTE_INDEX w))
        = m (elem (u32 (tableOf m pgd (PGD_INDEX w) + PAGE_OFFSET)) (PTE_INDEX w))) :
    getMapping m1 pgd w p = getMapping m pgd w p := by
  unfold tableOf at h1 h2
  simp only [getMapping, h1]
  by_cases h : m (elem pgd (PGD_INDEX w)) &&& PAGE_MASK = 0
  · simp [h]
  · simp only [h, if_false]
    rw [h2 h]

/-- A row of a page table is not a row of the directory. -/
theorem slot_ne_row (pgd T i r : Nat) (h1 : pgd % PAGE_SIZE = 0) (h2 : pgd < 4294967296)
    (hT : FrameOk pgd T) (hi : i < 1024) (hr : r < 1024) :
    elem (u32 (T + PAGE_OFFSET)) i ≠ elem pgd r := by
  unfold FrameOk at hT
  unfold elem u32 PAGE_OFFSET PAGE_SIZE at *
  omega

/-- Rows of page tables are distinct words unless table and index agree. -/
theorem slot_inj (pgd T T1 i i1 : Nat) (hT : FrameOk pgd T) (hT1 : FrameOk pgd T1)
    (hi : i < 1024) (hi1 : i1 < 1024)
    (e : elem (u32 (T + PAGE_OFFSET)) i = elem (u32 (T1 + PAGE_OFFSET)) i1) :
    T = T1 ∧ i = i1 := by
  unfold FrameOk at hT hT1
  unfold elem u32 PAGE_OFFSET PAGE_SIZE at *
  omega

/-- Rows of the directory are distinct words. -/
theorem row_inj (pgd r r1 : Nat) (hr : r < 1024) (hr1 : r1 < 1024)
    (e : elem pgd r = elem pgd r1) : r = r1 := by
  unfold elem u32 at *
  omega

/-- A row of the directory lies outside the page of a usable frame. -/
theorem row_outside (pgd T r : Nat) (h1 : pgd % PAGE_SIZE = 0) (h2 : pgd < 4294967296)
    (hT : FrameOk pgd T) (hr : r < 1024) :
    ¬ (u32 (T + PAGE_OFFSET) ≤ elem pgd r ∧ elem pgd r < u32 (T + PAGE_OFFSET) + PAGE_SIZE) := by
  unfold FrameOk at hT
  unfold elem u32 PAGE_OFFSET PAGE_SIZE at *
  omega

/-- A row of a page table lies inside the page of its frame and outside the page of any
other usable frame. -/
theorem slot_inside (pgd T T1 i : Nat) (hT : FrameOk pgd T) (hT1 : FrameOk pgd T1)
    (hi : i < 1024) :
    (u32 (T1 + PAGE_OFFSET) ≤ elem (u32 (T + PAGE_OFFSET)) i ∧
      elem (u32 (T + PAGE_OFFSET)) i < u32 (T1 + PAGE_OFFSET) + PAGE_SIZE) ↔ T = T1 := by
  unfold FrameOk at hT hT1
  unfold elem u32 PAGE_OFFSET PAGE_SIZE at *
  omega

/-- The memory `map` leaves behind, for a well-formed directory and page allocator: the
table `T` used, the rows of the directory, the rows of the other tables and the rows of
`T`. -/
theorem map_shape (s : VmState) (pgd v P f : Nat) (used : List Nat)
    (hD : DirOk s.mem pgd) (hP : PoolOk s pgd used) (hne : s.pool ≠ []) :
    ∃ s1 T, map s pgd v P f = some s1 ∧ FrameOk pgd T ∧
      (∀ r, r < 1024 → r ≠ PGD_INDEX v → tableOf s.mem pgd r ≠ T) ∧
      (tableOf s.mem pgd (PGD_INDEX v) = T ∧ s1.pool = s.pool ∨
        tableOf s.mem pgd (PGD_INDEX v) = 0 ∧ s.pool = T :: s1.pool) ∧
      tableOf s1.mem pgd (PGD_INDEX v) = T ∧
      (∀ r, r < 1024 → r ≠ PGD_INDEX v → s1.mem (elem pgd r) = s.mem (elem pgd r)) ∧
      (∀ T1 i, FrameOk pgd T1 → T1 ≠ T → i < 1024 →
        s1.mem (elem (u32 (T1 + PAGE_OFFSET)) i) = s.mem (elem (u32 (T1 + PAGE_OFFSET)) i)) ∧
      (∀ i, i < 1024 → i ≠ PTE_INDEX v → s1.mem (elem (u32 (T + PAGE_OFFSET)) i)
        = if tableOf s.mem pgd (PGD_INDEX v) = 0 then 0
          else s.mem (elem (u32 (T + PAGE_OFFSET)) i)) ∧
      s1.mem (elem (u32 (T + PAGE_OFFSET)) (PTE_INDEX v)) = u32 ((P &&& PAGE_MASK) ||| f) := by
  obtain ⟨d1, d2, d3, d4⟩ := hD
  obtain ⟨p1, p2, p3, p4⟩ := hP
  have hv := PGD_INDEX_lt v
  have hi := PTE_INDEX_lt v
  by_cases hrow : tableOf s.mem pgd (PGD_INDEX v) = 0
  · cases hp : s.pool with
    | nil => exact absurd hp hne
    | cons T rest =>
      have hT := p4 T (Or.inl (by rw [hp]; simp))
      obtain ⟨hTok, hTnew⟩ := hT
      have hTal : T % 4096 = 0 := hTok.2.1
      have hT32 : T < 4294967296 := by have := hTok.2.2.1; omega
      refine ⟨_, T, map_absent s pgd v P f T rest hrow hp, hTok, ?_, Or.inr ⟨hrow, rfl⟩, ?_, ?_,
        ?_, ?_, ?_⟩
      · intro r hr _; exact hTnew r hr
      · show Mem.store _ _ _ _ &&& PAGE_MASK = T
        rw [store_other _ _ _ _ (slot_ne_row pgd T _ _ d1 d2 hTok hi hv).symm]
        unfold bzero
        rw [if_neg (row_outside pgd T _ d1 d2 hTok hv), store_same, row_frame T hTal hT32]
      · intro r hr hne
        show Mem.store _ _ _ _ = _
        rw [store_other _ _ _ _ (slot_ne_row pgd T _ _ d1 d2 hTok hi hr).symm]
        unfold bzero
        rw [if_neg (row_outside pgd T _ d1 d2 hTok hr), store_other]
        intro e; exact hne (row_inj pgd _ _ hr hv e)
      · intro T1 i hT1 hne hi1
        show Mem.store _ _ _ _ = _
        have n1 : elem (u32 (T1 + PAGE_OFFSET)) i ≠ elem (u32 (T + PAGE_OFFSET)) (PTE_INDEX v) := by
          intro e; exact hne (slot_inj pgd _ _ _ _ hT1 hTok hi1 hi e).1
        rw [store_other _ _ _ _ n1]
        unfold bzero
        rw [if_neg (by rw [slot_inside pgd T1 T i hT1 hTok hi1]; exact hne),
          store_other _ _ _ _ (slot_ne_row pgd T1 _ _ d1 d2 hT1 hi1 hv)]
      · intro i hi1 hne
        show Mem.store _ _ _ _ = _
        have n1 : elem (u32 (T + PAGE_OFFSET)) i ≠ elem (u32 (T + PAGE_OFFSET)) (PTE_INDEX v) := by
          intro e; exact hne (slot_inj pgd _ _ _ _ hTok hTok hi1 hi e).2
        rw [store_other _ _ _ _ n1, if_pos hrow]
        unfold bzero
        rw [if_pos ((slot_inside pgd T T i hTok hTok hi1).2 rfl)]
      · show Mem.store _ _ _ _ = _
        rw [store_same]
  · have hTok := d3 _ hv hrow
    have hrow2 : s.mem (elem pgd (PGD_INDEX v)) &&& PAGE_MASK ≠ 0 := hrow
    have e0 : s.mem (elem pgd (PGD_INDEX v)) &&& PAGE_MASK = tableOf s.mem pgd (PGD_INDEX v) :=
      rfl
    refine ⟨_, tableOf s.mem pgd (PGD_INDEX v), map_present s pgd v P f hrow2, hTok, ?_,
      Or.inl ⟨rfl, rfl⟩, ?_, ?_, ?_, ?_, ?_⟩
    · intro r hr hne e
      exact hne (d4 _ _ hv hr hrow e.symm).symm
    · show Mem.store _ _ _ _ &&& PAGE_MASK = _
      rw [e0, store_other _ _ _ _ (slot_ne_row pgd _ _ _ d1 d2 hTok hi hv).symm]
      rfl
    · intro r hr _
      show Mem.store _ _ _ _ = _
      rw [e0, store_other _ _ _ _ (slot_ne_row pgd _ _ _ d1 d2 hTok hi hr).symm]
    · intro T1 i hT1 hne hi1
      show Mem.store _ _ _ _ = _
      rw [e0, store_other]
      intro e; exact hne (slot_inj pgd _ _ _ _ hT1 hTok hi1 hi e).1
    · intro i hi1 hne
      show Mem.store _ _ _ _ = _
      rw [e0, if_neg hrow, store_other]
      intro e; exact hne (slot_inj pgd _ _ _ _ hTok hTok hi1 hi e).2
    · show Mem.store _ _ _ _ = _
      rw [e0]
      exact store_same _ _ _

/-- The definition of `getMapping`, in terms of the table installed in the directory row. -/
theorem getMapping_eq (m : Mem) (pgd w p : Nat) :
    getMapping m pgd w p =
      if tableOf m pgd (PGD_INDEX w) = 0 then (0, none)
      else if m (elem (u32 (tableOf m pgd (PGD_INDEX w) + PAGE_OFFSET)) (PTE_INDEX w)) ≠ 0 ∧ p ≠ 0
        then (1, some (m (elem (u32 (tableOf m pgd (PGD_INDEX w) + PAGE_OFFSET)) (PTE_INDEX w))
          &&& PAGE_MASK))
        else (0, none) := rfl

/-- For a well-formed directory and page allocator `map` returns and keeps both well
formed; it changes the answer of `getMapping` for no other page, makes `getMapping` find
the frame mapped, and takes at most one frame from the pool, which it installs as a page
table. -/
theorem map_wf (s : VmState) (pgd v P f : Nat) (used : List Nat)
    (hD : DirOk s.mem pgd) (hP : PoolOk s pgd used) (hne : s.pool ≠ []) :
    ∃ s1, map s pgd v P f = some s1 ∧ DirOk s1.mem pgd ∧ PoolOk s1 pgd used ∧
      (∀ w p, PGD_INDEX w ≠ PGD_INDEX v ∨ PTE_INDEX w ≠ PTE_INDEX v →
        getMapping s1.mem pgd w p = getMapping s.mem pgd w p) ∧
      (P % PAGE_SIZE = 0 → P < 4294967296 → f < 4096 → P ≠ 0 ∨ f ≠ 0 →
        ∀ p, p ≠ 0 → getMapping s1.mem pgd v p = (1, some P)) ∧
      s.pool.length ≤ s1.pool.length + 1 ∧
      (∀ F, F ∈ s1.pool → F ∈ s.pool) ∧
      (∀ F, F ∈ s.pool → F ∈ s1.pool ∨ ∃ r, r < 1024 ∧ tableOf s1.mem pgd r = F) ∧
      (∀ r, r < 1024 → tableOf s.mem pgd r ≠ 0 → tableOf s1.mem pgd r = tableOf s.mem pgd r) := by
  obtain ⟨s1, T, hm, hT, hdist, hcase, hrow, hrows, hothers, hslots, hslot⟩ :=
    map_shape s pgd v P f used hD hP hne
  obtain ⟨d1, d2, d3, d4⟩ := hD
  obtain ⟨p1, p2, p3, p4⟩ := hP
  have hv := PGD_INDEX_lt v
  have hT0 : T ≠ 0 := hT.1
  have htab : ∀ r, r < 1024 → r ≠ PGD_INDEX v → tableOf s1.mem pgd r = tableOf s.mem pgd r := by
    intro r hr hne
    unfold tableOf
    rw [hrows r hr hne]
  have hsub : ∀ F, F ∈ s1.pool → F ∈ s.pool := by
    intro F hF
    rcases hcase with ⟨_, e⟩ | ⟨_, e⟩
    · rw [← e]; exact hF
    · rw [e]; exact List.mem_cons_of_mem _ hF
  have hTfresh : ∀ F, F ∈ s1.pool ∨ F ∈ used → T ≠ F := by
    intro F hF e
    subst e
    rcases hcase with ⟨e1, e2⟩ | ⟨_, e2⟩
    · have := (p4 T (hF.imp (fun x => e2 ▸ x) id)).2 _ hv
      exact this e1
    · rw [e2] at p1 p3
      rcases hF with hF | hF
      · exact (List.nodup_cons.1 p1).1 hF
      · exact p3 T hF (by simp)
  refine ⟨s1, hm, ⟨d1, d2, ?_, ?_⟩, ⟨?_, p2, ?_, ?_⟩, ?_, ?_, ?_, hsub, ?_, ?_⟩
  · intro r hr hne
    by_cases e : r = PGD_INDEX v
    · subst e; rw [hrow]; exact hT
    · rw [htab r hr e] at hne ⊢; exact d3 r hr hne
  · intro r r1 hr hr1 hne e
    by_cases c : r = PGD_INDEX v <;> by_cases c1 : r1 = PGD_INDEX v
    · rw [c, c1]
    · subst c
      rw [hrow, htab r1 hr1 c1] at e
      exact absurd e.symm (hdist r1 hr1 c1)
    · subst c1
      rw [hrow, htab r hr c] at e
      exact absurd e (hdist r hr c)
    · rw [htab r hr c] at hne e
      rw [htab r1 hr1 c1] at e
      exact d4 r r1 hr hr1 hne e
  · rcases hcase with ⟨_, e⟩ | ⟨_, e⟩
    · rw [e]; exact p1
    · rw [e] at p1; exact (List.nodup_cons.1 p1).2
  · intro F hF hF1
    exact p3 F hF (hsub F hF1)
  · intro F hF
    refine ⟨(p4 F (hF.imp (hsub F) id)).1, ?_⟩
    intro r hr
    by_cases e : r = PGD_INDEX v
    · subst e; rw [hrow]; exact hTfresh F hF
    · rw [htab r hr e]; exact (p4 F (hF.imp (hsub F) id)).2 r hr
  · intro w p hw
    have hwv := PGD_INDEX_lt w
    have hwi := PTE_INDEX_lt w
    by_cases e : PGD_INDEX w = PGD_INDEX v
    · have hi : PTE_INDEX w ≠ PTE_INDEX v := by
        rcases hw with hw | hw
        · exact absurd e hw
        · exact hw
      rw [getMapping_eq, getMapping_eq, e, hrow, if_neg hT0, hslots _ hwi hi]
      rcases hcase with ⟨e1, _⟩ | ⟨e1, _⟩
      · rw [e1, if_neg hT0, if_neg hT0]
      · rw [e1]; simp
    · apply getMapping_congr
      · exact htab _ hwv e
      · intro hne
        exact hothers _ _ (d3 _ hwv hne) (hdist _ hwv e) hwi
  · intro hP1 hP2 hf hnz p hp
    obtain ⟨e1, e2⟩ := entry_frame P f hP1 hP2 hf
    have hne : u32 ((P &&& PAGE_MASK) ||| f) ≠ 0 := by rw [e1]; omega
    rw [getMapping_eq, hrow, if_neg hT0, hslot, if_pos ⟨hne, hp⟩, e2]
  · rcases hcase with ⟨_, e⟩ | ⟨_, e⟩
    · rw [e]; omega
    · rw [e]; simp
  · intro F hF
    rcases hcase with ⟨_, e⟩ | ⟨_, e⟩
    · left; rw [e]; exact hF
    · rw [e] at hF
      rcases List.mem_cons.1 hF with h | h
      · right; exact ⟨_, hv, by rw [hrow, h]⟩
      · left; exact h
  · intro r hr hne
    by_cases e : r = PGD_INDEX v
    · subst e
      rcases hcase with ⟨e1, _⟩ | ⟨e1, _⟩
      · rw [hrow, e1]
      · exact absurd e1 hne
    · exact htab r hr e

/-- When the governing table exists in a well-formed directory, `unmap` leaves every
directory row as it is, makes `getMapping` report not-found for the page, and changes the
answer of `getMapping` for no other page. -/
theorem unmap_wf (m : Mem) (pgd v : Nat) (hD : DirOk m pgd)
    (ht : tableOf m pgd (PGD_INDEX v) ≠ 0) :
    (∀ r, r < 1024 → tableOf (unmap m pgd v) pgd r = tableOf m pgd r) ∧
    (∀ p, getMapping (unmap m pgd v) pgd v p = (0, none)) ∧
    (∀ w p, PGD_INDEX w ≠ PGD_INDEX v ∨ PTE_INDEX w ≠ PTE_INDEX v →
      getMapping (unmap m pgd v) pgd w p = getMapping m pgd w p) := by
  obtain ⟨d1, d2, d3, d4⟩ := hD
  have hv := PGD_INDEX_lt v
  have hi := PTE_INDEX_lt v
  have hT := d3 _ hv ht
  have hlin : u32 (tableOf m pgd (PGD_INDEX v) + PAGE_OFFSET) ≠ 0 := by
    have := hT.2.2.1
    unfold u32 PAGE_OFFSET; omega
  have hun : unmap m pgd v
      = m.store (elem (u32 (tableOf m pgd (PGD_INDEX v) + PAGE_OFFSET)) (PTE_INDEX v)) 0 := by
    unfold unmap tableOf at *
    simp only [hlin, if_false]
  have htab : ∀ r, r < 1024 → tableOf (unmap m pgd v) pgd r = tableOf m pgd r := by
    intro r hr
    rw [hun]
    show (m.store (elem (u32 (tableOf m pgd (PGD_INDEX v) + PAGE_OFFSET)) (PTE_INDEX v)) 0)
      (elem pgd r) &&& PAGE_MASK = m (elem pgd r) &&& PAGE_MASK
    rw [store_other _ _ _ _ (slot_ne_row pgd _ _ _ d1 d2 hT hi hr).symm]
  refine ⟨htab, ?_, ?_⟩
  · intro p
    rw [getMapping_eq, htab _ hv, if_neg ht, hun, store_same]
    simp
  · intro w p hw
    have hwv := PGD_INDEX_lt w
    have hwi := PTE_INDEX_lt w
    apply getMapping_congr
    · exact htab _ hwv
    · intro hne
      rw [hun, store_other]
      intro e
      obtain ⟨e1, e2⟩ := slot_inj pgd _ _ _ _ (d3 _ hwv hne) hT hwi hi e
      rcases hw with hw | hw
      · exact hw (d4 _ _ hwv hv hne e1)
      · exact hw e2

/-- Two addresses in different pages differ in their directory index or their table index. -/
theorem page_index_ne (a b : Nat) (ha : a < 4294967296) (hb : b < 4294967296)
    (h : a / 4096 ≠ b / 4096) :
    PGD_INDEX a ≠ PGD_INDEX b ∨ PTE_INDEX a ≠ PTE_INDEX b := by
  rw [PGD_INDEX_eq, PGD_INDEX_eq, PTE_INDEX_eq, PTE_INDEX_eq]
  omega

/-- The mapped pages stay mapped when `getMapping` answers the same for each of them. -/
theorem pagesMapped_congr (m m1 : Mem) (pgd base : Nat) (fs : List Nat)
    (h : ∀ i, i < fs.length →
      getMapping m1 pgd (base + PAGE_SIZE * i) 1 = getMapping m pgd (base + PAGE_SIZE * i) 1)
    (hm : PagesMapped m pgd base fs) : PagesMapped m1 pgd base fs := by
  induction fs with
  | nil => trivial
  | cons F fs ih =>
    obtain ⟨h1, h2⟩ := hm
    refine ⟨?_, ih (fun i hi => h i (by simp; omega)) h2⟩
    rw [h fs.length (by simp), h1]

/-- The directory and the page allocator stay well formed when memory changes without
changing a directory row. -/
theorem poolOk_congr (s s1 : VmState) (pgd : Nat) (used : List Nat)
    (ht : ∀ r, r < 1024 → tableOf s1.mem pgd r = tableOf s.mem pgd r)
    (hD : DirOk s.mem pgd) :
    DirOk s1.mem pgd ∧ (s1.pool = s.pool → PoolOk s pgd used → PoolOk s1 pgd used) := by
  obtain ⟨d1, d2, d3, d4⟩ := hD
  refine ⟨⟨d1, d2, ?_, ?_⟩, ?_⟩
  · intro r hr hne
    rw [ht r hr] at hne ⊢
    exact d3 r hr hne
  · intro r r1 hr hr1 hne e
    rw [ht r hr] at hne e
    rw [ht r1 hr1] at e
    exact d4 r r1 hr hr1 hne e
  · intro e ⟨p1, p2, p3, p4⟩
    rw [← e] at p1 p3 p4
    refine ⟨p1, p2, p3, ?_⟩
    intro F hF
    refine ⟨(p4 F hF).1, ?_⟩
    intro r hr
    rw [ht r hr]
    exact (p4 F hF).2 r hr

/-! ## Growing and shrinking the arena -/

/-- The loop of `allocChunk` keeps the paging state of the heap: the pages it maps are
backed by the frames `new` it takes from the pool. -/
theorem allocChunk_paged (L : Layout) (pool0 : List Nat) (start len : Nat) :
    ∀ (j fuel : Nat) (h : Heap) (frames : List Nat), HeapPaged L pool0 h frames → j < fuel →
      u32 (start + len) ≤ h.heap_max + PAGE_SIZE * j →
      h.heap_max + PAGE_SIZE * j < 4294967296 → 2 * j ≤ h.vm.pool.length →
      ∃ h1 new, allocChunk L fuel h start len = some h1 ∧ h1.chunk = h.chunk ∧
        h1.heap_head = h.heap_head ∧ HeapPaged L pool0 h1 (new ++ frames) ∧ new.length ≤ j ∧
        h.vm.pool.length ≤ h1.vm.pool.length + 2 * new.length ∧
        u32 (start + len) ≤ h1.heap_max := by
  have hps : PAGE_SIZE = 4096 := rfl
  have stop : ∀ (f : Nat) (h : Heap) (frames : List Nat) (j : Nat), HeapPaged L pool0 h frames →
      ¬ u32 (start + len) > h.heap_max →
      ∃ h1 new, allocChunk L (f + 1) h start len = some h1 ∧ h1.chunk = h.chunk ∧
        h1.heap_head = h.heap_head ∧ HeapPaged L pool0 h1 (new ++ frames) ∧ new.length ≤ j ∧
        h.vm.pool.length ≤ h1.vm.pool.length + 2 * new.length ∧
        u32 (start + len) ≤ h1.heap_max := by
    intro f h frames j hI hc
    refine ⟨h, [], ?_, rfl, rfl, by simpa using hI, by simp, by simp, by omega⟩
    unfold allocChunk
    rw [if_neg hc]
  intro j
  induction j with
  | zero =>
    intro fuel h frames hI hf hle _ _
    obtain ⟨f, rfl⟩ : ∃ f, fuel = f + 1 := ⟨fuel - 1, by omega⟩
    exact stop f h frames 0 hI (by omega)
  | succ j ih =>
    intro fuel h frames hI hf hle hlt hpool
    obtain ⟨f, rfl⟩ : ∃ f, fuel = f + 1 := ⟨fuel - 1, by omega⟩
    by_cases hc : u32 (start + len) > h.heap_max
    · obtain ⟨hmax, hD, hP, hM, hC⟩ := hI
      obtain ⟨p1, p2, p3, p4⟩ := hP
      cases hp : h.vm.pool with
      | nil => rw [hp] at hpool; simp at hpool
      | cons page rest =>
        rw [hp] at p1 p3 p4 hpool
        have hrest : rest ≠ [] := by
          intro e; rw [e] at hpool
          simp only [List.length_cons, List.length_nil] at hpool; omega
        have hpage := (p4 page (Or.inl (by simp))).1
        have hvm1 : PoolOk ⟨h.vm.mem, rest⟩ L.pgd_kern (page :: frames) := by
          refine ⟨(List.nodup_cons.1 p1).2, List.nodup_cons.2 ⟨fun hx => p3 page hx (by simp), p2⟩,
            ?_, ?_⟩
          · intro F hF hF1
            rcases List.mem_cons.1 hF with e | e
            · subst e; exact (List.nodup_cons.1 p1).1 hF1
            · exact p3 F e (List.mem_cons_of_mem _ hF1)
          · intro F hF
            apply p4
            rcases hF with hF | hF
            · exact Or.inl (List.mem_cons_of_mem _ hF)
            · rcases List.mem_cons.1 hF with e | e
              · subst e; exact Or.inl (by simp)
              · exact Or.inr e
        obtain ⟨s1, hm, D1, P1, lo, ls, ll, lsub, lcons, ltab⟩ := map_wf ⟨h.vm.mem, rest⟩
          L.pgd_kern h.heap_max page (PAGE_PRESENT ||| PAGE_WRITE) (page :: frames) hD hvm1 hrest
        have hself := ls hpage.2.1 (by have := hpage.2.2.1; omega) (by decide)
          (Or.inl hpage.1) 1 (by decide)
        have hmax1 : u32 (h.heap_max + PAGE_SIZE) = h.heap_max + PAGE_SIZE := by
          simp only [hps] at *; unfold u32; omega
        have hI1 : HeapPaged L pool0
            { h with vm := s1, heap_max := u32 (h.heap_max + PAGE_SIZE) } (page :: frames) := by
          refine ⟨?_, D1, P1, ⟨?_, ?_⟩, ?_⟩
          · show u32 (h.heap_max + PAGE_SIZE) = _
            rw [hmax1, hmax]; simp only [hps, List.length_cons]; omega
          · show getMapping s1.mem _ _ _ = _
            rw [← hmax]; exact hself
          · apply pagesMapped_congr h.vm.mem s1.mem _ _ frames _ hM
            intro i hi
            apply lo
            apply page_index_ne
            · simp only [hps] at *; omega
            · simp only [hps] at *; omega
            · rw [hmax]; simp only [hps] at *; omega
          · intro F hF
            obtain ⟨c0, c⟩ := hC F hF
            refine ⟨c0, ?_⟩
            rcases c with c | c | ⟨r, hr, c⟩
            · rw [hp] at c
              rcases List.mem_cons.1 c with e | e
              · right; left; rw [e]; simp
              · rcases lcons F e with x | x
                · left; exact x
                · right; right; exact x
            · right; left; exact List.mem_cons_of_mem _ c
            · right; right
              exact ⟨r, hr, by rw [ltab r hr (by rw [c]; exact c0), c]⟩
        have hlen1 : rest.length ≤ s1.pool.length + 1 := ll
        obtain ⟨h1, new, e1, e2, e3, e4, e5, e6, e7⟩ := ih f
          { h with vm := s1, heap_max := u32 (h.heap_max + PAGE_SIZE) } (page :: frames) hI1
          (by omega)
          (by show _ ≤ u32 (h.heap_max + PAGE_SIZE) + _; rw [hmax1]; simp only [hps] at *; omega)
          (by show u32 (h.heap_max + PAGE_SIZE) + _ < _; rw [hmax1]; simp only [hps] at *; omega)
          (by show 2 * j ≤ s1.pool.length
              simp only [List.length_cons] at hpool; omega)
        refine ⟨h1, new ++ [page], ?_, e2, e3, by simpa using e4, by simp; omega, ?_, e7⟩
        · unfold allocChunk
          simp only [hc, if_true, pmm_alloc_page, hp, hm]
          exact e1
        · replace e6 : s1.pool.length ≤ h1.vm.pool.length + 2 * new.length := e6
          simp only [List.length_cons, List.length_append, List.length_nil]
          omega
    · exact stop f h frames (j + 1) hI hc

/-- One iteration of the loop of `freeChunk`. -/
theorem freeLoop_step (L : Layout) (f : Nat) (h : Heap) (c va F : Nat)
    (hva : sub32 h.heap_max PAGE_SIZE = va) (hgo : va ≥ c)
    (hF : getMapping h.vm.mem L.pgd_kern va 1 = (1, some F)) :
    freeLoop L (f + 1) h c = freeLoop L f ⟨h.heap_head, va, h.chunk,
      ⟨unmap h.vm.mem L.pgd_kern va, F :: h.vm.pool⟩⟩ c := by
  subst hva
  conv => lhs; unfold freeLoop
  rw [if_pos hgo]
  simp only [hF, pmmFreePage]

/-- The paging state of the heap after its highest page is unmapped and the frame freed. -/
theorem heapPaged_pop (L : Layout) (pool0 : List Nat) (h : Heap) (m1 : Mem) (F : Nat)
    (fs : List Nat) (hI : HeapPaged L pool0 h (F :: fs))
    (u1 : ∀ r, r < 1024 → tableOf m1 L.pgd_kern r = tableOf h.vm.mem L.pgd_kern r)
    (u3 : ∀ i, i < fs.length → getMapping m1 L.pgd_kern (L.HEAP_START + PAGE_SIZE * i) 1
      = getMapping h.vm.mem L.pgd_kern (L.HEAP_START + PAGE_SIZE * i) 1) :
    HeapPaged L pool0 ⟨h.heap_head, L.HEAP_START + PAGE_SIZE * fs.length, h.chunk,
      ⟨m1, F :: h.vm.pool⟩⟩ fs := by
  obtain ⟨hmax, hD, hP, hM, hC⟩ := hI
  obtain ⟨p1, p2, p3, p4⟩ := hP
  obtain ⟨hF, hM1⟩ := hM
  obtain ⟨D1, -⟩ := poolOk_congr h.vm ⟨m1, h.vm.pool⟩ L.pgd_kern (F :: fs) u1 hD
  refine ⟨rfl, D1, ⟨?_, (List.nodup_cons.1 p2).2, ?_, ?_⟩, ?_, ?_⟩
  · show (F :: h.vm.pool).Nodup
    exact List.nodup_cons.2 ⟨p3 F (by simp), p1⟩
  · intro G hG hG1
    rcases List.mem_cons.1 hG1 with e | e
    · subst e; exact (List.nodup_cons.1 p2).1 hG
    · exact p3 G (List.mem_cons_of_mem _ hG) e
  · intro G hG
    have hG1 : G ∈ h.vm.pool ∨ G ∈ F :: fs := by
      rcases hG with hG | hG
      · rcases List.mem_cons.1 hG with e | e
        · subst e; exact Or.inr (by simp)
        · exact Or.inl e
      · exact Or.inr (List.mem_cons_of_mem _ hG)
    refine ⟨(p4 G hG1).1, ?_⟩
    intro r hr
    show tableOf m1 _ _ ≠ _
    rw [u1 r hr]
    exact (p4 G hG1).2 r hr
  · exact pagesMapped_congr h.vm.mem m1 _ _ fs u3 hM1
  · intro G hG
    obtain ⟨c0, cc⟩ := hC G hG
    refine ⟨c0, ?_⟩
    rcases cc with cc | cc | ⟨r, hr, cc⟩
    · left; exact List.mem_cons_of_mem _ cc
    · rcases List.mem_cons.1 cc with e | e
      · left; rw [e]; exact List.mem_cons_self _ _
      · right; left; exact e
    · right; right
      exact ⟨r, hr, by show tableOf m1 _ _ = _; rw [u1 r hr, cc]⟩

/-- The loop of `freeChunk` keeps the paging state of the heap: every page it takes off the
top of the arena was mapped, is unmapped, and its frame goes back to the pool.  When the
chunk freed is the first of the arena, no page stays mapped. -/
theorem freeLoop_paged (L : Layout) (pool0 : List Nat) (c K : Nat)
    (hHS : PAGE_SIZE ≤ L.HEAP_START) (hc : L.HEAP_START ≤ c)
    (hK : L.HEAP_START + PAGE_SIZE * K < 4294967296) :
    ∀ (frames : List Nat) (fuel : Nat) (h : Heap), HeapPaged L pool0 h frames →
      frames.length < fuel → frames.length ≤ K →
      (∀ i, frames.length ≤ i → i < K →
        getMapping h.vm.mem L.pgd_kern (L.HEAP_START + PAGE_SIZE * i) 1 = (0, none)) →
      ∃ h1 frames1, freeLoop L fuel h c = some h1 ∧ h1.chunk = h.chunk ∧
        h1.heap_head = h.heap_head ∧ HeapPaged L pool0 h1 frames1 ∧
        frames1.length ≤ frames.length ∧
        (∀ i, frames1.length ≤ i → i < K →
          getMapping h1.vm.mem L.pgd_kern (L.HEAP_START + PAGE_SIZE * i) 1 = (0, none)) ∧
        (c = L.HEAP_START → frames1 = []) := by
  have hps : PAGE_SIZE = 4096 := rfl
  intro frames
  induction frames with
  | nil =>
    intro fuel h hI hf _ hU
    obtain ⟨f, rfl⟩ : ∃ f, fuel = f + 1 := ⟨fuel - 1, by simp at hf; omega⟩
    have hmax : h.heap_max = L.HEAP_START := by simpa using hI.1
    have hstop : ¬ sub32 h.heap_max PAGE_SIZE ≥ c := by
      rw [hmax]; simp only [hps] at *; unfold sub32 u32; omega
    refine ⟨h, [], ?_, rfl, rfl, hI, by simp, hU, fun _ => rfl⟩
    unfold freeLoop
    rw [if_neg hstop]
  | cons F fs ih =>
    intro fuel h hI hf hle hU
    obtain ⟨f, rfl⟩ : ∃ f, fuel = f + 1 := ⟨fuel - 1, by omega⟩
    have hmax := hI.1
    have hD := hI.2.1
    have hF := hI.2.2.2.1.1
    simp only [List.length_cons] at hmax hf hle hU
    have hva : sub32 h.heap_max PAGE_SIZE = L.HEAP_START + PAGE_SIZE * fs.length := by
      rw [hmax]; simp only [hps] at *; unfold sub32 u32; omega
    by_cases hgo : L.HEAP_START + PAGE_SIZE * fs.length ≥ c
    · have ht : tableOf h.vm.mem L.pgd_kern
          (PGD_INDEX (L.HEAP_START + PAGE_SIZE * fs.length)) ≠ 0 := by
        intro e
        rw [getMapping_eq, if_pos e] at hF
        simp at hF
      obtain ⟨u1, u2, u3⟩ := unmap_wf h.vm.mem L.pgd_kern _ hD ht
      have hne : ∀ i, i ≠ fs.length → i ≤ K →
          PGD_INDEX (L.HEAP_START + PAGE_SIZE * i)
            ≠ PGD_INDEX (L.HEAP_START + PAGE_SIZE * fs.length) ∨
          PTE_INDEX (L.HEAP_START + PAGE_SIZE * i)
            ≠ PTE_INDEX (L.HEAP_START + PAGE_SIZE * fs.length) := by
        intro i hi hiK
        apply page_index_ne
        · have : PAGE_SIZE * i ≤ PAGE_SIZE * K := Nat.mul_le_mul_left _ hiK
          omega
        · have : PAGE_SIZE * fs.length ≤ PAGE_SIZE * K := Nat.mul_le_mul_left _ (by omega)
          omega
        · simp only [hps]; omega
      rw [freeLoop_step L f h c _ F hva hgo hF]
      generalize unmap h.vm.mem L.pgd_kern (L.HEAP_START + PAGE_SIZE * fs.length) = m1
        at u1 u2 u3 ⊢
      have hI1 := heapPaged_pop L pool0 h m1 F fs hI u1
        (fun i hi => u3 _ _ (hne i (by omega) (by omega)))
      obtain ⟨h1, frames1, e1, e2, e3, e4, e5, e6, e7⟩ := ih f _ hI1 (by omega) (by omega)
        (by
          intro i hi hiK
          show getMapping m1 _ _ _ = _
          by_cases e : i = fs.length
          · rw [e]; exact u2 1
          · rw [u3 _ _ (hne i e (by omega))]
            exact hU i (by omega) hiK)
      exact ⟨h1, frames1, e1, e2, e3, e4, by simp; omega, e6, e7⟩
    · refine ⟨h, F :: fs, ?_, rfl, rfl, hI, by simp, by simpa using hU, ?_⟩
      · unfold freeLoop
        rw [hva, if_neg hgo]
      · intro e
        exfalso
        apply hgo
        rw [e]
        omega

/-! ## Allocating and freeing at the end of a chain -/

theorem heapPaged_congr (L : Layout) (pool0 : List Nat) (h h1 : Heap) (frames : List Nat)
    (e1 : h1.heap_max = h.heap_max) (e2 : h1.vm = h.vm) (hI : HeapPaged L pool0 h frames) :
    HeapPaged L pool0 h1 frames := by
  unfold HeapPaged at *
  rw [e1, e2]
  exact hI

theorem chain_congr (h h1 : Heap) (e : h1.chunk = h.chunk) (lens : List Nat) :
    ∀ prev a, Chain h prev a lens → Chain h1 prev a lens := by
  induction lens with
  | nil => intro _ _ _; trivial
  | cons l ls ih =>
    intro prev a hc
    exact ⟨by rw [e]; exact hc.1, ih a (a + l) hc.2⟩

theorem isChain_congr (L : Layout) (h h1 : Heap) (lens : List Nat)
    (e1 : h1.heap_head = h.heap_head) (e2 : h1.chunk = h.chunk) (hc : IsChain L h lens) :
    IsChain L h1 lens :=
  ⟨by rw [e1]; exact hc.1, chain_congr h h1 e2 lens 0 L.HEAP_START hc.2⟩

theorem lastAddr_append (lens : List Nat) (l : Nat) :
    ∀ a, lastAddr a (lens ++ [l]) = a + lens.sum := by
  induction lens with
  | nil => intro a; simp [lastAddr]
  | cons x xs ih =>
    intro a
    rw [List.cons_append]
    unfold lastAddr
    rw [if_neg (by simp), ih (a + x), List.sum_cons]
    omega

/-- The chunk before the last chunk of a chain is allocated and starts before it. -/
theorem chain_before_last (h : Heap) (l : Nat) (lens : List Nat) (hne : lens ≠ [])
    (hpos : ∀ x ∈ lens, 0 < x) :
    ∀ prev a, Chain h prev a (lens ++ [l]) →
      (h.chunk (lastAddr a lens)).allocated = 1 ∧ lastAddr a lens < a + lens.sum := by
  induction lens with
  | nil => exact absurd rfl hne
  | cons x xs ih =>
    intro prev a hc
    simp only [List.cons_append, Chain] at hc
    obtain ⟨c1, c2⟩ := hc
    by_cases hx : xs = []
    · subst hx
      have := hpos x (by simp)
      simp [lastAddr, c1]
      omega
    · obtain ⟨i1, i2⟩ := ih hx (fun y hy => hpos y (by simp [hy])) a (a + x) c2
      simp only [lastAddr, hx, if_false, List.sum_cons]
      exact ⟨i1, by omega⟩

/-- Freeing the last chunk of the list, whose predecessor (if any) is allocated: `kfree`
clears the flag, `glueChunk` merges nothing, and `freeChunk` unlinks the chunk and runs its
loop. -/
theorem kfree_last (L : Layout) (fuel : Nat) (h : Heap) (c q : Nat)
    (hc32 : c + L.HDR < 4294967296) (hn : (h.chunk c).next = 0) (hp : (h.chunk c).prev = q)
    (hq : q ≠ 0 → q ≠ c ∧ (h.chunk q).allocated ≠ 0) :
    ∃ h1, kfree L fuel h (c + L.HDR) = freeLoop L fuel h1 c ∧ h1.heap_max = h.heap_max ∧
      h1.vm = h.vm ∧ h1.heap_head = (if q = 0 then 0 else h.heap_head) ∧
      (∀ x, x ≠ c → x ≠ q → h1.chunk x = h.chunk x) ∧
      (q ≠ 0 → h1.chunk q = { h.chunk q with next := 0 }) := by
  unfold kfree
  rw [sub32_add _ _ hc32]
  unfold glueChunk freeChunk
  by_cases hq0 : q = 0
  · subst hq0
    refine ⟨⟨0, h.heap_max, (h.setAllocated c 0).chunk, h.vm⟩, ?_, ?_, ?_, ?_, ?_, ?_⟩
    · simp only [Heap.setAllocated, Heap.setLen, Heap.setPrev, Heap.setNext, hn, hp, if_true,
        ne_eq, not_true_eq_false, false_and, if_false]
    · rfl
    · rfl
    · simp
    · intro x hx _
      simp [Heap.setAllocated, hx]
    · intro hx; exact absurd rfl hx
  · obtain ⟨q1, q2⟩ := hq hq0
    refine ⟨(h.setAllocated c 0).setNext q 0, ?_, ?_, ?_, ?_, ?_, ?_⟩
    · simp only [Heap.setAllocated, Heap.setLen, Heap.setPrev, Heap.setNext, hn, hp, if_true,
        ne_eq, not_true_eq_false, false_and, if_false, q1, q2, and_false, hq0]
    · rfl
    · rfl
    · simp [hq0, Heap.setNext, Heap.setAllocated]
    · intro x hx hx1
      simp [Heap.setNext, Heap.setAllocated, hx, hx1]
    · intro _
      simp [Heap.setNext, Heap.setAllocated, q1]

/-- On a chain of allocated chunks `kmalloc(n)` appends a chunk and keeps the paging state
of the heap, within a budget of `J` pages. -/
theorem kmalloc_chain_paged (L : Layout) (pool0 : List Nat) (h : Heap) (lens frames : List Nat)
    (n fuel J : Nat) (hHS : L.HEAP_START ≠ 0) (hpos : ∀ l ∈ lens, 0 < l)
    (hc : IsChain L h lens) (hI : HeapPaged L pool0 h frames) (hfr : frames.length ≤ J)
    (hbud : 2 * (J - frames.length) ≤ h.vm.pool.length)
    (hroom : lens.sum + (n + L.HDR) ≤ PAGE_SIZE * J)
    (htop : L.HEAP_START + PAGE_SIZE * J < 4294967296) (hfuel : lens.length < fuel)
    (hJ : J < fuel) :
    ∃ h2 frames2, kmalloc L fuel h n = some (L.HEAP_START + lens.sum + L.HDR, h2) ∧
      IsChain L h2 (lens ++ [n + L.HDR]) ∧ HeapPaged L pool0 h2 frames2 ∧ frames2.length ≤ J ∧
      2 * (J - frames2.length) ≤ h2.vm.pool.length ∧
      L.HEAP_START + (lens.sum + (n + L.HDR)) ≤ h2.heap_max := by
  have hps : PAGE_SIZE = 4096 := rfl
  have hmax := hI.1
  have hu : u32 (L.HEAP_START + lens.sum + (n + L.HDR))
      = L.HEAP_START + lens.sum + (n + L.HDR) := by
    simp only [hps] at *; unfold u32; omega
  have key : ∀ h0 : Heap, h0.heap_max = h.heap_max → h0.vm = h.vm →
      ∃ h1 new, allocChunk L fuel h0 (L.HEAP_START + lens.sum) (n + L.HDR) = some h1 ∧
        HeapPaged L pool0 h1 (new ++ frames) ∧ new.length ≤ J - frames.length ∧
        h.vm.pool.length ≤ h1.vm.pool.length + 2 * new.length ∧
        L.HEAP_START + lens.sum + (n + L.HDR) ≤ h1.heap_max := by
    intro h0 e1 e2
    obtain ⟨h1, new, a1, _, _, a4, a5, a6, a7⟩ := allocChunk_paged L pool0
      (L.HEAP_START + lens.sum) (n + L.HDR) (J - frames.length) fuel h0 frames
      (heapPaged_congr L pool0 h h0 frames e1 e2 hI) (by omega)
      (by rw [hu, e1, hmax]; simp only [hps] at *; omega)
      (by rw [e1, hmax]; simp only [hps] at *; omega)
      (by rw [e2]; exact hbud)
    exact ⟨h1, new, a1, a4, a5, by rw [← e2]; exact a6, by rw [← hu]; exact a7⟩
  obtain ⟨h1, new, a1, a4, a5, a6, a7⟩ :=
    key (if lens = [] then { h with heap_head := L.HEAP_START } else h)
      (by split <;> rfl) (by split <;> rfl)
  obtain ⟨h2, r1, r2, r3, r4⟩ := kmalloc_on_chain L h h1 lens n fuel hHS hpos hc
    (by simp only [hps] at *; omega) hfuel a1
  refine ⟨h2, new ++ frames, r1, r2, heapPaged_congr L pool0 h1 h2 _ r3 r4 a4, ?_, ?_, ?_⟩
  · simp only [List.length_append]; omega
  · rw [r4]; simp only [List.length_append]; omega
  · rw [r3]; omega

theorem ptrsFrom_append (L : Layout) (ns : List Nat) (n : Nat) :
    ∀ a, ptrsFrom L a (ns ++ [n]) = ptrsFrom L a ns ++ [a + (chunkLens L ns).sum + L.HDR] := by
  induction ns with
  | nil => intro a; simp [ptrsFrom, chunkLens]
  | cons x xs ih =>
    intro a
    show (a + L.HDR) :: ptrsFrom L (a + (x + L.HDR)) (xs ++ [n]) = _
    rw [ih]
    simp [ptrsFrom, chunkLens, Nat.add_assoc]

/-- The calls `kmalloc(n)` for a list of sizes, on a chain of allocated chunks: each call
appends a chunk, and the paging state of the heap is kept. -/
theorem allocAll_chain (L : Layout) (pool0 : List Nat) (fuel J : Nat)
    (hHS : L.HEAP_START ≠ 0) (hHDR : 0 < L.HDR)
    (htop : L.HEAP_START + PAGE_SIZE * J < 4294967296) (hJ : J < fuel) :
    ∀ (sizes lens : List Nat) (h : Heap) (frames : List Nat), (∀ l ∈ lens, 0 < l) →
      IsChain L h lens → HeapPaged L pool0 h frames → frames.length ≤ J →
      2 * (J - frames.length) ≤ h.vm.pool.length →
      L.HEAP_START + lens.sum ≤ h.heap_max →
      lens.sum + (chunkLens L sizes).sum ≤ PAGE_SIZE * J →
      lens.length + sizes.length < fuel →
      ∃ h2 frames2, allocAll L fuel h sizes = some (ptrsFrom L (L.HEAP_START + lens.sum) sizes, h2) ∧
        IsChain L h2 (lens ++ chunkLens L sizes) ∧ HeapPaged L pool0 h2 frames2 ∧
        frames2.length ≤ J ∧ L.HEAP_START + (lens.sum + (chunkLens L sizes).sum) ≤ h2.heap_max := by
  intro sizes
  induction sizes with
  | nil =>
    intro lens h frames _ hc hI hfr _ hcov _ _
    exact ⟨h, frames, rfl, by simpa [chunkLens] using hc, hI, hfr, by simpa [chunkLens] using hcov⟩
  | cons n ns ih =>
    intro lens h frames hpos hc hI hfr hbud _ hroom hfuel
    simp only [chunkLens, List.map_cons, List.sum_cons, List.length_cons] at hroom hfuel
    obtain ⟨h1, frames1, k1, k2, k3, k4, k5, k6⟩ := kmalloc_chain_paged L pool0 h lens frames n
      fuel J hHS hpos hc hI hfr hbud (by omega) htop (by omega) hJ
    obtain ⟨h2, frames2, r1, r2, r3, r4, r5⟩ := ih (lens ++ [n + L.HDR]) h1 frames1
      (by
        intro l hl
        rcases List.mem_append.1 hl with e | e
        · exact hpos l e
        · simp at e; omega)
      k2 k3 k4 k5 (by simpa using k6)
      (by simp only [List.sum_append, List.sum_cons, List.sum_nil, chunkLens]; omega)
      (by simp only [List.length_append, List.length_cons, List.length_nil]; omega)
    refine ⟨h2, frames2, ?_, ?_, r3, r4, ?_⟩
    · simp only [allocAll, k1, ptrsFrom]
      simp only [List.sum_append, List.sum_cons, List.sum_nil, Nat.add_zero] at r1
      rw [show L.HEAP_START + lens.sum + (n + L.HDR) = L.HEAP_START + (lens.sum + (n + L.HDR)) by
        omega, r1]
    · simpa [chunkLens] using r2
    · simp only [List.sum_append, List.sum_cons, List.sum_nil, chunkLens] at r5
      simp only [chunkLens, List.map_cons, List.sum_cons]
      omega

/-- Freeing the last chunk of a chain of allocated chunks removes it from the chain and keeps
the paging state of the heap; when it was the only chunk, no page stays mapped. -/
theorem kfree_chain_paged (L : Layout) (pool0 : List Nat) (h : Heap) (lens frames : List Nat)
    (l fuel K : Nat) (hHS : PAGE_SIZE ≤ L.HEAP_START) (hpos : ∀ x ∈ lens, 0 < x)
    (hl : L.HDR ≤ l) (hb : L.HEAP_START + lens.sum + l < 4294967296)
    (hc : IsChain L h (lens ++ [l])) (hI : HeapPaged L pool0 h frames)
    (hK : L.HEAP_START + PAGE_SIZE * K < 4294967296) (hfr : frames.length ≤ K)
    (hfuel : frames.length < fuel)
    (hU : ∀ i, frames.length ≤ i → i < K →
      getMapping h.vm.mem L.pgd_kern (L.HEAP_START + PAGE_SIZE * i) 1 = (0, none)) :
    ∃ h2 frames2, kfree L fuel h (L.HEAP_START + lens.sum + L.HDR) = some h2 ∧
      IsChain L h2 lens ∧ HeapPaged L pool0 h2 frames2 ∧ frames2.length ≤ frames.length ∧
      (∀ i, frames2.length ≤ i → i < K →
        getMapping h2.vm.mem L.pgd_kern (L.HEAP_START + PAGE_SIZE * i) 1 = (0, none)) ∧
      (lens = [] → frames2 = []) := by
  have hps : PAGE_SIZE = 4096 := rfl
  have hHS0 : 0 < L.HEAP_START := by simp only [hps] at hHS; omega
  obtain ⟨hhead, hch⟩ := hc
  have hne : lens ++ [l] ≠ [] := by simp
  rw [if_neg hne] at hhead
  obtain ⟨c1, _, _, _, c5⟩ := chain_last h (lens ++ [l]) hne 0 L.HEAP_START hch
  rw [lastAddr_append] at c1 c5
  rw [List.dropLast_concat] at c5
  have hq : (if lens = [] then 0 else lastAddr L.HEAP_START lens) ≠ 0 →
      (if lens = [] then 0 else lastAddr L.HEAP_START lens) ≠ L.HEAP_START + lens.sum ∧
      (h.chunk (if lens = [] then 0 else lastAddr L.HEAP_START lens)).allocated ≠ 0 := by
    intro hq0
    by_cases e : lens = []
    · rw [if_pos e] at hq0; exact absurd rfl hq0
    · rw [if_neg e]
      obtain ⟨b1, b2⟩ := chain_before_last h l lens e hpos 0 L.HEAP_START hch
      exact ⟨by omega, by rw [b1]; decide⟩
  obtain ⟨h1, k1, k2, k3, k4, k5, k6⟩ := kfree_last L fuel h (L.HEAP_START + lens.sum) _
    (by omega) c1 c5 hq
  have hchain1 : IsChain L h1 lens := by
    by_cases e : lens = []
    · subst e
      refine ⟨?_, trivial⟩
      rw [k4]; simp
    · have hq0 : lastAddr L.HEAP_START lens ≠ 0 := by
        have := (lastAddr_le lens L.HEAP_START).1; omega
      obtain ⟨b1, b2⟩ := chain_before_last h l lens e hpos 0 L.HEAP_START hch
      rw [if_neg e] at k4 k5 k6
      refine ⟨?_, ?_⟩
      · rw [k4, if_neg hq0, if_neg e, hhead]
      · apply chain_shrink h h1 l lens e hpos 0 L.HEAP_START hch
        · intro x hx
          exact k5 x (by omega) (by omega)
        · exact k6 hq0
  obtain ⟨h2, frames2, e1, e2, e3, e4, e5, e6, e7⟩ := freeLoop_paged L pool0
    (L.HEAP_START + lens.sum) K hHS (by omega) hK frames fuel h1
    (heapPaged_congr L pool0 h h1 frames k2 k3 hI) hfuel hfr (by rw [k3]; exact hU)
  refine ⟨h2, frames2, by rw [k1, e1], isChain_congr L h1 h2 lens e3 e2 hchain1, e4, e5, e6, ?_⟩
  intro e
  apply e7
  rw [e]; simp

/-- The calls `kfree` for the pointers of a chain of allocated chunks, last chunk first:
they empty the chunk list and leave no page of the arena mapped. -/
theorem freeAll_chain (L : Layout) (pool0 : List Nat) (fuel K : Nat)
    (hHS : PAGE_SIZE ≤ L.HEAP_START) (hHDR : 0 < L.HDR)
    (hK : L.HEAP_START + PAGE_SIZE * K < 4294967296) (hfuel : K < fuel) :
    ∀ (sizes : List Nat) (h : Heap) (frames : List Nat),
      IsChain L h (chunkLens L sizes) → HeapPaged L pool0 h frames → frames.length ≤ K →
      L.HEAP_START + (chunkLens L sizes).sum < 4294967296 →
      (∀ i, frames.length ≤ i → i < K →
        getMapping h.vm.mem L.pgd_kern (L.HEAP_START + PAGE_SIZE * i) 1 = (0, none)) →
      (sizes = [] → frames = []) →
      ∃ h2, freeAll L fuel h (ptrsFrom L L.HEAP_START sizes).reverse = some h2 ∧
        h2.heap_head = 0 ∧ HeapPaged L pool0 h2 [] ∧
        (∀ i, i < K →
          getMapping h2.vm.mem L.pgd_kern (L.HEAP_START + PAGE_SIZE * i) 1 = (0, none)) := by
  intro sizes
  induction sizes using List.reverseRecOn with
  | nil =>
    intro h frames hc hI _ _ hU he
    have hf : frames = [] := he rfl
    subst hf
    refine ⟨h, rfl, ?_, hI, fun i hi => hU i (by simp) hi⟩
    simpa [chunkLens] using hc.1
  | append_singleton ns n ih =>
    intro h frames hc hI hfr hb hU _
    have hcl : chunkLens L (ns ++ [n]) = chunkLens L ns ++ [n + L.HDR] := by
      simp [chunkLens]
    rw [hcl] at hc hb
    simp only [List.sum_append, List.sum_cons, List.sum_nil, Nat.add_zero] at hb
    obtain ⟨h1, frames1, k1, k2, k3, k4, k5, k6⟩ := kfree_chain_paged L pool0 h (chunkLens L ns)
      frames (n + L.HDR) fuel K hHS
      (by intro x hx; simp only [chunkLens, List.mem_map] at hx; obtain ⟨y, _, rfl⟩ := hx; omega)
      (by omega) (by omega) hc hI hK hfr (by omega) hU
    obtain ⟨h2, r1, r2, r3, r4⟩ := ih h1 frames1 k2 k3 (by omega) (by omega) k5
      (by intro e; apply k6; simp [chunkLens, e])
    refine ⟨h2, ?_, r2, r3, r4⟩
    rw [ptrsFrom_append, List.reverse_append]
    simp only [List.reverse_cons, List.reverse_nil, List.nil_append, List.singleton_append,
      freeAll, k1]
    exact r1

/-- Claim C9, amended: for every non-empty list of request sizes whose chunks fit in `J`
pages that lie below the top of the address space, with a well-formed kernel directory and
a page allocator holding `2 * J` fresh frames: starting from the empty heap, allocating the
sizes in order with `kmalloc` raises `heap_max` over the chunks, and then freeing every
returned pointer with `kfree` in reverse order leaves the chunk list empty
(`heap_head = 0`) and `heap_max` equal to the arena base; no page below the high-water mark
reached stays mapped, and every frame of the page allocator is free again or installed as
a page table. -/
theorem alloc_then_free_all (L : Layout) (chunk0 : Nat → header_t) (vm : VmState)
    (sizes : List Nat) (J : Nat) (hne : sizes ≠ []) (hHS : PAGE_SIZE ≤ L.HEAP_START)
    (hHDR : 0 < L.HDR) (hroom : (chunkLens L sizes).sum ≤ PAGE_SIZE * J)
    (htop : L.HEAP_START + PAGE_SIZE * J < 4294967296) (hpool : 2 * J ≤ vm.pool.length)
    (hD : DirOk vm.mem L.pgd_kern) (hP : PoolOk vm L.pgd_kern []) :
    ∃ fuel ptrs h1 h2, allocAll L fuel (initHeap L chunk0 vm) sizes = some (ptrs, h1) ∧
      L.HEAP_START + (chunkLens L sizes).sum ≤ h1.heap_max ∧
      freeAll L fuel h1 ptrs.reverse = some h2 ∧ h2.heap_head = 0 ∧
      h2.heap_max = L.HEAP_START ∧
      (∀ i, L.HEAP_START + PAGE_SIZE * i < h1.heap_max →
        getMapping h2.vm.mem L.pgd_kern (L.HEAP_START + PAGE_SIZE * i) 1 = (0, none)) ∧
      (∀ F, F ∈ vm.pool → F ∈ h2.vm.pool ∨ ∃ r, r < 1024 ∧ tableOf h2.vm.mem L.pgd_kern r = F) := by
  have hps : PAGE_SIZE = 4096 := rfl
  have hHS0 : L.HEAP_START ≠ 0 := by simp only [hps] at hHS; omega
  have hI0 : HeapPaged L vm.pool (initHeap L chunk0 vm) [] := by
    refine ⟨by simp [initHeap], hD, hP, trivial, ?_⟩
    intro F hF
    exact ⟨(hP.2.2.2 F (Or.inl hF)).1.1, Or.inl hF⟩
  obtain ⟨h1, frames1, a1, a2, a3, a4, a5⟩ := allocAll_chain L vm.pool (sizes.length + J + 1) J
    hHS0 hHDR htop (by omega) sizes [] (initHeap L chunk0 vm) [] (by simp)
    ⟨by simp [initHeap], trivial⟩ hI0 (by simp) (by simpa [initHeap] using hpool)
    (by simp [initHeap]) (by simpa using hroom) (by simp; omega)
  simp only [List.nil_append, List.sum_nil, Nat.add_zero, Nat.zero_add] at a1 a2 a5
  have hmax1 := a3.1
  have hK : L.HEAP_START + PAGE_SIZE * frames1.length < 4294967296 := by
    have : PAGE_SIZE * frames1.length ≤ PAGE_SIZE * J := Nat.mul_le_mul_left _ a4
    omega
  obtain ⟨h2, f1, f2, f3, f4⟩ := freeAll_chain L vm.pool (sizes.length + J + 1) frames1.length
    hHS hHDR hK (by omega) sizes h1 frames1 a2 a3 (Nat.le_refl _)
    (by simp only [hps] at *; omega) (by intro i h1 h2; omega) (fun e => absurd e hne)
  refine ⟨sizes.length + J + 1, _, h1, h2, a1, a5, f1, f2, by simpa using f3.1, ?_, ?_⟩
  · intro i hi
    apply f4
    rw [hmax1] at hi
    simp only [hps] at hi
    omega
  · intro F hF
    obtain ⟨_, c⟩ := f3.2.2.2.2 F hF
    rcases c with c | c | c
    · exact Or.inl c
    · simp at c
    · exact Or.inr c

/-- A machine with no page table installed has a well-formed directory. -/
theorem blankVm_dirOk (pool : List Nat) (pgd : Nat) (h1 : pgd % PAGE_SIZE = 0)
    (h2 : pgd < 4294967296) : DirOk (blankVm pool).mem pgd := by
  refine ⟨h1, h2, ?_, ?_⟩
  · intro r _ hne
    exact absurd (by simp [tableOf, blankVm]) hne
  · intro r r1 _ _ hne
    exact absurd (by simp [tableOf, blankVm]) hne

/-- A machine with no page table installed and a pool of distinct usable frames has a
well-formed page allocator. -/
theorem blankVm_poolOk (pool : List Nat) (pgd : Nat) (h1 : pool.Nodup)
    (h2 : ∀ F ∈ pool, FrameOk pgd F) : PoolOk (blankVm pool) pgd [] := by
  refine ⟨h1, List.nodup_nil, by simp, ?_⟩
  intro F hF
  have hm : F ∈ pool := by simpa [blankVm] using hF
  refine ⟨h2 F hm, ?_⟩
  intro r _ e
  have : tableOf (blankVm pool).mem pgd r = 0 := by simp [tableOf, blankVm]
  exact (h2 F hm).1 (by rw [← e, this])

/-- Claim C9 at a concrete input, the scenario of `test_heap`: requests of 50, 500 and 5000
bytes. -/
theorem alloc_then_free_all_witness :
    ∃ fuel ptrs h1 h2,
      allocAll stdLayout fuel (initHeap stdLayout (fun _ => ⟨0, 0, 0, 0⟩)
        (blankVm [0x400000, 0x401000, 0x402000, 0x403000])) [50, 500, 5000] = some (ptrs, h1) ∧
      stdLayout.HEAP_START + (chunkLens stdLayout [50, 500, 5000]).sum ≤ h1.heap_max ∧
      freeAll stdLayout fuel h1 ptrs.reverse = some h2 ∧ h2.heap_head = 0 ∧
      h2.heap_max = stdLayout.HEAP_START ∧
      (∀ i, stdLayout.HEAP_START + PAGE_SIZE * i < h1.heap_max →
        getMapping h2.vm.mem stdLayout.pgd_kern (stdLayout.HEAP_START + PAGE_SIZE * i) 1
          = (0, none)) ∧
      (∀ F, F ∈ (blankVm [0x400000, 0x401000, 0x402000, 0x403000]).pool →
        F ∈ h2.vm.pool ∨ ∃ r, r < 1024 ∧ tableOf h2.vm.mem stdLayout.pgd_kern r = F) :=
  alloc_then_free_all stdLayout (fun _ => ⟨0, 0, 0, 0⟩)
    (blankVm [0x400000, 0x401000, 0x402000, 0x403000]) [50, 500, 5000] 2 (by decide)
    (by decide) (by decide) (by decide) (by decide) (by decide)
    (blankVm_dirOk _ _ (by decide) (by decide))
    (blankVm_poolOk _ _ (by decide) (by decide))

/-- Claim C9 as stated fails: for the list holding the single request size `0x1FFFFFF0`,
whose chunk ends in the last page of the address space, the call `kmalloc` never returns,
whatever the page allocator holds. -/
theorem allocAll_last_page_never_returns :
    ¬ ∃ fuel pool r, allocAll stdLayout fuel (emptyClient pool).heap [0x1FFFFFF0] = some r := by
  rintro ⟨fuel, pool, r, e⟩
  simp only [allocAll, kmalloc_top_page] at e
  cases e

/-! ## Cloning a page directory -/

/-- Words of page-aligned pages are distinct unless page and index agree. -/
theorem elem_ne (b b1 i i1 : Nat) (hb : b % 4096 = 0) (hb32 : b < 4294967296)
    (hb1 : b1 % 4096 = 0) (hb132 : b1 < 4294967296) (hi : i < 1024) (hi1 : i1 < 1024)
    (h : b ≠ b1 ∨ i ≠ i1) : elem b i ≠ elem b1 i1 := by
  unfold elem u32
  omega

/-- Distinct frames have distinct linear aliases. -/
theorem lin_ne (T T1 : Nat) (hT : T < 4294967296) (hT1 : T1 < 4294967296) (h : T ≠ T1) :
    u32 (T + PAGE_OFFSET) ≠ u32 (T1 + PAGE_OFFSET) := by
  unfold u32 PAGE_OFFSET
  omega

/-- The inner loop of `clone_pgd` copies the entries `j, ..., j + k - 1` of the source table
and changes no other word, when the two tables are distinct pages. -/
theorem copy_entries_spec (dv sv : Nat) (hd : dv % 4096 = 0) (hd32 : dv < 4294967296)
    (hs : sv % 4096 = 0) (hs32 : sv < 4294967296) (hne : dv ≠ sv) :
    ∀ (k j : Nat) (m : Mem), j + k ≤ 1024 →
      (∀ a, (∀ t, j ≤ t → t < j + k → a ≠ elem dv t) → copy_entries k j m dv sv a = m a) ∧
      (∀ t, j ≤ t → t < j + k → copy_entries k j m dv sv (elem dv t) = m (elem sv t)) := by
  intro k
  induction k with
  | zero =>
    intro j m _
    exact ⟨fun a _ => rfl, fun t h1 h2 => by omega⟩
  | succ k ih =>
    intro j m hj
    obtain ⟨i1, i2⟩ := ih (j + 1) (m.store (elem dv j) (m (elem sv j))) (by omega)
    constructor
    · intro a ha
      show copy_entries k (j + 1) _ dv sv a = _
      rw [i1 a (fun t h1 h2 => ha t (by omega) (by omega)),
        store_other _ _ _ _ (ha j (by omega) (by omega))]
    · intro t h1 h2
      show copy_entries k (j + 1) _ dv sv (elem dv t) = _
      by_cases e : t = j
      · subst e
        rw [i1 _ (fun t1 h3 h4 => elem_ne dv dv t t1 hd hd32 hd hd32 (by omega) (by omega)
          (Or.inr (by omega))), store_same]
      · rw [i2 t (by omega) (by omega),
          store_other _ _ _ _ (elem_ne sv dv t j hs hs32 hd hd32 (by omega) (by omega)
            (Or.inl (Ne.symm hne)))]

theorem tableOf_aligned (m : Mem) (pgd r : Nat) : tableOf m pgd r % 4096 = 0 :=
  and_PAGE_MASK_aligned _

theorem tableOf_lt (m : Mem) (pgd r : Nat) : tableOf m pgd r < 4294967296 :=
  and_PAGE_MASK_lt _

/-- The inner loop of `clone_pgd`, run over a whole table: the memory it leaves holds the
entries of the source table in the destination table and is unchanged elsewhere. -/
theorem copy_table (m : Mem) (dv sv : Nat) (hd : dv % 4096 = 0) (hd32 : dv < 4294967296)
    (hs : sv % 4096 = 0) (hs32 : sv < 4294967296) (hne : dv ≠ sv) :
    ∃ m2, copy_entries PTE_SIZE 0 m dv sv = m2 ∧
      (∀ a, (∀ t, t < 1024 → a ≠ elem dv t) → m2 a = m a) ∧
      (∀ t, t < 1024 → m2 (elem dv t) = m (elem sv t)) := by
  obtain ⟨c1, c2⟩ := copy_entries_spec dv sv hd hd32 hs hs32 hne PTE_SIZE 0 m (by decide)
  refine ⟨_, rfl, ?_, ?_⟩
  · intro a ha
    exact c1 a (fun t _ ht => ha t (by simpa [PTE_SIZE] using ht))
  · intro t ht
    exact c2 t (by omega) (by simpa [PTE_SIZE] using ht)

/-- One row of `clone_pgd` whose source row holds a table keeps the invariant of the
loop; `m2` is the memory left by the copy of the table. -/
theorem clone_step_inv (s0 s : VmState) (dst src i F : Nat) (rest : List Nat) (m2 : Mem)
    (hr : CloneReady s0 dst src) (hi : i < 1024) (hI : CloneInv s0 dst src i s)
    (hT : tableOf s0.mem src i ≠ 0) (hp : s.pool = F :: rest)
    (c1 : ∀ a, (∀ t, t < 1024 → a ≠ elem (u32 (F + PAGE_OFFSET)) t) →
      m2 a = s.mem.store (elem dst i) (u32 (F ||| PAGE_PRESENT ||| PAGE_WRITE)) a)
    (c2 : ∀ t, t < 1024 → m2 (elem (u32 (F + PAGE_OFFSET)) t)
      = s.mem.store (elem dst i) (u32 (F ||| PAGE_PRESENT ||| PAGE_WRITE))
          (elem (u32 (tableOf s0.mem src i + PAGE_OFFSET)) t)) :
    CloneInv s0 dst src (i + 1) ⟨m2, rest⟩ := by
  obtain ⟨hd1, hd2, hs1, hs2, hds, _, htd, hnd, _, hfr⟩ := hr
  obtain ⟨a1, a2, b0, b1, cc, used, hu⟩ := hI
  have hps : PAGE_SIZE = 4096 := rfl
  rw [hps] at hd1 hs1
  have hFmem : F ∈ s0.pool := by rw [hu, hp]; simp
  obtain ⟨hFok, hFsrc, hFtab⟩ := hfr F hFmem
  have hFal : F % 4096 = 0 := hFok.2.1
  have hF32 : F < 4294967296 := by have := hFok.2.2.1; omega
  have hTal := tableOf_aligned s0.mem src i
  have hlF := u32_aligned F hFal
  have hlF32 := u32_lt (F + PAGE_OFFSET)
  have hnd2 : s.pool.Nodup := by
    rw [hu] at hnd
    exact (List.nodup_append.1 hnd).2.1
  have keep : ∀ b r, b % 4096 = 0 → b < 4294967296 → r < 1024 → b ≠ u32 (F + PAGE_OFFSET) →
      b ≠ dst ∨ r ≠ i → m2 (elem b r) = s.mem (elem b r) := by
    intro b r hb hb32 hr hbF hbd
    rw [c1 _ (fun t ht => elem_ne b _ r t hb hb32 hlF hlF32 hr ht (Or.inl hbF)),
      store_other _ _ _ _ (elem_ne b dst r i hb hb32 hd1 hd2 hr hi hbd)]
  refine ⟨?_, ?_, ?_, ?_, ?_, ?_⟩
  · intro r hr
    show m2 _ = _
    rw [keep src r hs1 hs2 hr (Ne.symm hFsrc) (Or.inl (Ne.symm hds))]
    exact a1 r hr
  · intro r j hr hj hne
    show m2 _ = _
    rw [keep _ j (u32_aligned _ (tableOf_aligned s0.mem src r)) (u32_lt _) hj
      (Ne.symm (lin_ne F _ hF32 (tableOf_lt s0.mem src r) (Ne.symm (hFtab r hr))))
      (Or.inl (htd r hr hne))]
    exact a2 r j hr hj hne
  · intro r hr h0
    have hri : r ≠ i := by intro e; subst e; exact hT h0
    show m2 _ = _
    rw [keep dst r hd1 hd2 (by omega) (Ne.symm hFok.2.2.2) (Or.inr hri)]
    exact b0 r (by omega) h0
  · intro r hr hne
    by_cases hri : r = i
    · subst hri
      refine ⟨F, hFmem, ?_, ?_, ?_⟩
      · rw [hp] at hnd2
        exact (List.nodup_cons.1 hnd2).1
      · show m2 _ &&& PAGE_MASK = F
        rw [c1 _ (fun t ht => elem_ne dst _ r t hd1 hd2 hlF hlF32 hi ht
          (Or.inl (Ne.symm hFok.2.2.2))), store_same, row_frame F hFal hF32]
      · intro j hj
        show m2 _ = _
        rw [c2 j hj,
          store_other _ _ _ _ (elem_ne _ dst j r (u32_aligned _ hTal) (u32_lt _) hd1 hd2 hj hi
            (Or.inl (htd r hi hT)))]
        exact a2 r j hi hj hT
    · obtain ⟨G, g1, g2, g3, g4⟩ := b1 r (by omega) hne
      obtain ⟨hGok, _, _⟩ := hfr G g1
      have hGF : G ≠ F := by
        intro e; apply g2; rw [hp, e]; simp
      refine ⟨G, g1, ?_, ?_, ?_⟩
      · intro hx; apply g2; rw [hp]; exact List.mem_cons_of_mem _ hx
      · show m2 _ &&& PAGE_MASK = G
        rw [keep dst r hd1 hd2 (by omega) (Ne.symm hFok.2.2.2) (Or.inr hri)]
        exact g3
      · intro j hj
        show m2 _ = _
        rw [keep _ j (u32_aligned G hGok.2.1) (u32_lt _) hj
          (lin_ne G F (by have := hGok.2.2.1; omega) hF32 hGF) (Or.inl hGok.2.2.2)]
        exact g4 j hj
  · intro r hr1 hr2
    show m2 _ = _
    rw [keep dst r hd1 hd2 hr2 (Ne.symm hFok.2.2.2) (Or.inr (by omega))]
    exact cc r (by omega) hr2
  · exact ⟨used ++ [F], by rw [hu, hp]; simp⟩

/-- A row of `clone_pgd` whose source row holds no table. -/
theorem clone_rows_absent (dst src k i : Nat) (s : VmState)
    (hT : s.mem (elem src i) &&& PAGE_MASK = 0) :
    clone_rows dst src (k + 1) i s = clone_rows dst src k (i + 1) s := by
  conv => lhs; unfold clone_rows
  simp only [hT, if_true]

/-- A row of `clone_pgd` whose source row holds a table. -/
theorem clone_rows_present (dst src k i F : Nat) (rest : List Nat) (s : VmState)
    (hT : s.mem (elem src i) &&& PAGE_MASK ≠ 0) (hp : s.pool = F :: rest) :
    clone_rows dst src (k + 1) i s = clone_rows dst src k (i + 1)
      ⟨copy_entries PTE_SIZE 0
        (s.mem.store (elem dst i) (u32 (F ||| PAGE_PRESENT ||| PAGE_WRITE)))
        (u32 (F + PAGE_OFFSET)) (u32 ((s.mem (elem src i) &&& PAGE_MASK) + PAGE_OFFSET)),
        rest⟩ := by
  conv => lhs; unfold clone_rows
  simp only [hT, if_false, pmm_alloc_page, hp]

/-- The loop of `clone_pgd` returns and establishes its invariant for all rows. -/
theorem clone_rows_inv (s0 : VmState) (dst src : Nat) (hr : CloneReady s0 dst src) :
    ∀ (k i : Nat) (s : VmState), i + k = 1024 → CloneInv s0 dst src i s →
      presentRows s0.mem src k i ≤ s.pool.length →
      ∃ s1, clone_rows dst src k i s = some s1 ∧ CloneInv s0 dst src 1024 s1 := by
  intro k
  induction k with
  | zero =>
    intro i s hik hI _
    have : i = 1024 := by omega
    subst this
    exact ⟨s, rfl, hI⟩
  | succ k ih =>
    intro i s hik hI hpr
    have hi : i < 1024 := by omega
    have erow : s.mem (elem src i) &&& PAGE_MASK = tableOf s0.mem src i := by
      unfold tableOf; rw [hI.1 i hi]
    unfold presentRows at hpr
    by_cases hT : tableOf s0.mem src i = 0
    · rw [clone_rows_absent dst src k i s (by rw [erow]; exact hT)]
      rw [if_neg (by simpa using hT)] at hpr
      apply ih (i + 1) s (by omega) _ (by omega)
      obtain ⟨a1, a2, b0, b1, cc, hu⟩ := hI
      refine ⟨a1, a2, ?_, ?_, ?_, hu⟩
      · intro r hr1 h0
        by_cases e : r = i
        · subst e; exact cc r (Nat.le_refl _) hi
        · exact b0 r (by omega) h0
      · intro r hr1 hne
        have : r ≠ i := by intro e; subst e; exact hne hT
        exact b1 r (by omega) hne
      · intro r hr1 hr2
        exact cc r (by omega) hr2
    · rw [if_pos hT] at hpr
      cases hp : s.pool with
      | nil => rw [hp] at hpr; simp at hpr
      | cons F rest =>
        rw [clone_rows_present dst src k i F rest s (by rw [erow]; exact hT) hp, erow]
        have hFmem : F ∈ s0.pool := by
          obtain ⟨used, hu⟩ := hI.2.2.2.2.2
          rw [hu, hp]; simp
        obtain ⟨hFok, _, hFtab⟩ := hr.2.2.2.2.2.2.2.2.2 F hFmem
        have hF32 : F < 4294967296 := by have := hFok.2.2.1; omega
        obtain ⟨m2, e2, c1, c2⟩ := copy_table
          (s.mem.store (elem dst i) (u32 (F ||| PAGE_PRESENT ||| PAGE_WRITE)))
          (u32 (F + PAGE_OFFSET)) (u32 (tableOf s0.mem src i + PAGE_OFFSET))
          (u32_aligned F hFok.2.1) (u32_lt _) (u32_aligned _ (tableOf_aligned s0.mem src i))
          (u32_lt _) (lin_ne F _ hF32 (tableOf_lt s0.mem src i) (Ne.symm (hFtab i hi)))
        rw [e2]
        apply ih (i + 1) ⟨m2, rest⟩ (by omega)
          (clone_step_inv s0 s dst src i F rest m2 hr hi hI hT hp c1 c2)
        rw [hp] at hpr
        simp only [List.length_cons] at hpr
        show _ ≤ rest.length
        omega

/-- Claim C10: for every source directory and every virtual address `V`, after
`clone_pgd(dst, src)` into an empty directory `dst`, with the page allocator returning
fresh, non-zero, page-aligned frames, `getMapping(dst, V)` gives the same answer as
`getMapping(src, V)` gave before the call and gives after it: found with the same physical
frame when `V` is mapped in `src`, not-found otherwise. -/
theorem clone_pgd_getMapping (s : VmState) (dst src : Nat) (hr : CloneReady s dst src) :
    ∃ s1, clone_pgd s dst src = some s1 ∧
      ∀ V p, getMapping s1.mem dst V p = getMapping s.mem src V p ∧
        getMapping s1.mem src V p = getMapping s.mem src V p := by
  have hI0 : CloneInv s dst src 0 s :=
    ⟨fun _ _ => rfl, fun _ _ _ _ _ => rfl, fun r h => by omega, fun r h => by omega,
      fun r _ h => hr.2.2.2.2.2.1 r h, [], rfl⟩
  obtain ⟨s1, e, a1, a2, b0, b1, _, _⟩ := clone_rows_inv s dst src hr PGD_SIZE 0 s (by decide)
    hI0 hr.2.2.2.2.2.2.2.2.1
  refine ⟨s1, e, ?_⟩
  intro V p
  have hv := PGD_INDEX_lt V
  have hj := PTE_INDEX_lt V
  have hsrc : getMapping s1.mem src V p = getMapping s.mem src V p := by
    apply getMapping_congr
    · unfold tableOf; rw [a1 _ hv]
    · intro hne
      exact a2 _ _ hv hj hne
  refine ⟨?_, hsrc⟩
  rw [getMapping_eq s1.mem dst, getMapping_eq s.mem src]
  by_cases hT : tableOf s.mem src (PGD_INDEX V) = 0
  · have : tableOf s1.mem dst (PGD_INDEX V) = 0 := by
      unfold tableOf
      rw [b0 _ hv hT]
      exact Nat.zero_and _
    rw [if_pos this, if_pos hT]
  · obtain ⟨F, f1, _, f3, f4⟩ := b1 _ hv hT
    have hF0 : F ≠ 0 := (hr.2.2.2.2.2.2.2.2.2 F f1).1.1
    rw [f3, if_neg hF0, if_neg hT, f4 _ hj]

set_option maxRecDepth 100000 in
/-- Claim C10 at a concrete input: the source directory of `cloneDemo`, which maps the page
`0xE0000000` to the frame `0x9000`, cloned into the empty directory at `0xC0107000`. -/
theorem clone_pgd_getMapping_witness :
    (∃ s1, clone_pgd cloneDemo 0xC0107000 0xC0106000 = some s1 ∧
      ∀ V p, getMapping s1.mem 0xC0107000 V p = getMapping cloneDemo.mem 0xC0106000 V p ∧
        getMapping s1.mem 0xC0106000 V p = getMapping cloneDemo.mem 0xC0106000 V p) ∧
    getMapping cloneDemo.mem 0xC0106000 0xE0000000 1 = (1, some 0x9000) :=
  ⟨clone_pgd_getMapping cloneDemo 0xC0107000 0xC0106000 (by decide), by decide⟩

/-! ## The page-fault handler and the interrupt flag -/

/-- Claim C12 evaluated: for the cause bitmask 0, whose protection-violation, write and mode
bits are all clear, `page_fault` reports a non-present page, a read and "User Mode"; it
reports "Kernel Model" when the mode bit `0x4` is set. -/
theorem page_fault_clear_bits_report_user (eip cr2 : Nat) :
    page_fault eip cr2 0 =
      [("Page fault at 0x%x, virtual faulting address 0x%x\n", [eip, cr2]),
       ("Error Code: %x\n", [0]), ("Non-present Page\n", []), ("Read Error\n", []),
       ("User Mode\n", [])] ∧
    page_fault eip cr2 4 =
      [("Page fault at 0x%x, virtual faulting address 0x%x\n", [eip, cr2]),
       ("Error Code: %x\n", [4]), ("Non-present Page\n", []), ("Read Error\n", []),
       ("Kernel Model\n", [])] := by
  constructor <;> rfl

/-- Claim C20 evaluated: with the interrupt-enable flag clear (EFLAGS = `0x2`),
`save_interrupt` returns `TRUE`, and the following `recover_interrupt` sets the flag:
interrupts that were disabled before the pair of calls are enabled after it. -/
theorem save_interrupt_enables_disabled :
    0x2 &&& x86CommonH.FL_IF = 0 ∧
    save_interrupt x86CommonH 0x2 = (x86CommonH.TRUE, 0x2) ∧
    recover_interrupt (save_interrupt x86CommonH 0x2).2 (save_interrupt x86CommonH 0x2).1
      = 0x202 ∧
    0x202 &&& x86CommonH.FL_IF ≠ 0 := by
  decide

/-! ## Splitting and merging on concrete call sequences -/

/-- Claim C13 evaluated: after `A = kmalloc(100)`, `B = kmalloc(10)`, `kfree(A)` the free
chunk at `0xE0000000` has length 112 and successor `0xE0000070`.  The call
`splitChunk(0xE0000000, 22)`, the one `kmalloc(10)` makes, cuts the head to 22 bytes but
writes no header at `0xE0000016 = start + 22`: the new free chunk of length 90 is written at
`0xE0000070 = start + 112`, over the header of the successor, and is its own successor. -/
theorem splitChunk_header_at_old_end :
    ((emptyClient [0x400000, 0x401000]).run stdLayout 8
        [Call.malloc 100, Call.malloc 10, Call.free 0xE000000C]).map
      (fun c =>
        [(c.heap.chunk 0xE0000000).fields, (c.heap.chunk 0xE0000016).fields,
          (c.heap.chunk 0xE0000070).fields,
          ((splitChunk stdLayout c.heap 0xE0000000 22).chunk 0xE0000000).fields,
          ((splitChunk stdLayout c.heap 0xE0000000 22).chunk 0xE0000016).fields,
          ((splitChunk stdLayout c.heap 0xE0000000 22).chunk 0xE0000070).fields])
      = some [(0, 0xE0000070, 0, 112), (0, 0, 0, 0), (0xE0000000, 0, 1, 22),
          (0, 0xE0000070, 0, 22), (0, 0, 0, 0), (0xE0000000, 0xE0000070, 0, 90)] ∧
    sub32 112 22 > stdLayout.HDR ∧ 0xE0000000 + 22 = 0xE0000016 := by
  decide

/-- Claim C14 evaluated: after `A = kmalloc(10)`, `B = kmalloc(10)`, `C = kmalloc(10)`,
`kfree(A)`, the chunk of `B` at `0xE0000016` is live and its predecessor at `0xE0000000` is
free.  After `kfree(B)` the predecessor has length 44 and the chunk of `C` points back to
it, but its successor is still `0xE0000016`, not the chunk of `C` at `0xE000002C`, and the
walk from `heap_head` still reaches `0xE0000016`. -/
theorem glue_keeps_merged_chunk_linked :
    ((emptyClient [0x400000, 0x401000]).run stdLayout 8
        [Call.malloc 10, Call.malloc 10, Call.malloc 10, Call.free 0xE000000C]).map
      (fun c => (c.live, [(c.heap.chunk 0xE0000000).fields, (c.heap.chunk 0xE0000016).fields,
        (c.heap.chunk 0xE000002C).fields]))
      = some ([(0xE0000038, 10), (0xE0000022, 10)],
          [(0, 0xE0000016, 0, 22), (0xE0000000, 0xE000002C, 1, 22), (0xE0000016, 0, 1, 22)]) ∧
    ((emptyClient [0x400000, 0x401000]).run stdLayout 8
        [Call.malloc 10, Call.malloc 10, Call.malloc 10, Call.free 0xE000000C,
          Call.free 0xE0000022]).map
      (fun c => ([(c.heap.chunk 0xE0000000).fields, (c.heap.chunk 0xE000002C).fields],
        (showHeapDbg 4 c.heap c.heap.heap_head).map Prod.fst))
      = some ([(0, 0xE0000016, 0, 44), (0xE0000000, 0, 1, 22)],
          [0xE0000000, 0xE0000016, 0xE000002C]) := by
  decide

/-- Claim C16 evaluated: from the empty heap, `A = kmalloc(10)`, `B = kmalloc(4040)`,
`kfree(A)`, `kfree(B)`, `kmalloc(4060)`, `kmalloc(10)`.  The list is then the chunk at
`0xE0000000`, the chunk at `0xE0000016` and, last, a free chunk of length 4030 at
`0xE0000FEA`, which ends above `heap_max = 0xE0001000`. -/
theorem last_chunk_ends_above_heap_max :
    ((emptyClient [0x400000, 0x401000]).run stdLayout 8
        [Call.malloc 10, Call.malloc 4040, Call.free 0xE000000C, Call.free 0xE0000022,
          Call.malloc 4060, Call.malloc 10]).map
      (fun c => (c.live, c.heap.heap_max, showHeapDbg 4 c.heap c.heap.heap_head))
      = some ([(0xE0000022, 10), (0xE000000C, 4060)], 0xE0001000,
          [(0xE0000000, 1, 4074), (0xE0000016, 1, 22), (0xE0000FEA, 0, 4030)]) ∧
    0xE0000FEA + 4030 > 0xE0001000 := by
  decide

/-! ## A frame at address zero, and the pages `map` leaves alone -/

/-- Claim C18, amended: for every directory, virtual address `V` and flags `f` below 4096,
after `map(d, V, 0, f)` the call `getMapping(d, V)` returns 1 and stores the address 0 when
`f` is not zero; it returns 0 and stores nothing, the answer it gives for a `V` whose
directory row holds no table, when `f = 0`. -/
theorem map_frame_zero_getMapping (s : VmState) (pgd V f ptr : Nat) (hr : MapReady s pgd V)
    (hf : f < 4096) (hptr : ptr ≠ 0) :
    (∃ s1, map s pgd V 0 f = some s1 ∧
      getMapping s1.mem pgd V ptr = if f = 0 then (0, none) else (1, some 0)) ∧
    ∀ m, NoTable m pgd V → getMapping m pgd V ptr = (0, none) := by
  constructor
  · obtain ⟨s1, T, h1, _, h0, _, _, _, hrow, hslot⟩ := map_result s pgd V 0 f hr
    refine ⟨s1, h1, ?_⟩
    obtain ⟨e1, e2⟩ := entry_frame 0 f (by decide) (by decide) hf
    rw [e1] at hslot
    rw [e1] at e2
    unfold getMapping
    simp only [hrow, h0, if_false, hslot]
    by_cases hz : f = 0
    · subst hz; simp
    · have : 0 + f ≠ 0 := by omega
      simp only [this, hptr, ne_eq, not_false_eq_true, and_self, if_true, hz, if_false, e2]
  · intro m hm
    unfold NoTable at hm
    unfold getMapping
    simp [hm]

/-- Claim C18 at a concrete input: frame 0 mapped with no flag at `0xE0000000`. -/
theorem map_frame_zero_getMapping_witness :
    (∃ s1, map (blankVm [0x400000]) 0xC0105000 0xE0000000 0 0 = some s1 ∧
      getMapping s1.mem 0xC0105000 0xE0000000 1 = if 0 = 0 then (0, none) else (1, some 0)) ∧
    ∀ m, NoTable m 0xC0105000 0xE0000000 → getMapping m 0xC0105000 0xE0000000 1 = (0, none) :=
  map_frame_zero_getMapping (blankVm [0x400000]) 0xC0105000 0xE0000000 0 1
    (by decide) (by decide) (by decide)

/-- Claim C18 as stated fails: after `map(d, V, 0, PAGE_PRESENT | PAGE_WRITE)` the call
`getMapping(d, V)` returns 1 and stores the address 0. -/
theorem map_frame_zero_found :
    MapReady (blankVm [0x400000]) 0xC0105000 0xE0000000 ∧
    (map (blankVm [0x400000]) 0xC0105000 0xE0000000 0 3).map
      (fun s1 => getMapping s1.mem 0xC0105000 0xE0000000 1) = some (1, some 0) := by
  decide

/-- Claim C19: for every well-formed directory, virtual addresses `V` and `W` in different
pages, physical address `P` and flags `f`, with fresh frames in the page allocator (and at
least one when the table governing `V` is absent), `map(d, V, P, f)` returns and leaves the
answer of `getMapping(d, W)` as it was, whether the table governing `V` was present or is
allocated and cleared by the call. -/
theorem map_keeps_other_pages (s : VmState) (pgd V W P f : Nat)
    (hD : DirOk s.mem pgd) (hP : PoolOk s pgd [])
    (hne : NoTable s.mem pgd V → s.pool ≠ [])
    (hV : V < 4294967296) (hW : W < 4294967296) (hVW : V / PAGE_SIZE ≠ W / PAGE_SIZE) :
    ∃ s1, map s pgd V P f = some s1 ∧
      ∀ p, getMapping s1.mem pgd W p = getMapping s.mem pgd W p := by
  have hidx := page_index_ne W V hW hV (fun e => hVW e.symm)
  by_cases ht : s.mem (elem pgd (PGD_INDEX V)) &&& PAGE_MASK = 0
  · obtain ⟨s1, h1, _, _, hframe, _⟩ := map_wf s pgd V P f [] hD hP (hne ht)
    exact ⟨s1, h1, fun p => hframe W p hidx⟩
  · refine ⟨_, map_present s pgd V P f ht, ?_⟩
    intro p
    obtain ⟨d1, d2, d3, d4⟩ := hD
    have hv := PGD_INDEX_lt V
    have hi := PTE_INDEX_lt V
    have hwv := PGD_INDEX_lt W
    have hwi := PTE_INDEX_lt W
    have ht1 : tableOf s.mem pgd (PGD_INDEX V) ≠ 0 := ht
    have hT := d3 _ hv ht1
    have hrows : ∀ r, r < 1024 →
        tableOf (s.mem.store (elem (u32 (tableOf s.mem pgd (PGD_INDEX V) + PAGE_OFFSET))
          (PTE_INDEX V)) (u32 ((P &&& PAGE_MASK) ||| f))) pgd r = tableOf s.mem pgd r := by
      intro r hr
      show (s.mem.store _ _) (elem pgd r) &&& PAGE_MASK = s.mem (elem pgd r) &&& PAGE_MASK
      rw [store_other _ _ _ _ (slot_ne_row pgd _ _ _ d1 d2 hT hi hr).symm]
    apply getMapping_congr
    · exact hrows _ hwv
    · intro hne1
      show (s.mem.store _ _) _ = _
      rw [store_other]
      intro e
      obtain ⟨e1, e2⟩ := slot_inj pgd _ _ _ _ (d3 _ hwv hne1) hT hwi hi e
      rcases hidx with hw | hw
      · exact hw (d4 _ _ hwv hv hne1 e1)
      · exact hw e2

/-- Claim C19 at a concrete input: mapping `0xE0000000` allocates the page table that also
governs `0xE0001000`. -/
theorem map_keeps_other_pages_witness :
    ∃ s1, map (blankVm [0x400000]) 0xC0105000 0xE0000000 0x9000 3 = some s1 ∧
      ∀ p, getMapping s1.mem 0xC0105000 0xE0001000 p
        = getMapping (blankVm [0x400000]).mem 0xC0105000 0xE0001000 p :=
  map_keeps_other_pages (blankVm [0x400000]) 0xC0105000 0xE0000000 0xE0001000 0x9000 3
    (blankVm_dirOk _ _ (by decide) (by decide))
    (blankVm_poolOk _ _ (by decide) (by decide)) (by decide) (by decide) (by decide)
    (by decide)

/-! ## The linear window set up by `init_vmm` -/

/-- The first loop of `init_vmm` writes to the rows `i, ..., i + k - 1` only. -/
theorem init_rows_other (pgd pte : Nat) :
    ∀ (k i j : Nat) (m : Mem) (x : Nat), (∀ t, t < k → x ≠ elem pgd (i + t)) →
      init_rows pgd pte k i j m x = m x := by
  intro k
  induction k with
  | zero => intro i j m x _; rfl
  | succ k ih =>
    intro i j m x hx
    unfold init_rows
    rw [ih (i + 1) (j + 1) _ x (fun t ht => by
      have := hx (t + 1) (by omega)
      rwa [show i + (t + 1) = i + 1 + t by omega] at this)]
    exact store_other _ _ _ _ (by simpa using hx 0 (by omega))

/-- The word the first loop of `init_vmm` leaves in row `i + t`. -/
theorem init_rows_at (pgd pte : Nat) :
    ∀ (k i j : Nat) (m : Mem) (t : Nat), t < k →
      (∀ t1, t1 < k → t1 ≠ t → elem pgd (i + t1) ≠ elem pgd (i + t)) →
      init_rows pgd pte k i j m (elem pgd (i + t))
        = u32 (sub32 (elem pte (PTE_SIZE * (j + t))) PAGE_OFFSET ||| PAGE_PRESENT
            ||| PAGE_WRITE) := by
  intro k
  induction k with
  | zero => intro i j m t ht; omega
  | succ k ih =>
    intro i j m t ht hd
    unfold init_rows
    cases t with
    | zero =>
      rw [init_rows_other pgd pte k (i + 1) (j + 1) _ _ (fun t1 ht1 => by
        have := hd (t1 + 1) (by omega) (by omega)
        rw [show i + (t1 + 1) = i + 1 + t1 by omega] at this
        exact fun e => this e.symm)]
      simp only [Nat.add_zero]
      exact store_same _ _ _
    | succ t0 =>
      have e1 : i + (t0 + 1) = i + 1 + t0 := by omega
      have e2 : j + (t0 + 1) = j + 1 + t0 := by omega
      rw [e1, e2]
      apply ih (i + 1) (j + 1) _ t0 (by omega)
      intro t1 ht1 hne
      have := hd (t1 + 1) (by omega) (by omega)
      rwa [show i + (t1 + 1) = i + 1 + t1 by omega, e1] at this

/-- The second loop of `init_vmm` writes to the entries `i, ..., i + k - 1` only. -/
theorem init_entries_other (pte : Nat) :
    ∀ (k i : Nat) (m : Mem) (x : Nat), (∀ t, t < k → x ≠ elem pte (i + t)) →
      init_entries pte k i m x = m x := by
  intro k
  induction k with
  | zero => intro i m x _; rfl
  | succ k ih =>
    intro i m x hx
    unfold init_entries
    rw [ih (i + 1) _ x (fun t ht => by
      have := hx (t + 1) (by omega)
      rwa [show i + (t + 1) = i + 1 + t by omega] at this)]
    exact store_other _ _ _ _ (by simpa using hx 0 (by omega))

/-- The word the second loop of `init_vmm` leaves in entry `i + t`. -/
theorem init_entries_at (pte : Nat) :
    ∀ (k i : Nat) (m : Mem) (t : Nat), t < k →
      (∀ t1, t1 < k → t1 ≠ t → elem pte (i + t1) ≠ elem pte (i + t)) →
      init_entries pte k i m (elem pte (i + t))
        = u32 (((i + t) <<< 12) ||| PAGE_PRESENT ||| PAGE_WRITE) := by
  intro k
  induction k with
  | zero => intro i m t ht; omega
  | succ k ih =>
    intro i m t ht hd
    unfold init_entries
    cases t with
    | zero =>
      rw [init_entries_other pte k (i + 1) _ _ (fun t1 ht1 => by
        have := hd (t1 + 1) (by omega) (by omega)
        rw [show i + (t1 + 1) = i + 1 + t1 by omega] at this
        exact fun e => this e.symm)]
      simp only [Nat.add_zero]
      exact store_same _ _ _
    | succ t0 =>
      have e1 : i + (t0 + 1) = i + 1 + t0 := by omega
      rw [e1]
      apply ih (i + 1) _ t0 (by omega)
      intro t1 ht1 hne
      have := hd (t1 + 1) (by omega) (by omega)
      rwa [show i + (t1 + 1) = i + 1 + t1 by omega, e1] at this


theorem flags_three : PAGE_PRESENT ||| PAGE_WRITE = 3 := by decide

theorem PGD_INDEX_PAGE_OFFSET : PGD_INDEX PAGE_OFFSET = 768 := by decide

/-- After `init_vmm`, row `768 + t` of the kernel directory holds the physical address of
the page table `pte_kern[t]` with the present and writable flags. -/
theorem init_vmm_row (pgd pte : Nat) (m : Mem) (t : Nat) (hK : KernArrays pgd pte)
    (ht : t < 128) :
    (init_vmm pgd pte m).mem (elem pgd (768 + t)) = pte + 4096 * t - PAGE_OFFSET + 3 := by
  unfold KernArrays PAGE_SIZE PAGE_OFFSET PTE_COUNT at hK
  obtain ⟨k1, k2, k3, k4, k5, k6, k7⟩ := hK
  unfold init_vmm
  simp only []
  rw [init_entries_other pte _ 1 _ _ (fun t1 ht1 => by
    unfold PTE_COUNT PTE_SIZE at ht1
    unfold elem u32
    omega)]
  rw [PGD_INDEX_PAGE_OFFSET, init_rows_at pgd pte PTE_COUNT 768 0 m t
    (by unfold PTE_COUNT; omega) (fun t1 ht1 hne => by
      unfold PTE_COUNT at ht1
      unfold elem u32
      omega)]
  have hT : sub32 (elem pte (PTE_SIZE * (0 + t))) PAGE_OFFSET = pte + 4096 * t - PAGE_OFFSET := by
    unfold sub32 elem u32 PTE_SIZE PAGE_OFFSET
    omega
  rw [hT, Nat.lor_assoc, flags_three, or_low_bits _ 3 (by unfold PAGE_OFFSET; omega) (by omega)]
  unfold u32 PAGE_OFFSET
  omega

/-- After `init_vmm`, entry `d` of the kernel page tables, for `d` from 1 on, holds the frame
`d * 4096` with the present and writable flags. -/
theorem init_vmm_entry (pgd pte : Nat) (m : Mem) (d : Nat) (hK : KernArrays pgd pte)
    (hd1 : 1 ≤ d) (hd2 : d < 131072) :
    (init_vmm pgd pte m).mem (elem pte d) = d * 4096 + 3 := by
  unfold KernArrays PAGE_SIZE PAGE_OFFSET PTE_COUNT at hK
  obtain ⟨k1, k2, k3, k4, k5, k6, k7⟩ := hK
  obtain ⟨t, rfl⟩ : ∃ t, d = 1 + t := ⟨d - 1, by omega⟩
  unfold init_vmm
  simp only []
  rw [init_entries_at pte _ 1 _ t (by unfold PTE_COUNT PTE_SIZE; omega) (fun t1 ht1 hne => by
    unfold PTE_COUNT PTE_SIZE at ht1
    unfold elem u32
    omega)]
  have hs : (1 + t) <<< 12 = (1 + t) * 4096 := by rw [Nat.shiftLeft_eq]
  rw [hs, Nat.lor_assoc, flags_three, or_low_bits _ 3 (by omega) (by omega)]
  unfold u32
  omega

/-- The function `init_vmm` leaves entry 0 of the kernel page tables as it was. -/
theorem init_vmm_entry_zero (pgd pte : Nat) (m : Mem) (hK : KernArrays pgd pte) :
    (init_vmm pgd pte m).mem (elem pte 0) = m (elem pte 0) := by
  unfold KernArrays PAGE_SIZE PAGE_OFFSET PTE_COUNT at hK
  obtain ⟨k1, k2, k3, k4, k5, k6, k7⟩ := hK
  unfold init_vmm
  simp only []
  rw [init_entries_other pte _ 1 _ _ (fun t1 ht1 => by
    unfold PTE_COUNT PTE_SIZE at ht1
    unfold elem u32
    omega)]
  rw [PGD_INDEX_PAGE_OFFSET, init_rows_other pgd pte _ _ 0 m _ (fun t1 ht1 => by
    unfold PTE_COUNT at ht1
    unfold elem u32
    omega)]

/-- After `init_vmm`, the table installed for an address of the window and the slot of the
address in it. -/
theorem init_vmm_table (pgd pte : Nat) (m : Mem) (V : Nat) (hK : KernArrays pgd pte)
    (hlo : PAGE_OFFSET ≤ V) (hhi : V < PAGE_OFFSET + 0x20000000) :
    (init_vmm pgd pte m).mem (elem pgd (PGD_INDEX V))
      = pte + 4096 * (V / 4194304 - 768) - PAGE_OFFSET + 3 ∧
    tableOf (init_vmm pgd pte m).mem pgd (PGD_INDEX V)
      = pte + 4096 * (V / 4194304 - 768) - PAGE_OFFSET ∧
    tableOf (init_vmm pgd pte m).mem pgd (PGD_INDEX V) ≠ 0 ∧
    elem (u32 (tableOf (init_vmm pgd pte m).mem pgd (PGD_INDEX V) + PAGE_OFFSET)) (PTE_INDEX V)
      = elem pte ((V - PAGE_OFFSET) / 4096) := by
  have hr : PGD_INDEX V = 768 + (V / 4194304 - 768) := by
    rw [PGD_INDEX_eq]; unfold PAGE_OFFSET at hlo hhi; omega
  have hrow := init_vmm_row pgd pte m (V / 4194304 - 768) hK
    (by unfold PAGE_OFFSET at hlo hhi; omega)
  rw [← hr] at hrow
  unfold KernArrays PAGE_SIZE PTE_COUNT at hK
  obtain ⟨k1, k2, k3, k4, k5, k6, k7⟩ := hK
  have htab : tableOf (init_vmm pgd pte m).mem pgd (PGD_INDEX V)
      = pte + 4096 * (V / 4194304 - 768) - PAGE_OFFSET := by
    unfold tableOf
    rw [hrow, and_PAGE_MASK]
    unfold PAGE_OFFSET at *
    omega
  refine ⟨hrow, htab, ?_, ?_⟩
  · rw [htab]; unfold PAGE_OFFSET at *; omega
  · rw [htab, PTE_INDEX_eq]
    unfold elem u32 PAGE_OFFSET at *
    omega

/-- Claim C11, amended: after `init_vmm`, for every page-aligned virtual address `V` with
`PAGE_OFFSET ≤ V < PAGE_OFFSET + 512 MiB`, the row of `pgd_kern` governing `V` holds a page
table with the present and writable flags, and for every such `V` other than `PAGE_OFFSET`
itself `getMapping(pgd_kern, V)` returns 1 and stores `V - PAGE_OFFSET`; the entry of the
page at `PAGE_OFFSET`, entry 0 of the page tables, is left as it was. -/
theorem init_vmm_maps_window (pgd pte : Nat) (m : Mem) (V ptr : Nat)
    (hK : KernArrays pgd pte) (hV : V % PAGE_SIZE = 0) (hlo : PAGE_OFFSET ≤ V)
    (hhi : V < PAGE_OFFSET + 0x20000000) (hptr : ptr ≠ 0) :
    (init_vmm pgd pte m).mem (elem pgd (PGD_INDEX V)) &&& (PAGE_PRESENT ||| PAGE_WRITE)
      = PAGE_PRESENT ||| PAGE_WRITE ∧
    tableOf (init_vmm pgd pte m).mem pgd (PGD_INDEX V) ≠ 0 ∧
    (V ≠ PAGE_OFFSET →
      getMapping (init_vmm pgd pte m).mem pgd V ptr = (1, some (V - PAGE_OFFSET))) ∧
    (init_vmm pgd pte m).mem (elem pte 0) = m (elem pte 0) := by
  obtain ⟨hrow, htab, hne, hslot⟩ := init_vmm_table pgd pte m V hK hlo hhi
  refine ⟨?_, hne, ?_, init_vmm_entry_zero pgd pte m hK⟩
  · rw [hrow, flags_three]
    have h3 := Nat.and_pow_two_sub_one_eq_mod
      (pte + 4096 * (V / 4194304 - 768) - PAGE_OFFSET + 3) 2
    norm_num at h3
    rw [h3]
    unfold KernArrays PAGE_SIZE PAGE_OFFSET at hK
    unfold PAGE_OFFSET
    omega
  · intro hVne
    have hd := init_vmm_entry pgd pte m ((V - PAGE_OFFSET) / 4096) hK
      (by unfold PAGE_OFFSET PAGE_SIZE at *; omega) (by unfold PAGE_OFFSET at *; omega)
    rw [getMapping_eq, if_neg hne, hslot, hd]
    have hnz : (V - PAGE_OFFSET) / 4096 * 4096 + 3 ≠ 0 := by omega
    rw [if_pos ⟨hnz, hptr⟩, and_PAGE_MASK]
    have : ((V - PAGE_OFFSET) / 4096 * 4096 + 3) / 4096 % 1048576 * 4096 = V - PAGE_OFFSET := by
      unfold PAGE_OFFSET PAGE_SIZE at *
      omega
    rw [this]

/-- Claim C11 at a concrete input: the page at `0xC0001000`, with `pgd_kern` at `0xC0105000`
and `pte_kern` at `0xC0106000`. -/
theorem init_vmm_maps_window_witness :
    (init_vmm 0xC0105000 0xC0106000 (fun _ => 0)).mem (elem 0xC0105000 (PGD_INDEX 0xC0001000))
        &&& (PAGE_PRESENT ||| PAGE_WRITE) = PAGE_PRESENT ||| PAGE_WRITE ∧
    tableOf (init_vmm 0xC0105000 0xC0106000 (fun _ => 0)).mem 0xC0105000
      (PGD_INDEX 0xC0001000) ≠ 0 ∧
    (0xC0001000 ≠ PAGE_OFFSET →
      getMapping (init_vmm 0xC0105000 0xC0106000 (fun _ => 0)).mem 0xC0105000 0xC0001000 1
        = (1, some (0xC0001000 - PAGE_OFFSET))) ∧
    (init_vmm 0xC0105000 0xC0106000 (fun _ => 0)).mem (elem 0xC0106000 0)
      = (fun _ => 0) (elem 0xC0106000 0) :=
  init_vmm_maps_window 0xC0105000 0xC0106000 (fun _ => 0) 0xC0001000 1
    (by decide) (by decide) (by decide) (by decide) (by decide)

/-- Claim C11 as stated fails: with the static arrays zero-initialised, after `init_vmm` the
call `getMapping(pgd_kern, 0xC0000000)` returns 0: the second loop of `init_vmm` starts at
entry 1, so the first page of the window is not mapped. -/
theorem init_vmm_first_page_not_found :
    KernArrays 0xC0105000 0xC0106000 ∧
    getMapping (init_vmm 0xC0105000 0xC0106000 (fun _ => 0)).mem 0xC0105000 0xC0000000 1
      = (0, none) := by
  have hK : KernArrays 0xC0105000 0xC0106000 := by decide
  refine ⟨hK, ?_⟩
  obtain ⟨_, _, hne, hslot⟩ := init_vmm_table 0xC0105000 0xC0106000 (fun _ => 0) 0xC0000000 hK
    (by decide) (by decide)
  have h0 := init_vmm_entry_zero 0xC0105000 0xC0106000 (fun _ => 0) hK
  rw [getMapping_eq, if_neg hne, hslot]
  have e : (0xC0000000 - PAGE_OFFSET) / 4096 = 0 := by decide
  rw [e, h0]
  simp

/-! ## Searching and freeing in a list damaged by `splitChunk` and `glueChunk` -/

/-- The search loop of `kmalloc` never leaves a chunk that is its own successor and does not
fit the request. -/
theorem kmallocLoop_self_loop (L : Layout) (gas len : Nat) (h : Heap) (y : Nat) (hy : y ≠ 0)
    (hfit : ¬ ((h.chunk y).allocated = 0 ∧ (h.chunk y).len ≥ len))
    (hn : (h.chunk y).next = y) :
    ∀ (fuel prev : Nat), kmallocLoop L gas fuel h len y prev = none := by
  intro fuel
  induction fuel with
  | zero => intro prev; rfl
  | succ f ih =>
    intro prev
    unfold kmallocLoop
    rw [if_pos hy, if_neg hfit, hn]
    exact ih y

/-- The function `kmalloc` does not return, whatever the fuel, when the list consists of a
first chunk that does not fit the request followed by a chunk that does not fit either and
is its own successor. -/
theorem kmalloc_cycle (L : Layout) (h : Heap) (n y : Nat) (ha : h.heap_head ≠ 0)
    (hfa : ¬ ((h.chunk h.heap_head).allocated = 0 ∧
      (h.chunk h.heap_head).len ≥ u32 (n + L.HDR)))
    (hay : (h.chunk h.heap_head).next = y) (hy : y ≠ 0)
    (hfy : ¬ ((h.chunk y).allocated = 0 ∧ (h.chunk y).len ≥ u32 (n + L.HDR)))
    (hn : (h.chunk y).next = y) (fuel : Nat) :
    kmalloc L fuel h n = none := by
  unfold kmalloc
  simp only []
  cases fuel with
  | zero => rfl
  | succ f =>
    unfold kmallocLoop
    rw [if_pos ha, if_neg hfa, hay]
    exact kmallocLoop_self_loop L _ _ h y hy hfy hn f _

/-- Claim C7 evaluated: after `A = kmalloc(100)`, `B = kmalloc(10)`, `kfree(A)`,
`kmalloc(10)` the list is the allocated chunk at `0xE0000000` followed by the free chunk of
length 90 at `0xE0000070`, which is its own successor.  The call `kmalloc(100)`, which needs
112 bytes, then walks this cycle for ever: it returns no pointer, whatever the fuel. -/
theorem kmalloc_never_returns_on_cycle :
    ((emptyClient [0x400000, 0x401000]).run stdLayout 8
        [Call.malloc 100, Call.malloc 10, Call.free 0xE000000C, Call.malloc 10]).map
      (fun c => (c.live, c.heap.heap_max, showHeapDbg 3 c.heap c.heap.heap_head))
      = some ([(0xE000000C, 10), (0xE000007C, 10)], 0xE0001000,
          [(0xE0000000, 1, 22), (0xE0000070, 0, 90), (0xE0000070, 0, 90)]) ∧
    ¬ ∃ fuel r, kmalloc stdLayout fuel
      (heapAfter [0x400000, 0x401000]
        [Call.malloc 100, Call.malloc 10, Call.free 0xE000000C, Call.malloc 10]) 100 = some r := by
  refine ⟨by decide, ?_⟩
  rintro ⟨fuel, r, e⟩
  rw [kmalloc_cycle stdLayout _ 100 0xE0000070 (by decide) (by decide) (by decide) (by decide)
    (by decide) (by decide) fuel] at e
  cases e

/-- Claim C15 evaluated: after `A = kmalloc(10)`, `B = kmalloc(110)`, `kfree(A)`, `kfree(B)`,
`kmalloc(28)` the list is the allocated chunk at `0xE0000000`, the free chunk of length 104
at `0xE0000090` and the free chunk of length 122 at `0xE0000016`.  For `kmalloc(96)`, which
needs 108 bytes, the first chunk that fits is the one at `0xE0000016`, and the chunks before
it are those at `0xE0000000` and `0xE0000090`.  The call returns `0xE0000022` and leaves the
first chunk as it was, but the header at `0xE0000090` is overwritten: its length is 14
and its links are changed. -/
theorem split_overwrites_earlier_chunk :
    ((emptyClient [0x400000, 0x401000]).run stdLayout 8
        [Call.malloc 10, Call.malloc 110, Call.free 0xE000000C, Call.free 0xE0000022,
          Call.malloc 28]).map
      (fun c => (c.live, showHeapDbg 4 c.heap c.heap.heap_head))
      = some ([(0xE000000C, 28)],
          [(0xE0000000, 1, 40), (0xE0000090, 0, 104), (0xE0000016, 0, 122)]) ∧
    ((emptyClient [0x400000, 0x401000]).run stdLayout 8
        [Call.malloc 10, Call.malloc 110, Call.free 0xE000000C, Call.free 0xE0000022,
          Call.malloc 28]).map
      (fun c => (firstFit c.heap (96 + stdLayout.HDR) 4 c.heap.heap_head,
        walkTo c.heap 0xE0000016 4 c.heap.heap_head))
      = some (some 0xE0000016, [0xE0000000, 0xE0000090]) ∧
    ((emptyClient [0x400000, 0x401000]).run stdLayout 8
        [Call.malloc 10, Call.malloc 110, Call.free 0xE000000C, Call.free 0xE0000022,
          Call.malloc 28]).map
      (fun c => [(c.heap.chunk 0xE0000000).fields, (c.heap.chunk 0xE0000090).fields])
      = some [(0, 0xE0000090, 1, 40), (0xE0000000, 0xE0000016, 0, 104)] ∧
    ((emptyClient [0x400000, 0x401000]).run stdLayout 8
        [Call.malloc 10, Call.malloc 110, Call.free 0xE000000C, Call.free 0xE0000022,
          Call.malloc 28, Call.malloc 96]).map
      (fun c => (c.live, [(c.heap.chunk 0xE0000000).fields, (c.heap.chunk 0xE0000090).fields]))
      = some ([(0xE0000022, 96), (0xE000000C, 28)],
          [(0, 0xE0000090, 1, 40), (0xE0000016, 0, 0, 14)]) :=
  ⟨by decide, by decide, by decide, by decide⟩

/-- Claim C17 evaluated: after twelve calls the pointers `0xE0000086` and `0xE0000100` are
live, the chunk at `0xE000007A` of the first has the allocated chunk at `0xE00000F4` as
successor and the free chunk at `0xE0000000`, whose successor is null, as predecessor;
`heap_head` is `0xE0000000`, `heap_max` is `0xE0001000`, the page allocator holds no frame
and the page at `0xE0000000` is mapped.  After `kfree(0xE0000086)` `heap_head` is 0,
`heap_max` is `0xE0000000`, the page is unmapped and its frame is back in the pool, while
`0xE0000100` is still live. -/
theorem kfree_inner_chunk_frees_page :
    ((emptyClient [0x400000, 0x401000]).run stdLayout 8
        [Call.malloc 10, Call.malloc 110, Call.free 0xE000000C, Call.free 0xE0000022,
          Call.malloc 110, Call.malloc 10, Call.malloc 10, Call.free 0xE0000022,
          Call.malloc 110, Call.malloc 10, Call.free 0xE000000C, Call.free 0xE000009C]).map
      (fun c => (c.live, [(c.heap.chunk 0xE0000000).fields, (c.heap.chunk 0xE000007A).fields,
        (c.heap.chunk 0xE00000F4).fields]))
      = some ([(0xE0000100, 10), (0xE0000086, 110)],
          [(0, 0, 0, 122), (0xE0000000, 0xE00000F4, 1, 122), (0xE000007A, 0, 1, 22)]) ∧
    ((emptyClient [0x400000, 0x401000]).run stdLayout 8
        [Call.malloc 10, Call.malloc 110, Call.free 0xE000000C, Call.free 0xE0000022,
          Call.malloc 110, Call.malloc 10, Call.malloc 10, Call.free 0xE0000022,
          Call.malloc 110, Call.malloc 10, Call.free 0xE000000C, Call.free 0xE000009C]).map
      (fun c => [c.heap.heap_head, c.heap.heap_max, c.heap.vm.pool.length,
        (getMapping c.heap.vm.mem stdLayout.pgd_kern 0xE0000000 1).1])
      = some [0xE0000000, 0xE0001000, 0, 1] ∧
    ((emptyClient [0x400000, 0x401000]).run stdLayout 8
        [Call.malloc 10, Call.malloc 110, Call.free 0xE000000C, Call.free 0xE0000022,
          Call.malloc 110, Call.malloc 10, Call.malloc 10, Call.free 0xE0000022,
          Call.malloc 110, Call.malloc 10, Call.free 0xE000000C, Call.free 0xE000009C,
          Call.free 0xE0000086]).map
      (fun c => (c.live, [c.heap.heap_head, c.heap.heap_max, c.heap.vm.pool.length,
        (getMapping c.heap.vm.mem stdLayout.pgd_kern 0xE0000000 1).1]))
      = some ([(0xE0000100, 10)], [0, 0xE0000000, 1, 0]) := by
  decide

end MortyOS
